import Mathlib

/-!
# A verification model of the `bubble-bath` HTML sanitizer

This file embeds the sanitizer logic of `src/src/lib.rs` (crate
`bubble-bath`) into Lean and proves properties of it.

The crate drives an external streaming HTML tokenizer (`lol_html`): the
sanitizer itself consists of pure per-event handlers (element, text,
comment, document-end), an unclosed-tag registry (a `slab::Slab`), and a
pending angle-bracket counter that decides how many synthetic `>` bytes
are appended at end of input.  Everything of the crate itself is
translated directly from the source; the external tokenizer, which is an
out-of-scope collaborator supplied as a dependency, is modelled from the
specification as a WHATWG-style HTML tokenizer state machine over
characters (inputs in all theorems are ASCII, where bytes and characters
coincide).
-/

set_option maxRecDepth 10000

/-- Characters are compared literally; a few special ones that would be
awkward as literals are fixed here by code point. -/
def quoteCh : Char := Char.ofNat 34

def aposCh : Char := Char.ofNat 39

def graveCh : Char := Char.ofNat 96

def nulCh : Char := Char.ofNat 0

/-- The replacement table of `clean_text` (src/src/lib.rs lines 40-63),
applied to a single character. -/
def cleanChar (c : Char) : List Char :=
  if c = '<' then "&lt;".data
  else if c = '>' then "&gt;".data
  else if c = quoteCh then "&quot;".data
  else if c = aposCh then "&apos;".data
  else if c = graveCh then "&grave;".data
  else if c = '/' then "&#47;".data
  else if c = '&' then "&amp;".data
  else if c = '=' then "&#61;".data
  else if c = nulCh then "&#65533;".data
  else [c]

/-- `clean_text` (src/src/lib.rs lines 40-63): per-character substitution
over the whole text run. -/
def cleanText (s : List Char) : List Char := s.flatMap cleanChar

/-- The escaping `lol_html` applies to content inserted with
`ContentType::Text` (replaces the markup-significant characters only).
Modelled from the spec: the tokenizer collaborator escapes text
insertions. -/
def lolChar (c : Char) : List Char :=
  if c = '<' then "&lt;".data
  else if c = '>' then "&gt;".data
  else if c = '&' then "&amp;".data
  else [c]

def lolEscape (s : List Char) : List Char := s.flatMap lolChar

/-- Number of occurrences of a character in a run. -/
def countCh (c : Char) (s : List Char) : Nat := s.count c

/-- `count_unclosed_opening_tags` (src/src/lib.rs lines 247-259): add the
number of `<` bytes, then subtract (saturating at zero) the number of `>`
bytes. -/
def countUnclosedOpeningTags (counter : Nat) (input : List Char) : Nat :=
  (counter + countCh '<' input) - countCh '>' input

/-- `subtract_opening_tags` (src/src/lib.rs lines 261-270): subtract the
input's own unclosed-opening-tag count, saturating at zero. -/
def subtractOpeningTags (counter : Nat) (input : List Char) : Nat :=
  counter - countUnclosedOpeningTags 0 input

/-! ## The unclosed-tag registry: `slab::Slab<String>`

`slab::Slab` is a dense arena: `insert` reuses the most recently freed
slot (an intrusive LIFO free list) or appends a fresh slot; iteration is
in ascending key order.  We model it as a slot list plus an explicit
free-key stack. -/

structure Slab where
  slots : List (Option String)
  free : List Nat
  deriving Repr, DecidableEq

def Slab.empty : Slab := ⟨[], []⟩

/-- `Slab::insert`: pop the most recently freed key, else append. -/
def Slab.insert (s : Slab) (v : String) : Slab × Nat :=
  match s.free with
  | k :: rest => (⟨s.slots.set k (some v), rest⟩, k)
  | [] => (⟨s.slots ++ [some v], s.free⟩, s.slots.length)

/-- `Slab::remove`: vacate the slot and push its key on the free list. -/
def Slab.removeKey (s : Slab) (k : Nat) : Slab :=
  ⟨s.slots.set k none, k :: s.free⟩

def Slab.getKey (s : Slab) (k : Nat) : Option String :=
  (s.slots.get? k).join

/-- `Slab::iter`: occupied entries in ascending key order. -/
def Slab.entries (s : Slab) : List (Nat × String) :=
  s.slots.enum.filterMap fun p =>
    match p.2 with
    | some v => some (p.1, v)
    | none => none

/-- Occurrences of a given tag name among the occupied slots. -/
def Slab.countName (s : Slab) (t : String) : Nat :=
  s.slots.count (some t)

/-! ## The policy: `struct BubbleBath` (src/src/lib.rs lines 84-115)

Hash sets and maps are modelled as lists (iteration order of the Rust
hash containers is unspecified; the model fixes list order — every map
the claims exercise has at most one entry per key, so the order is
immaterial there).  The memory settings are not modelled: the model has
no memory ceiling. -/

structure BubbleBath where
  allowedGenericAttributes : List String
  allowedTags : List String
  allowedTagAttributes : List (String × List String)
  allowedUrlSchemes : List String
  cleanUrlAttributes : List (String × List String)
  preserveEscaped : Bool
  removeContentTags : List String
  setTagAttributes : List (String × List (String × String))
  deriving Repr

def lookupList (m : List (String × List String)) (k : String) :
    Option (List String) :=
  (m.find? fun p => p.1 == k).map Prod.snd

def lookupMap (m : List (String × List (String × String))) (k : String) :
    Option (List (String × String)) :=
  (m.find? fun p => p.1 == k).map Prod.snd

/-! ## Elements

One start-tag event of the tokenizer: tag name, ordered attribute list,
self-closing flag (`lol_html::html_content::Element`). -/

structure Tag where
  name : String
  attrs : List (String × String)
  selfClosing : Bool
  deriving Repr, DecidableEq

/-- `Element::get_attribute`. -/
def getAttribute (t : Tag) (an : String) : Option String :=
  (t.attrs.find? fun p => p.1 == an).map Prod.snd

/-- `Element::remove_attribute`. -/
def removeAttribute (t : Tag) (an : String) : Tag :=
  { t with attrs := t.attrs.filter fun p => p.1 != an }

/-- `Element::set_attribute`: replace the value in place when the name is
present, else append the attribute at the end of the tag. -/
def setAttribute (t : Tag) (an av : String) : Tag :=
  if t.attrs.any (fun p => p.1 == an) then
    { t with attrs := t.attrs.map fun p => if p.1 == an then (an, av) else p }
  else
    { t with attrs := t.attrs ++ [(an, av)] }

/-- `lol_html` rejects syntactically invalid attribute names supplied to
`set_attribute`; modelled from the spec as a character check. -/
def isValidAttrName (an : String) : Bool :=
  an != "" && an.data.all fun c => c.isAlpha || c == '-'

/-- `BubbleBath::clean_attributes` (src/src/lib.rs lines 119-145): drop
every attribute whose name is in neither the generic allow-list nor the
tag's per-tag allow-list.  (The source collects the offending names and
removes them one by one; attribute names are unique after tokenization,
so this is a filter.) -/
def cleanAttributes (bb : BubbleBath) (t : Tag) : Tag :=
  let allowed := lookupList bb.allowedTagAttributes t.name
  { t with
    attrs := t.attrs.filter fun p =>
      bb.allowedGenericAttributes.contains p.1 ||
        (match allowed with
         | some l => l.contains p.1
         | none => false) }

/-- Rust `str::split_once`: split at the first occurrence of the pattern. -/
def splitOnce : List Char → List Char → Option (List Char × List Char)
  | [], _ => none
  | c :: rest, pat =>
    if pat.isPrefixOf (c :: rest) then some ([], (c :: rest).drop pat.length)
    else (splitOnce rest pat).map fun p => (c :: p.1, p.2)

/-- `BubbleBath::clean_link` (src/src/lib.rs lines 147-161): absent
attributes are left alone; values without `://` are removed; values whose
scheme (case as supplied) is not allow-listed are removed. -/
def cleanLink (bb : BubbleBath) (t : Tag) (an : String) : Tag :=
  match getAttribute t an with
  | none => t
  | some rawUrl =>
    match splitOnce rawUrl.data "://".data with
    | none => removeAttribute t an
    | some (scheme, _rest) =>
      if bb.allowedUrlSchemes.contains (String.mk scheme) then t
      else removeAttribute t an

/-- `format!("<{tag_name}")`, the attributes in original order, and the
closing marker — the escaped-tag reconstruction of `delete_element`
(src/src/lib.rs lines 163-195). -/
def formatTag (t : Tag) : List Char :=
  '<' :: t.name.data ++
    (t.attrs.flatMap fun p =>
      ' ' :: p.1.data ++ '=' :: quoteCh :: p.2.data ++ [quoteCh]) ++
    (if t.selfClosing then [' ', '/', '>'] else ['>'])

/-- The default policy (src/src/lib.rs lines 397-521). -/
def bbDefault : BubbleBath where
  allowedTags :=
    ["a", "abbr", "acronym", "area", "article", "aside", "b", "bdi",
     "bdo", "blockquote", "br", "caption", "center", "cite", "code",
     "col", "colgroup", "data", "dd", "del", "details", "dfn", "div",
     "dl", "dt", "em", "figcaption", "figure", "footer", "h1", "h2",
     "h3", "h4", "h5", "h6", "header", "hgroup", "hr", "i", "img",
     "ins", "kbd", "li", "map", "mark", "nav", "ol", "p", "pre",
     "q", "rp", "rt", "rtc", "ruby", "s", "samp", "small", "span",
     "strike", "strong", "sub", "summary", "sup", "table", "tbody",
     "td", "th", "thead", "time", "tr", "tt", "u", "ul", "var", "wbr"]
  allowedGenericAttributes := ["lang", "title"]
  allowedTagAttributes :=
    [("a", ["href", "hreflang"]),
     ("bdo", ["dir"]),
     ("blockquote", ["cite"]),
     ("col", ["align", "char", "charoff", "span"]),
     ("colgroup", ["align", "char", "charoff", "span"]),
     ("del", ["cite", "datetime"]),
     ("hr", ["align", "size", "width"]),
     ("img", ["align", "alt", "height", "src", "width"]),
     ("ins", ["cite", "datetime"]),
     ("ol", ["start"]),
     ("q", ["cite"]),
     ("table", ["align", "char", "charoff", "summary"]),
     ("tbody", ["align", "char", "charoff"]),
     ("td", ["align", "char", "charoff", "colspan", "headers", "rowspan"]),
     ("tfoot", ["align", "char", "charoff"]),
     ("th", ["align", "char", "charoff", "colspan", "headers", "rowspan",
             "scope"]),
     ("thead", ["align", "char", "charoff"]),
     ("tr", ["align", "char", "charoff"])]
  allowedUrlSchemes :=
    ["bitcoin", "ftp", "ftps", "geo", "http", "https", "im", "irc",
     "ircs", "magnet", "mailto", "mms", "mx", "news", "nntp",
     "openpgp4fpr", "sip", "sms", "smsto", "ssh", "tel", "url",
     "webcal", "wtai", "xmpp"]
  cleanUrlAttributes := [("a", ["href"]), ("img", ["src"]), ("link", ["href"])]
  preserveEscaped := false
  removeContentTags := ["script", "style"]
  setTagAttributes := [("a", [("rel", "noopener noreferrer")])]

/-! ## The external tokenizer

Modelled from the spec: the streaming HTML5 tokenizer (`lol_html`) is an
out-of-scope collaborator "assumed correct, given as a dependency"; the
spec requires of it only the event interface of section 6.  We model it
as a WHATWG-style tokenizer state machine producing start-tag, end-tag,
text and comment events.  Tag and attribute names are lowercased by the
tokenizer (the spec: "names are case-normalized by the upstream
tokenizer"); text inside `script`/`style`-like elements is raw text;
an incomplete construct at a write boundary stays buffered, and text that
is already known to be character data is flushed at the end of each
write. -/

inductive Event
  | startTag (t : Tag)
  | endTag (nm : String)
  | text (s : List Char)
  | comment (s : List Char)
  deriving Repr, DecidableEq

/-- Elements whose content the tokenizer treats as raw text. -/
def rawTextTags : List String :=
  ["script", "style", "textarea", "title", "xmp", "iframe", "noembed",
   "noframes"]

/-- Void elements: no end tag is ever expected for them
(`Element::end_tag_handlers` returns `None`). -/
def voidTags : List String :=
  ["area", "base", "basefont", "bgsound", "br", "col", "embed", "hr",
   "img", "input", "keygen", "link", "meta", "param", "source", "track",
   "wbr"]

/-- Tokenizer states.  `acc` fields hold pending character data (in
order); partially built tags ride along in the state. -/
inductive Tok
  | data (acc : List Char)
  | tagOpen
  | endTagOpen
  | tagName (t : Tag)
  | beforeAttrName (t : Tag)
  | attrName (t : Tag) (an : List Char)
  | afterAttrName (t : Tag) (an : List Char)
  | beforeAttrVal (t : Tag) (an : List Char)
  | attrValDq (t : Tag) (an av : List Char)
  | attrValSq (t : Tag) (an av : List Char)
  | attrValUnq (t : Tag) (an av : List Char)
  | afterAttrValQ (t : Tag)
  | selfClosingStart (t : Tag)
  | endTagName (nm : List Char)
  | endTagRest (nm : List Char)
  | markupDeclOpen
  | markupDeclDash
  | commentBody (acc : List Char)
  | commentDash (acc : List Char)
  | commentDashDash (acc : List Char)
  | bogusComment (acc : List Char)
  | rawData (el : String) (acc : List Char)
  | rawLt (el : String) (acc : List Char)
  | rawEndOpen (el : String) (acc : List Char)
  | rawEndName (el : String) (acc : List Char) (nm : List Char)
  deriving Repr, DecidableEq

def isWs (c : Char) : Bool :=
  c == ' ' || c == '\t' || c == '\n' || c == '\r' || c == Char.ofNat 12

def mkTag (nm : List Char) : Tag := ⟨String.mk nm, [], false⟩

/-- Finishing an attribute: the HTML tokenizer drops duplicate attribute
names. -/
def pushAttr (t : Tag) (an av : List Char) : Tag :=
  if t.attrs.any fun p => p.1 == String.mk an then t
  else { t with attrs := t.attrs ++ [(String.mk an, String.mk av)] }

/-- State entered after a start tag is emitted: raw-text elements switch
the tokenizer into their raw-text mode. -/
def postStart (nm : String) : Tok :=
  if rawTextTags.contains nm then Tok.rawData nm [] else Tok.data []

def finishTag (t : Tag) : Tok × List Event :=
  (postStart t.name, [Event.startTag t])

def textEvent (acc : List Char) : List Event :=
  if acc.isEmpty then [] else [Event.text acc]

/-- One character of tokenizer input. -/
def tokStep (tok : Tok) (c : Char) : Tok × List Event :=
  match tok with
  | .data acc =>
    if c = '<' then (.tagOpen, textEvent acc)
    else (.data (acc ++ [c]), [])
  | .tagOpen =>
    if c.isAlpha then (.tagName (mkTag [c.toLower]), [])
    else if c = '/' then (.endTagOpen, [])
    else if c = '!' then (.markupDeclOpen, [])
    else if c = '?' then (.bogusComment ['?'], [])
    else if c = '<' then (.tagOpen, [Event.text ['<']])
    else (.data ['<', c], [])
  | .endTagOpen =>
    if c.isAlpha then (.endTagName [c.toLower], [])
    else if c = '>' then (.data [], [])
    else (.bogusComment [c], [])
  | .tagName t =>
    if isWs c then (.beforeAttrName t, [])
    else if c = '/' then (.selfClosingStart t, [])
    else if c = '>' then finishTag t
    else (.tagName { t with name := String.mk (t.name.data ++ [c.toLower]) }, [])
  | .beforeAttrName t =>
    if isWs c then (.beforeAttrName t, [])
    else if c = '/' then (.selfClosingStart t, [])
    else if c = '>' then finishTag t
    else (.attrName t [c.toLower], [])
  | .attrName t an =>
    if isWs c then (.afterAttrName t an, [])
    else if c = '=' then (.beforeAttrVal t an, [])
    else if c = '/' then (.selfClosingStart (pushAttr t an []), [])
    else if c = '>' then finishTag (pushAttr t an [])
    else (.attrName t (an ++ [c.toLower]), [])
  | .afterAttrName t an =>
    if isWs c then (.afterAttrName t an, [])
    else if c = '=' then (.beforeAttrVal t an, [])
    else if c = '/' then (.selfClosingStart (pushAttr t an []), [])
    else if c = '>' then finishTag (pushAttr t an [])
    else (.attrName (pushAttr t an []) [c.toLower], [])
  | .beforeAttrVal t an =>
    if isWs c then (.beforeAttrVal t an, [])
    else if c = quoteCh then (.attrValDq t an [], [])
    else if c = aposCh then (.attrValSq t an [], [])
    else if c = '>' then finishTag (pushAttr t an [])
    else (.attrValUnq t an [c], [])
  | .attrValDq t an av =>
    if c = quoteCh then (.afterAttrValQ (pushAttr t an av), [])
    else (.attrValDq t an (av ++ [c]), [])
  | .attrValSq t an av =>
    if c = aposCh then (.afterAttrValQ (pushAttr t an av), [])
    else (.attrValSq t an (av ++ [c]), [])
  | .attrValUnq t an av =>
    if isWs c then (.beforeAttrName (pushAttr t an av), [])
    else if c = '>' then finishTag (pushAttr t an av)
    else (.attrValUnq t an (av ++ [c]), [])
  | .afterAttrValQ t =>
    if isWs c then (.beforeAttrName t, [])
    else if c = '/' then (.selfClosingStart t, [])
    else if c = '>' then finishTag t
    else (.attrName t [c.toLower], [])
  | .selfClosingStart t =>
    if c = '>' then finishTag { t with selfClosing := true }
    else if isWs c then (.beforeAttrName t, [])
    else if c = '/' then (.selfClosingStart t, [])
    else (.attrName t [c.toLower], [])
  | .endTagName nm =>
    if isWs c then (.endTagRest nm, [])
    else if c = '>' then (.data [], [Event.endTag (String.mk nm)])
    else (.endTagName (nm ++ [c.toLower]), [])
  | .endTagRest nm =>
    if c = '>' then (.data [], [Event.endTag (String.mk nm)])
    else (.endTagRest nm, [])
  | .markupDeclOpen =>
    if c = '-' then (.markupDeclDash, [])
    else (.bogusComment [c], [])
  | .markupDeclDash =>
    if c = '-' then (.commentBody [], [])
    else (.bogusComment ['-', c], [])
  | .commentBody acc =>
    if c = '-' then (.commentDash acc, [])
    else (.commentBody (acc ++ [c]), [])
  | .commentDash acc =>
    if c = '-' then (.commentDashDash acc, [])
    else (.commentBody (acc ++ '-' :: [c]), [])
  | .commentDashDash acc =>
    if c = '>' then (.data [], [Event.comment acc])
    else if c = '-' then (.commentDashDash (acc ++ ['-']), [])
    else (.commentBody (acc ++ '-' :: '-' :: [c]), [])
  | .bogusComment acc =>
    if c = '>' then (.data [], [Event.comment acc])
    else (.bogusComment (acc ++ [c]), [])
  | .rawData el acc =>
    if c = '<' then (.rawLt el acc, [])
    else (.rawData el (acc ++ [c]), [])
  | .rawLt el acc =>
    if c = '/' then (.rawEndOpen el acc, [])
    else if c = '<' then (.rawLt el (acc ++ ['<']), [])
    else (.rawData el (acc ++ '<' :: [c]), [])
  | .rawEndOpen el acc =>
    if c.isAlpha then (.rawEndName el acc [c.toLower], [])
    else if c = '<' then (.rawLt el (acc ++ ['<', '/']), [])
    else (.rawData el (acc ++ '<' :: '/' :: [c]), [])
  | .rawEndName el acc nm =>
    if c.isAlpha then (.rawEndName el acc (nm ++ [c.toLower]), [])
    else if String.mk nm == el && c == '>' then
      (.data [], textEvent acc ++ [Event.endTag el])
    else if String.mk nm == el && isWs c then
      (.endTagRest nm, textEvent acc)
    else if c = '<' then (.rawLt el (acc ++ '<' :: '/' :: nm), [])
    else (.rawData el (acc ++ '<' :: '/' :: nm ++ [c]), [])

/-- End-of-input flush (`HtmlRewriter::end`), per the WHATWG end-of-file
rules: pending character data and comments are emitted, a partially
parsed tag is dropped, a lone `<` or `</` becomes text. -/
def tokFlush (tok : Tok) : List Event :=
  match tok with
  | .data acc => textEvent acc
  | .tagOpen => [Event.text ['<']]
  | .endTagOpen => [Event.text ['<', '/']]
  | .tagName _ | .beforeAttrName _ | .attrName _ _ | .afterAttrName _ _
  | .beforeAttrVal _ _ | .attrValDq _ _ _ | .attrValSq _ _ _
  | .attrValUnq _ _ _ | .afterAttrValQ _ | .selfClosingStart _
  | .endTagName _ | .endTagRest _ => []
  | .markupDeclOpen => [Event.comment []]
  | .markupDeclDash => [Event.comment ['-']]
  | .commentBody acc => [Event.comment acc]
  | .commentDash acc => [Event.comment acc]
  | .commentDashDash acc => [Event.comment acc]
  | .bogusComment acc => [Event.comment acc]
  | .rawData _ acc => textEvent acc
  | .rawLt _ acc => textEvent (acc ++ ['<'])
  | .rawEndOpen _ acc => textEvent (acc ++ ['<', '/'])
  | .rawEndName _ acc nm => textEvent (acc ++ '<' :: '/' :: nm)

/-- Write-boundary flush: character data that is already known to be text
is delivered at the end of each `write` call (`lol_html` produces output
incrementally; only a potential tag start stays buffered). -/
def tokChunkFlush (tok : Tok) : Tok × List Event :=
  match tok with
  | .data acc => (.data [], textEvent acc)
  | .rawData el acc => (.rawData el [], textEvent acc)
  | t => (t, [])

/-! ## The rewriter run: dispatching events to the crate's handlers

`clean_streaming` (src/src/lib.rs lines 292-368) installs one element
handler, a text handler, a comment handler and a document-end handler,
shares the unclosed-tag slab and the pending angle-bracket counter with
them, and drives the tokenizer chunk by chunk.

End-tag callbacks registered on an element (`end_tag_handlers`) fire when
the tokenizer matches that element's end tag; `remove` suppresses the
output of the element and its subtree; `remove_and_keep_content`
suppresses only the tag markers.  These mechanics of the collaborator are
modelled by an open-element stack of pending end-tag actions. -/

inductive EndAct
  | balance (k : Nat)
  | keepContent
  | escape
  | removeAll
  deriving Repr, DecidableEq

structure OpenE where
  name : String
  act : EndAct
  deriving Repr, DecidableEq

def isRemoveAll : EndAct → Bool
  | .removeAll => true
  | _ => false

/-- Output is produced as a sequence of pieces (each piece is one chunk
handed to the output sink). -/
inductive Piece
  | tagO (t : Tag)
  | tagC (nm : String)
  | txt (s : List Char)
  | closer (nm : String)
  deriving Repr, DecidableEq

/-- Ghost log of slab registrations and removals, used only to reason
about registration order. -/
inductive RegEv
  | ins (k : Nat) (nm : String)
  | rem (k : Nat)
  deriving Repr, DecidableEq

structure RS where
  tok : Tok
  out : List Piece
  slab : Slab
  stk : List OpenE
  counter : Nat
  err : Bool
  fed : List Char
  regLog : List RegEv
  deriving Repr, DecidableEq

def initRS : RS := ⟨.data [], [], Slab.empty, [], 0, false, [], []⟩

/-- Output of the element and its subtree is suppressed while a removed
element is open. -/
def suppressed (stk : List OpenE) : Bool :=
  stk.any fun e => isRemoveAll e.act

/-- The tokenizer matches an end tag to the innermost open element with
the same name; elements implicitly closed in between never see their end
tag. -/
def findPopMatch : List OpenE → String → Option (OpenE × List OpenE)
  | [], _ => none
  | e :: rest, nm =>
    if e.name == nm then some (e, rest)
    else (findPopMatch rest nm).map fun p => (p.1, e :: p.2)

/-- The text handler (src/src/lib.rs lines 278-282): subtract the chunk's
own angle-bracket count from the shared counter, then replace the chunk
text with its escaped form. -/
def onText (s : RS) (txtC : List Char) : RS :=
  { s with
    counter := subtractOpeningTags s.counter txtC
    out := if suppressed s.stk then s.out
           else s.out ++ [Piece.txt (cleanText txtC)] }

/-- The comment handler (src/src/lib.rs lines 272-276): subtract the
comment's own angle-bracket count, then remove the comment. -/
def onComment (s : RS) (txtC : List Char) : RS :=
  { s with counter := subtractOpeningTags s.counter txtC }

/-- An end-tag event: fire the pending action of the matched element, or
pass the tag through unchanged when no open element matches. -/
def onEndTag (s : RS) (nm : String) : RS :=
  match findPopMatch s.stk nm with
  | none =>
    { s with out := if suppressed s.stk then s.out else s.out ++ [Piece.tagC nm] }
  | some (e, stkRest) =>
    match e.act with
    | .balance k =>
      { s with stk := stkRest, slab := s.slab.removeKey k,
               regLog := s.regLog ++ [RegEv.rem k],
               out := if suppressed stkRest then s.out
                      else s.out ++ [Piece.tagC nm] }
    | .keepContent => { s with stk := stkRest }
    | .escape =>
      { s with stk := stkRest,
               out := if suppressed stkRest then s.out
                      else s.out ++
                        [Piece.txt (lolEscape ('<' :: '/' :: nm.data ++ ['>']))] }
    | .removeAll => { s with stk := stkRest }

/-- `set_tag_attributes` application: `element.set_attribute(name, value)?`
for each configured pair; an invalid name aborts with an error. -/
def applySets (t : Tag) : List (String × String) → Tag × Bool
  | [] => (t, false)
  | (n, v) :: rest =>
    if isValidAttrName n then applySets (setAttribute t n v) rest
    else (t, true)

/-- `BubbleBath::element_handler` (src/src/lib.rs lines 197-245). -/
def onStartTag (bb : BubbleBath) (s : RS) (t : Tag) : RS :=
  if bb.removeContentTags.contains t.name then
    -- `element.remove()`: the element and its content are dropped.
    { s with stk := if t.selfClosing then s.stk
                    else ⟨t.name, .removeAll⟩ :: s.stk }
  else if ¬ bb.allowedTags.contains t.name then
    -- `delete_element` (src/src/lib.rs lines 163-195)
    if bb.preserveEscaped then
      { s with
        out := if suppressed s.stk then s.out
               else s.out ++ [Piece.txt (lolEscape (formatTag t))]
        stk := if ¬ t.selfClosing ∧ ¬ voidTags.contains t.name then
                 ⟨t.name, .escape⟩ :: s.stk
               else s.stk }
    else
      -- `element.remove_and_keep_content()`
      { s with stk := if ¬ t.selfClosing ∧ ¬ voidTags.contains t.name then
                        ⟨t.name, .keepContent⟩ :: s.stk
                      else s.stk }
  else
    let t1 := cleanAttributes bb t
    let r :=
      match lookupMap bb.setTagAttributes t.name with
      | some sets => applySets t1 sets
      | none => (t1, false)
    let t2 := r.1
    let bad := r.2
    let t3 :=
      match lookupList bb.cleanUrlAttributes t.name with
      | some names => names.foldl (fun acc n => cleanLink bb acc n) t2
      | none => t2
    let outNew := if suppressed s.stk then s.out else s.out ++ [Piece.tagO t3]
    if t.selfClosing then
      { s with out := outNew, err := s.err || bad }
    else
      let ins := s.slab.insert t.name
      { s with
        out := outNew
        err := s.err || bad
        slab := ins.1
        regLog := s.regLog ++ [RegEv.ins ins.2 t.name]
        stk := if ¬ voidTags.contains t.name then
                 ⟨t.name, .balance ins.2⟩ :: s.stk
               else s.stk }

def applyEvent (bb : BubbleBath) (s : RS) : Event → RS
  | .startTag t => onStartTag bb s t
  | .endTag nm => onEndTag s nm
  | .text txtC => onText s txtC
  | .comment txtC => onComment s txtC

def applyEvents (bb : BubbleBath) (s : RS) (evs : List Event) : RS :=
  evs.foldl (applyEvent bb) s

/-- One character through the tokenizer, dispatching the events it
produces. -/
def stepChar (bb : BubbleBath) (s : RS) (c : Char) : RS :=
  let r := tokStep s.tok c
  applyEvents bb { s with tok := r.1, fed := s.fed ++ [c] } r.2

def feedChars (bb : BubbleBath) (s : RS) (cs : List Char) : RS :=
  cs.foldl (stepChar bb) s

/-- `rewriter.write(chunk)`: feed the bytes, then deliver the text known
complete at the write boundary. -/
def writeChunk (bb : BubbleBath) (s : RS) (chunk : List Char) : RS :=
  let s1 := feedChars bb s chunk
  let r := tokChunkFlush s1.tok
  applyEvents bb { s1 with tok := r.1 } r.2

/-- The per-chunk loop body (src/src/lib.rs lines 354-358): the counter is
updated from the raw chunk before the chunk is forwarded. -/
def chunkStep (bb : BubbleBath) (s : RS) (chunk : List Char) : RS :=
  writeChunk bb { s with counter := countUnclosedOpeningTags s.counter chunk }
    chunk

/-- State after all caller chunks have been written. -/
def chunkPhase (bb : BubbleBath) (chunks : List (List Char)) : RS :=
  chunks.foldl (chunkStep bb) initRS

/-- The number of synthetic `>` bytes appended after the last chunk:
the counter's value at that point (src/src/lib.rs lines 360-363). -/
def padCountOf (bb : BubbleBath) (chunks : List (List Char)) : Nat :=
  (chunkPhase bb chunks).counter

/-- `rewriter.end()`: flush the tokenizer, then run the document-end
handler (src/src/lib.rs lines 304-312), which appends a closing tag for
every slab entry, in ascending key order, as raw HTML. -/
def docEnd (bb : BubbleBath) (s : RS) : RS :=
  let evs := tokFlush s.tok
  let s1 := applyEvents bb { s with tok := .data [] } evs
  { s1 with out := s1.out ++ s1.slab.entries.map fun e => Piece.closer e.2 }

/-- `BubbleBath::clean_streaming` (src/src/lib.rs lines 292-368). -/
def cleanStreamingRun (bb : BubbleBath) (chunks : List (List Char)) : RS :=
  let s1 := chunkPhase bb chunks
  let pads := s1.counter
  let s2 := (List.replicate pads '>').foldl (fun s c => writeChunk bb s [c]) s1
  docEnd bb s2

/-! ## Rendering the output bytes -/

def renderAttrs (attrs : List (String × String)) : List Char :=
  attrs.flatMap fun p =>
    ' ' :: p.1.data ++ '=' :: quoteCh :: p.2.data ++ [quoteCh]

/-- Bytes one output piece contributes to the sink.  A start tag is
serialized from its (possibly rewritten) attribute list in order. -/
def renderPiece : Piece → List Char
  | .tagO t =>
    '<' :: t.name.data ++ renderAttrs t.attrs ++
      (if t.selfClosing then [' ', '/', '>'] else ['>'])
  | .tagC nm => '<' :: '/' :: nm.data ++ ['>']
  | .txt s => s
  | .closer nm => '<' :: '/' :: nm.data ++ ['>']

def renderOut (ps : List Piece) : List Char := (ps.map renderPiece).flatten

def cleanStreamingOut (bb : BubbleBath) (chunks : List (List Char)) :
    List Char :=
  renderOut (cleanStreamingRun bb chunks).out

/-- `BubbleBath::clean` (src/src/lib.rs lines 377-394): the whole input as
a single chunk, accumulated into one string; a configuration error from
`set_attribute` aborts the call. -/
def bbClean (bb : BubbleBath) (content : String) : Option String :=
  let r := cleanStreamingRun bb [content.data]
  if r.err then none else some (String.mk (renderOut r.out))

/-- `clean` (src/src/lib.rs line 35): the global default instance. -/
def cleanDefault (content : String) : Option String := bbClean bbDefault content

/-! ## Helper lemmas -/

theorem cleanText_append (a b : List Char) :
    cleanText (a ++ b) = cleanText a ++ cleanText b := by
  simp [cleanText]

theorem cleanText_nil : cleanText [] = [] := rfl

theorem find_filter_ne (l : List (String × String)) (an : String) :
    (l.filter fun p => p.1 != an).find? (fun p => p.1 == an) = none := by
  induction l with
  | nil => rfl
  | cons hd tl ih =>
    by_cases h : hd.1 = an
    · simp [List.filter_cons, h, ih]
    · simp [List.filter_cons, h, ih]

theorem getAttribute_removeAttribute (t : Tag) (an : String) :
    getAttribute (removeAttribute t an) an = none := by
  simp [getAttribute, removeAttribute, find_filter_ne]

/-- A matched end tag decomposes the open-element stack. -/
theorem findPopMatch_decomp (stk : List OpenE) (nm : String) (e : OpenE)
    (rest : List OpenE) (h : findPopMatch stk nm = some (e, rest)) :
    ∃ l1 l2, stk = l1 ++ e :: l2 ∧ rest = l1 ++ l2 ∧ e.name = nm ∧
      ∀ x ∈ l1, x.name ≠ nm := by
  induction stk generalizing e rest with
  | nil => simp [findPopMatch] at h
  | cons hd tl ih =>
    by_cases hh : hd.name = nm
    · rw [findPopMatch, if_pos (by simpa using hh)] at h
      obtain ⟨h1, h2⟩ := Prod.mk.injEq .. ▸ Option.some.injEq .. ▸ h
      exact ⟨[], tl, by simp [← h1], by simp [← h2], by simpa [← h1] using hh,
        by simp⟩
    · rw [findPopMatch, if_neg (by simpa using hh)] at h
      cases hfp : findPopMatch tl nm with
      | none => rw [hfp] at h; exact Option.noConfusion h
      | some p =>
        rw [hfp] at h
        have hs : some ((p.1, hd :: p.2) : OpenE × List OpenE) = some (e, rest) := h
        obtain ⟨l1, l2, h1, h2, h3, h4⟩ := ih p.1 p.2 (by rw [hfp])
        obtain ⟨he, hr⟩ := Prod.mk.injEq .. ▸ Option.some.injEq .. ▸ hs
        refine ⟨hd :: l1, l2, ?_, ?_, ?_, ?_⟩
        · simp [h1, he]
        · simp [← hr, h2]
        · rw [← he]; exact h3
        · intro x hx
          rcases List.mem_cons.mp hx with hx1 | hx1
          · rw [hx1]; exact hh
          · exact h4 x hx1

/-- Popping a non-`removeAll` entry keeps the stack suppressed. -/
theorem suppressed_rest (stk rest : List OpenE) (nm : String) (e : OpenE)
    (h : findPopMatch stk nm = some (e, rest)) (hne : isRemoveAll e.act = false)
    (hs : suppressed stk = true) : suppressed rest = true := by
  obtain ⟨l1, l2, h1, h2, _, _⟩ := findPopMatch_decomp stk nm e rest h
  subst h1 h2
  simp only [suppressed, List.any_append, List.any_cons, hne,
    Bool.false_or, Bool.or_eq_true] at hs ⊢
  tauto

/-- An end-tag event never extends the output while a removed element is
open. -/
theorem onEndTag_out_suppressed (s : RS) (nm : String)
    (hs : suppressed s.stk = true) : (onEndTag s nm).out = s.out := by
  unfold onEndTag
  cases hm : findPopMatch s.stk nm with
  | none => simp [hs]
  | some p =>
    obtain ⟨e, rest⟩ := p
    cases hact : e.act with
    | balance k =>
      have : suppressed rest = true :=
        suppressed_rest s.stk rest nm e hm (by simp [isRemoveAll, hact]) hs
      simp [hact, this]
    | keepContent => simp [hact]
    | escape =>
      have : suppressed rest = true :=
        suppressed_rest s.stk rest nm e hm (by simp [isRemoveAll, hact]) hs
      simp [hact, this]
    | removeAll => simp [hact]

/-- C7: URL validation.  For any policy, element and attribute name:
an absent attribute stays absent; a present value without `://` is
removed; a present value whose scheme is not allow-listed (case as
supplied) is removed; otherwise the value is kept unchanged — and the
element is otherwise untouched.  With the default policy,
`an <a href="javascript:evil()">evil</a> example` cleans to
`an <a rel="noopener noreferrer">evil</a> example`. -/
theorem c7_url_validation :
    (∀ (bb : BubbleBath) (t : Tag) (an : String),
      (getAttribute (cleanLink bb t an) an =
        match getAttribute t an with
        | none => none
        | some v =>
          match splitOnce v.data "://".data with
          | none => none
          | some p =>
            if bb.allowedUrlSchemes.contains (String.mk p.1) then some v
            else none) ∧
      (cleanLink bb t an = t ∨ cleanLink bb t an = removeAttribute t an)) ∧
    cleanDefault "an <a href=\"javascript:evil()\">evil</a> example" =
      some "an <a rel=\"noopener noreferrer\">evil</a> example" := by
  refine ⟨fun bb t an => ⟨?_, ?_⟩, by decide⟩
  · cases hga : getAttribute t an with
    | none => simp [cleanLink, hga]
    | some v =>
      cases hsp : splitOnce v.data "://".data with
      | none => simp [cleanLink, hga, hsp, getAttribute_removeAttribute]
      | some p =>
        obtain ⟨scheme, rest⟩ := p
        by_cases hc : String.mk scheme ∈ bb.allowedUrlSchemes
        · simp [cleanLink, hga, hsp, hc]
        · simp [cleanLink, hga, hsp, hc, getAttribute_removeAttribute]
  · cases hga : getAttribute t an with
    | none => exact Or.inl (by simp [cleanLink, hga])
    | some v =>
      cases hsp : splitOnce v.data "://".data with
      | none => exact Or.inr (by simp [cleanLink, hga, hsp])
      | some p =>
        obtain ⟨scheme, rest⟩ := p
        by_cases hc : String.mk scheme ∈ bb.allowedUrlSchemes
        · exact Or.inl (by simp [cleanLink, hga, hsp, hc])
        · exact Or.inr (by simp [cleanLink, hga, hsp, hc])

/-- C8: a start tag whose name is in remove-content-tags is deleted with
its whole subtree: the handler changes nothing but the open-element
stack (no output, no registry entry, no further filtering), and while
such an element is open no handler extends the output.  With the default
policy, `an <script>evil()</script> example` cleans to `an  example`. -/
theorem c8_remove_content :
    (∀ (bb : BubbleBath) (s : RS) (t : Tag),
      bb.removeContentTags.contains t.name = true →
      onStartTag bb s t =
        { s with stk := if t.selfClosing then s.stk
                        else ⟨t.name, EndAct.removeAll⟩ :: s.stk }) ∧
    (∀ (s : RS) (cs : List Char), suppressed s.stk = true →
      (onText s cs).out = s.out ∧ (onComment s cs).out = s.out) ∧
    (∀ (bb : BubbleBath) (s : RS) (t : Tag), suppressed s.stk = true →
      (onStartTag bb s t).out = s.out) ∧
    (∀ (s : RS) (nm : String), suppressed s.stk = true →
      (onEndTag s nm).out = s.out) ∧
    cleanDefault "an <script>evil()</script> example" = some "an  example" := by
  refine ⟨?_, ?_, ?_, onEndTag_out_suppressed, by decide⟩
  · intro bb s t h
    unfold onStartTag
    rw [if_pos h]
  · intro s cs h
    exact ⟨by simp [onText, h], rfl⟩
  · intro bb s t h
    unfold onStartTag
    by_cases h1 : bb.removeContentTags.contains t.name = true
    · rw [if_pos h1]
    · rw [if_neg h1]
      by_cases h2 : bb.allowedTags.contains t.name = true
      · rw [if_neg (not_not_intro h2)]
        by_cases hsc : t.selfClosing = true <;> simp [h, hsc]
      · rw [if_pos h2]
        by_cases hp : bb.preserveEscaped = true
        · rw [if_pos hp]
          simp [h]
        · rw [if_neg hp]

/-- Witness for C8 at concrete inputs. -/
theorem c8_remove_content_witness :
    onStartTag bbDefault initRS ⟨"script", [], false⟩ =
      { initRS with stk := [⟨"script", EndAct.removeAll⟩] } ∧
    (onText { initRS with stk := [⟨"script", EndAct.removeAll⟩] }
      "evil()".data).out = [] := by
  constructor
  · exact (c8_remove_content.1 bbDefault initRS ⟨"script", [], false⟩
      (by decide)).trans (by decide)
  · exact (c8_remove_content.2.1 _ "evil()".data (by decide)).1

/-! ## C6: the order of the element filter's sub-steps -/

/-- Sub-step: attribute injection (`set_tag_attributes` loop of
`element_handler`, src/src/lib.rs lines 217-221); the lookup uses the
element's original tag name. -/
def injectStep (bb : BubbleBath) (nm : String) (t : Tag) : Tag × Bool :=
  match lookupMap bb.setTagAttributes nm with
  | some sets => applySets t sets
  | none => (t, false)

/-- Sub-step: URL validation (`clean_url_attributes` loop of
`element_handler`, src/src/lib.rs lines 223-227); the lookup uses the
element's original tag name. -/
def urlStep (bb : BubbleBath) (nm : String) (t : Tag) : Tag :=
  match lookupList bb.cleanUrlAttributes nm with
  | some names => names.foldl (fun acc n => cleanLink bb acc n) t
  | none => t

/-- The attribute pipeline of an accepted element in the order the source
applies it: filtering, then injection, then URL validation. -/
def sourceOrderSteps (bb : BubbleBath) (t : Tag) : Tag × Bool :=
  let r := injectStep bb t.name (cleanAttributes bb t)
  (urlStep bb t.name r.1, r.2)

/-- The attribute pipeline in the order the claim states: filtering, then
URL validation, then injection. -/
def claimOrderSteps (bb : BubbleBath) (t : Tag) : Tag × Bool :=
  injectStep bb t.name (urlStep bb t.name (cleanAttributes bb t))

/-- Sub-step: balance tracking plus the final start-tag emission
(src/src/lib.rs lines 229-242). -/
def balanceStep (_bb : BubbleBath) (s : RS) (t : Tag) (t3 : Tag) (bad : Bool) :
    RS :=
  let outNew := if suppressed s.stk then s.out else s.out ++ [Piece.tagO t3]
  if t.selfClosing then { s with out := outNew, err := s.err || bad }
  else
    let ins := s.slab.insert t.name
    { s with out := outNew, err := s.err || bad, slab := ins.1,
             regLog := s.regLog ++ [RegEv.ins ins.2 t.name],
             stk := if ¬ voidTags.contains t.name then
                      ⟨t.name, .balance ins.2⟩ :: s.stk
                    else s.stk }

/-- A policy on which the two orders differ: the injected `href` value
carries a scheme outside the allow-list, so the source order
(inject, then validate) strips it while the claimed order
(validate, then inject) keeps it. -/
def bbInj : BubbleBath where
  allowedGenericAttributes := []
  allowedTags := ["a"]
  allowedTagAttributes := []
  allowedUrlSchemes := ["http"]
  cleanUrlAttributes := [("a", ["href"])]
  preserveEscaped := false
  removeContentTags := []
  setTagAttributes := [("a", [("href", "javascript://x")])]

/-- C6 counterexample: the element filter does not apply URL validation
before attribute injection — on `bbInj` and a bare `<a>` the source
pipeline removes the injected attribute, the claimed order keeps it, and
the element handler emits the source pipeline's result. -/
theorem c6_order_counterexample :
    sourceOrderSteps bbInj ⟨"a", [], false⟩ = (⟨"a", [], false⟩, false) ∧
    claimOrderSteps bbInj ⟨"a", [], false⟩ =
      (⟨"a", [("href", "javascript://x")], false⟩, false) ∧
    sourceOrderSteps bbInj ⟨"a", [], false⟩ ≠
      claimOrderSteps bbInj ⟨"a", [], false⟩ ∧
    (onStartTag bbInj initRS ⟨"a", [], false⟩).out =
      [Piece.tagO ⟨"a", [], false⟩] := by
  refine ⟨by decide, by decide, by decide, by decide⟩

/-- C6 amended: for an accepted start tag (allowed, not
remove-content), the element handler applies attribute filtering, then
attribute injection, then URL validation, then balance tracking and
emission — i.e. it factors through `sourceOrderSteps` followed by
`balanceStep`. -/
theorem c6_order_amended (bb : BubbleBath) (s : RS) (t : Tag)
    (h1 : ¬ bb.removeContentTags.contains t.name = true)
    (h2 : bb.allowedTags.contains t.name = true) :
    onStartTag bb s t =
      balanceStep bb s t (sourceOrderSteps bb t).1 (sourceOrderSteps bb t).2 := by
  unfold onStartTag
  rw [if_neg h1, if_neg (not_not_intro h2)]
  rfl

/-- Witness for the amended C6 at a concrete accepted element. -/
theorem c6_order_amended_witness :
    (¬ bbDefault.removeContentTags.contains "a" = true) ∧
    bbDefault.allowedTags.contains "a" = true ∧
    onStartTag bbDefault initRS ⟨"a", [("href", "javascript:evil()")], false⟩ =
      balanceStep bbDefault initRS ⟨"a", [("href", "javascript:evil()")], false⟩
        (sourceOrderSteps bbDefault ⟨"a", [("href", "javascript:evil()")], false⟩).1
        (sourceOrderSteps bbDefault ⟨"a", [("href", "javascript:evil()")], false⟩).2 :=
  ⟨by decide, by decide,
    c6_order_amended bbDefault initRS ⟨"a", [("href", "javascript:evil()")], false⟩
      (by decide) (by decide)⟩

/-! ## C3: idempotence -/

/-- Characters the sanitizer passes through completely untouched: outside
the escape table (and in particular not `<`, which would start a tag). -/
def safeChar (c : Char) : Bool :=
  !(c == '<' || c == '>' || c == quoteCh || c == aposCh || c == graveCh ||
    c == '/' || c == '&' || c == '=' || c == nulCh)

theorem cleanChar_safe (c : Char) (h : safeChar c = true) : cleanChar c = [c] := by
  simp only [safeChar, Bool.not_eq_eq_eq_not, Bool.not_true, Bool.or_eq_false_iff,
    beq_eq_false_iff_ne, ne_eq] at h
  obtain ⟨⟨⟨⟨⟨⟨⟨⟨h1, h2⟩, h3⟩, h4⟩, h5⟩, h6⟩, h7⟩, h8⟩, h9⟩ := h
  simp [cleanChar, h1, h2, h3, h4, h5, h6, h7, h8, h9]

theorem cleanText_safe (cs : List Char) (h : cs.all safeChar = true) :
    cleanText cs = cs := by
  induction cs with
  | nil => rfl
  | cons c rest ih =>
    rw [List.all_cons, Bool.and_eq_true] at h
    show cleanChar c ++ cleanText rest = c :: rest
    rw [cleanChar_safe c h.1, ih h.2]
    rfl

theorem count_zero_of_safe (cs : List Char) (h : cs.all safeChar = true)
    (c : Char) (hc : safeChar c = false) : countCh c cs = 0 := by
  rw [countCh, List.count_eq_zero]
  intro hmem
  rw [List.all_eq_true] at h
  have := h c hmem
  rw [hc] at this
  exact Bool.noConfusion this

/-- Feeding characters that never leave the character-data state. -/
theorem feedChars_safe (bb : BubbleBath) (s : RS) (acc cs : List Char)
    (h : cs.all safeChar = true) (hs : s.tok = .data acc) :
    feedChars bb s cs = { s with tok := .data (acc ++ cs), fed := s.fed ++ cs } := by
  induction cs generalizing s acc with
  | nil =>
    obtain ⟨tk, o, sl, st, cn, er, fd, rg⟩ := s
    simp only at hs
    subst hs
    simp [feedChars]
  | cons c rest ih =>
    rw [List.all_cons, Bool.and_eq_true] at h
    have hlt : ¬ c = '<' := by
      intro hc
      rw [hc] at h
      exact absurd h.1 (by decide)
    show feedChars bb (stepChar bb s c) rest = _
    have hstep : stepChar bb s c =
        { s with tok := .data (acc ++ [c]), fed := s.fed ++ [c] } := by
      simp [stepChar, hs, tokStep, hlt, applyEvents]
    rw [hstep, ih _ (acc ++ [c]) h.2 rfl]
    simp

/-- A nonempty all-safe input passes through the whole streaming run as a
single untouched text piece. -/
theorem cleanStreamingRun_safe (bb : BubbleBath) (cs : List Char)
    (h : cs.all safeChar = true) (hne : cs ≠ []) :
    cleanStreamingRun bb [cs] =
      { tok := .data [], out := [Piece.txt cs], slab := Slab.empty, stk := [],
        counter := 0, err := false, fed := cs, regLog := [] } := by
  have h0 : countUnclosedOpeningTags 0 cs = 0 := by
    rw [countUnclosedOpeningTags, count_zero_of_safe cs h '<' (by decide),
        count_zero_of_safe cs h '>' (by decide)]
  have hsub : subtractOpeningTags 0 cs = 0 := by
    rw [subtractOpeningTags, h0]
  have hev : textEvent cs = [Event.text cs] := by
    rw [textEvent, if_neg (by simpa [List.isEmpty_iff] using hne)]
  have hfeed : feedChars bb ⟨.data [], [], Slab.empty, [], 0, false, [], []⟩ cs =
      ⟨.data cs, [], Slab.empty, [], 0, false, cs, []⟩ := by
    simpa using
      feedChars_safe bb ⟨.data [], [], Slab.empty, [], 0, false, [], []⟩ [] cs h rfl
  have hcp : chunkPhase bb [cs] =
      (⟨.data [], [Piece.txt cs], Slab.empty, [], 0, false, cs, []⟩ : RS) := by
    show chunkStep bb initRS cs = _
    rw [chunkStep, show countUnclosedOpeningTags initRS.counter cs = 0 from h0]
    show writeChunk bb ⟨.data [], [], Slab.empty, [], 0, false, [], []⟩ cs = _
    simp only [writeChunk, hfeed, tokChunkFlush, hev]
    simp only [applyEvents, List.foldl, applyEvent, onText, suppressed,
      List.any_nil, hsub, cleanText_safe cs h]
    rfl
  rw [cleanStreamingRun]
  simp only [hcp, List.replicate, List.foldl, docEnd, tokFlush, textEvent,
    List.isEmpty_nil, if_pos rfl, applyEvents, Slab.empty, Slab.entries,
    List.enum_nil, List.filterMap_nil, List.map_nil, List.append_nil]

/-- C3 counterexample: the default-policy `clean` is not idempotent — the
escaper re-escapes the `&` characters it introduced. -/
theorem c3_idempotence_counterexample :
    cleanDefault "1 < 2" = some "1 &lt; 2" ∧
    cleanDefault "1 &lt; 2" = some "1 &amp;lt; 2" ∧
    (cleanDefault "1 < 2").bind cleanDefault ≠ cleanDefault "1 < 2" := by
  refine ⟨by decide, by decide, by decide⟩

/-- C3 amended: `clean` is idempotent on inputs it maps to themselves —
in particular on every string of characters outside the escaper's table
(no `<ANGLE`, quote, backquote, slash, ampersand, equals or NUL): such a
string is a fixed point, so re-sanitizing changes nothing.  In general a
first pass introduces `&`-escapes that a second pass escapes again. -/
theorem c3_idempotence_amended (s : String) (h : s.data.all safeChar = true) :
    cleanDefault s = some s ∧
    (cleanDefault s).bind cleanDefault = cleanDefault s := by
  have hfix : cleanDefault s = some s := by
    obtain ⟨cs⟩ := s
    cases cs with
    | nil => decide
    | cons c rest =>
      rw [cleanDefault, bbClean,
        cleanStreamingRun_safe bbDefault (c :: rest) h (by simp)]
      simp only [if_neg Bool.false_ne_true, renderOut, List.map, renderPiece,
        List.flatten]
      simp
  exact ⟨hfix, by simp [hfix]⟩

/-! ## C4: the document-end closer emission order -/

/-- The synthetic closers appearing in an output piece list, in order. -/
def closerNames (ps : List Piece) : List String :=
  ps.filterMap fun p =>
    match p with
    | .closer nm => some nm
    | _ => none

/-- Replay of the registration log: the still-registered tags in the
order they were first registered. -/
def regStep (acc : List (Nat × String)) : RegEv → List (Nat × String)
  | .ins k nm => acc ++ [(k, nm)]
  | .rem k => acc.eraseP fun p => p.1 == k

def firstOpenedUnclosed (log : List RegEv) : List String :=
  (log.foldl regStep []).map Prod.snd

theorem enumFrom_filterMap_entry (slots : List (Option String)) : ∀ n : Nat,
    List.Sublist
      (((List.enumFrom n slots).filterMap fun p =>
          match p.2 with
          | some v => some (p.1, v)
          | none => none).map Prod.fst)
      (List.range' n slots.length) := by
  induction slots with
  | nil => intro n; simp
  | cons hd tl ih =>
    intro n
    cases hd with
    | none =>
      simp only [List.enumFrom, List.filterMap_cons, List.length_cons,
        List.range'_succ]
      exact (ih (n + 1)).trans (List.sublist_cons_self n _)
    | some v =>
      simp only [List.enumFrom, List.filterMap_cons, List.map_cons,
        List.length_cons, List.range'_succ]
      exact List.Sublist.cons₂ n (ih (n + 1))

/-- The registry iterates in strictly ascending key order. -/
theorem entries_keys_sorted (sl : Slab) :
    (sl.entries.map Prod.fst).Sorted (· < ·) := by
  have hsub := enumFrom_filterMap_entry sl.slots 0
  have hr : List.range' 0 sl.slots.length = List.range sl.slots.length := by
    rw [List.range_eq_range']
  rw [hr] at hsub
  exact (List.sorted_lt_range sl.slots.length).sublist hsub

theorem enumFrom_filterMap_snd (slots : List (Option String)) : ∀ n : Nat,
    ((List.enumFrom n slots).filterMap fun p =>
        match p.2 with
        | some v => some (p.1, v)
        | none => none).map Prod.snd = slots.filterMap id := by
  induction slots with
  | nil => intro n; simp
  | cons hd tl ih =>
    intro n
    cases hd with
    | none => simpa [List.enumFrom, List.filterMap_cons] using ih (n + 1)
    | some v => simpa [List.enumFrom, List.filterMap_cons] using ih (n + 1)

theorem count_filterMap_id (slots : List (Option String)) (t : String) :
    (slots.filterMap id).count t = slots.count (some t) := by
  induction slots with
  | nil => rfl
  | cons hd tl ih =>
    cases hd with
    | none => simpa [List.filterMap_cons, List.count_cons] using ih
    | some v =>
      by_cases hv : v = t
      · simp [List.filterMap_cons, List.count_cons, hv, ih]
      · simp [List.filterMap_cons, List.count_cons, hv, ih,
          fun h => hv (Option.some.injEq .. ▸ h)]

/-- Each registered tag name receives exactly as many closers as it has
live registry entries. -/
theorem entries_count (sl : Slab) (t : String) :
    (sl.entries.map Prod.snd).count t = sl.countName t := by
  rw [Slab.entries, List.enum, enumFrom_filterMap_snd sl.slots 0,
    count_filterMap_id, Slab.countName]

/-- C4 counterexample: on `<b><i></b><u>` the `b` registration (handle 0)
is freed when `</b>` arrives and handle 0 is reused for `u`, so the
ascending-handle emission `</u></i>` is not the first-opened order
`</i></u>`. -/
theorem c4_order_counterexample :
    closerNames (cleanStreamingRun bbDefault ["<b><i></b><u>".data]).out =
      ["u", "i"] ∧
    firstOpenedUnclosed
      (cleanStreamingRun bbDefault ["<b><i></b><u>".data]).regLog =
      ["i", "u"] ∧
    closerNames (cleanStreamingRun bbDefault ["<b><i></b><u>".data]).out ≠
      firstOpenedUnclosed
        (cleanStreamingRun bbDefault ["<b><i></b><u>".data]).regLog := by
  refine ⟨by decide, by decide, by decide⟩

/-- C4 amended: at document end the balancer appends exactly one closer
per entry still in the registry, in ascending-handle order — each name
gets as many closers as it has live entries and the handle sequence is
strictly increasing.  (Ascending-handle order need not be first-opened
order, because freed handles are reused.) -/
theorem c4_closers_amended :
    (∀ (bb : BubbleBath) (s : RS),
      (docEnd bb s).out =
        (applyEvents bb { s with tok := .data [] } (tokFlush s.tok)).out ++
          (applyEvents bb { s with tok := .data [] }
            (tokFlush s.tok)).slab.entries.map (fun e => Piece.closer e.2)) ∧
    (∀ sl : Slab, (sl.entries.map Prod.fst).Sorted (· < ·)) ∧
    (∀ (sl : Slab) (t : String),
      (sl.entries.map Prod.snd).count t = sl.countName t) :=
  ⟨fun _ _ => rfl, entries_keys_sorted, entries_count⟩

/-! ## C9: the pending angle-bracket counter and the synthetic padding -/

theorem applyEvent_fed (bb : BubbleBath) (s : RS) (ev : Event) :
    (applyEvent bb s ev).fed = s.fed := by
  cases ev with
  | startTag t =>
    show (onStartTag bb s t).fed = s.fed
    unfold onStartTag
    repeat' split
    all_goals rfl
  | endTag nm =>
    show (onEndTag s nm).fed = s.fed
    unfold onEndTag
    cases hm : findPopMatch s.stk nm with
    | none => rfl
    | some p =>
      obtain ⟨⟨enm, act⟩, rest⟩ := p
      cases act <;> rfl
  | text cs => rfl
  | comment cs => rfl

theorem applyEvents_fed (bb : BubbleBath) (s : RS) (evs : List Event) :
    (applyEvents bb s evs).fed = s.fed := by
  induction evs generalizing s with
  | nil => rfl
  | cons e rest ih =>
    show (applyEvents bb (applyEvent bb s e) rest).fed = s.fed
    rw [ih, applyEvent_fed]

theorem stepChar_fed (bb : BubbleBath) (s : RS) (c : Char) :
    (stepChar bb s c).fed = s.fed ++ [c] := by
  show (applyEvents bb _ _).fed = _
  rw [applyEvents_fed]

theorem feedChars_fed (bb : BubbleBath) (s : RS) (cs : List Char) :
    (feedChars bb s cs).fed = s.fed ++ cs := by
  induction cs generalizing s with
  | nil => simp [feedChars]
  | cons c rest ih =>
    show (feedChars bb (stepChar bb s c) rest).fed = _
    rw [ih, stepChar_fed]
    simp

theorem writeChunk_fed (bb : BubbleBath) (s : RS) (chunk : List Char) :
    (writeChunk bb s chunk).fed = s.fed ++ chunk := by
  show (applyEvents bb _ _).fed = _
  rw [applyEvents_fed]
  exact feedChars_fed bb s chunk

theorem chunksFold_fed (bb : BubbleBath) (chunks : List (List Char)) :
    ∀ s : RS, (chunks.foldl (chunkStep bb) s).fed = s.fed ++ chunks.flatten := by
  induction chunks with
  | nil => intro s; simp
  | cons ch rest ih =>
    intro s
    show ((rest.foldl (chunkStep bb)) (chunkStep bb s ch)).fed = _
    rw [ih, chunkStep, writeChunk_fed]
    simp

theorem padsFold_fed (bb : BubbleBath) (p : Nat) :
    ∀ s : RS,
      ((List.replicate p '>').foldl (fun s c => writeChunk bb s [c]) s).fed =
        s.fed ++ List.replicate p '>' := by
  induction p with
  | zero => intro s; simp
  | succ n ih =>
    intro s
    rw [List.replicate_succ, List.foldl_cons, ih, writeChunk_fed]
    simp [List.replicate_succ]

theorem docEnd_fed (bb : BubbleBath) (s : RS) : (docEnd bb s).fed = s.fed := by
  show (applyEvents bb _ _).fed = s.fed
  rw [applyEvents_fed]

/-- The byte stream delivered to the tokenizer over a whole streaming
call: the caller's chunks verbatim, followed by one literal `>` per unit
of the counter's value after the last chunk. -/
theorem cleanStreamingRun_fed (bb : BubbleBath) (chunks : List (List Char)) :
    (cleanStreamingRun bb chunks).fed =
      chunks.flatten ++ List.replicate (padCountOf bb chunks) '>' := by
  rw [cleanStreamingRun, docEnd_fed, padsFold_fed]
  rw [show (chunkPhase bb chunks).fed = chunks.flatten from chunksFold_fed bb chunks initRS]
  rfl

/-- C9: the pending angle-bracket counter.  It starts at zero; each chunk
adds its `<` count and subtracts, saturating at zero, its `>` count,
before the chunk is forwarded; the text and comment handlers subtract the
handled content's own (floored) angle-bracket count; and the bytes the
tokenizer receives are exactly the chunks followed by counter-many
literal `>` bytes, written before end-of-document is signalled. -/
theorem c9_counter_padding :
    initRS.counter = 0 ∧
    (∀ (c : Nat) (chunk : List Char),
      countUnclosedOpeningTags c chunk =
        (c + countCh '<' chunk) - countCh '>' chunk) ∧
    (∀ (bb : BubbleBath) (s : RS) (chunk : List Char),
      chunkStep bb s chunk =
        writeChunk bb { s with counter := countUnclosedOpeningTags s.counter chunk }
          chunk) ∧
    (∀ (s : RS) (cs : List Char),
      (onText s cs).counter = s.counter - (countCh '<' cs - countCh '>' cs) ∧
      (onComment s cs).counter = s.counter - (countCh '<' cs - countCh '>' cs)) ∧
    (∀ (bb : BubbleBath) (chunks : List (List Char)),
      padCountOf bb chunks = (chunkPhase bb chunks).counter ∧
      (cleanStreamingRun bb chunks).fed =
        chunks.flatten ++ List.replicate (padCountOf bb chunks) '>') := by
  refine ⟨rfl, fun c chunk => rfl, fun bb s chunk => rfl, ?_, ?_⟩
  · intro s cs
    constructor
    · show subtractOpeningTags s.counter cs = _
      rw [subtractOpeningTags, countUnclosedOpeningTags, Nat.zero_add]
    · show subtractOpeningTags s.counter cs = _
      rw [subtractOpeningTags, countUnclosedOpeningTags, Nat.zero_add]
  · exact fun bb chunks => ⟨rfl, cleanStreamingRun_fed bb chunks⟩

/-! ## C10: the byte accumulator of `clean` is valid UTF-8

`clean` collects the sink's byte chunks into a vector and converts it
with `String::from_utf8_unchecked`.  In the model every sink chunk is the
UTF-8 encoding of one rendered output piece; validity of the accumulator
means being the UTF-8 encoding of some string. -/

/-- Standard UTF-8 encoding of one scalar value. -/
def utf8Char (c : Char) : List Nat :=
  let v := c.toNat
  if v < 128 then [v]
  else if v < 2048 then [192 + v / 64, 128 + v % 64]
  else if v < 65536 then [224 + v / 4096, 128 + (v / 64) % 64, 128 + v % 64]
  else [240 + v / 262144, 128 + (v / 4096) % 64, 128 + (v / 64) % 64,
        128 + v % 64]

def utf8Bytes (cs : List Char) : List Nat := cs.flatMap utf8Char

/-- The byte chunks `clean`'s sink closure receives, one per rendered
output piece. -/
def sinkChunks (bb : BubbleBath) (input : List Char) : List (List Nat) :=
  (cleanStreamingRun bb [input]).out.map fun p => utf8Bytes (renderPiece p)

/-- The accumulator built by `acc.extend_from_slice(out)`
(src/src/lib.rs lines 379-382). -/
def cleanAcc (bb : BubbleBath) (input : List Char) : List Nat :=
  (sinkChunks bb input).flatten

theorem utf8Bytes_append (a b : List Char) :
    utf8Bytes (a ++ b) = utf8Bytes a ++ utf8Bytes b := by
  simp [utf8Bytes]

theorem utf8Bytes_flatten (ls : List (List Char)) :
    (ls.map utf8Bytes).flatten = utf8Bytes ls.flatten := by
  induction ls with
  | nil => rfl
  | cons hd tl ih => simp [utf8Bytes_append, ih]

/-- C10: the accumulator is byte-identical to the UTF-8 encoding of the
rendered output string, so the unchecked conversion at the end of `clean`
always produces that well-formed string (or the call fails and no string
is produced). -/
theorem c10_accumulator_utf8 (bb : BubbleBath) (content : String) :
    ∃ s : String, cleanAcc bb content.data = utf8Bytes s.data ∧
      (bbClean bb content = none ∨ bbClean bb content = some s) := by
  refine ⟨String.mk (renderOut (cleanStreamingRun bb [content.data]).out), ?_, ?_⟩
  · show ((cleanStreamingRun bb [content.data]).out.map
        (fun p => utf8Bytes (renderPiece p))).flatten = _
    rw [show (fun p => utf8Bytes (renderPiece p)) =
          (utf8Bytes ∘ renderPiece) from rfl,
      ← List.map_map, utf8Bytes_flatten]
    rfl
  · rw [bbClean]
    split
    · exact Or.inl rfl
    · exact Or.inr rfl

/-- Witness for the amended C3 at a concrete safe input. -/
theorem c3_idempotence_amended_witness :
    "hello".data.all safeChar = true ∧
    cleanDefault "hello" = some "hello" ∧
    (cleanDefault "hello").bind cleanDefault = cleanDefault "hello" :=
  ⟨by decide, (c3_idempotence_amended "hello" (by decide)).1,
    (c3_idempotence_amended "hello" (by decide)).2⟩

/-! ## C2: tag balance

The balance argument: every accepted non-self-closing start tag in the
output is matched, by document end, by at least one end tag of the same
name (either the observed end tag passed through, or a synthetic closer
emitted from the registry).  The invariant couples the output counts with
the registry contents and the open-element stack, and uses that — for a
policy whose remove-content tags are all raw-text elements, as in the
default policy — no element events can occur inside a removed subtree. -/

def isStartNonSC (t0 : String) : Piece → Bool
  | .tagO t => t.name == t0 && !t.selfClosing
  | _ => false

def isEndFor (t0 : String) : Piece → Bool
  | .tagC nm => nm == t0
  | .closer nm => nm == t0
  | _ => false

def startCount (t0 : String) (ps : List Piece) : Nat := ps.countP (isStartNonSC t0)

def endCount (t0 : String) (ps : List Piece) : Nat := ps.countP (isEndFor t0)

/-- Well-formedness of the free list: distinct, in-bounds, vacant keys. -/
def SlabWF (sl : Slab) : Prop :=
  sl.free.Nodup ∧ (∀ k ∈ sl.free, sl.slots.get? k = some none)

def balKey : OpenE → Option Nat
  | ⟨_, .balance k⟩ => some k
  | _ => none

/-- Every balance entry on the stack points at a live slot holding its
name, and no two balance entries share a key. -/
def StkWF (sl : Slab) (stk : List OpenE) : Prop :=
  (∀ e ∈ stk, ∀ k, e.act = .balance k → sl.slots.get? k = some (some e.name)) ∧
  (stk.filterMap balKey).Nodup

def tokRawFor (el : String) : Tok → Prop
  | .rawData el2 _ => el2 = el
  | .rawLt el2 _ => el2 = el
  | .rawEndOpen el2 _ => el2 = el
  | .rawEndName el2 _ _ => el2 = el
  | .endTagRest nm => String.mk nm = el
  | _ => False

/-- A removed element can only sit at the top of the stack, with the
tokenizer inside that element's raw text. -/
def RemInv (stk : List OpenE) (tok : Tok) : Prop :=
  match stk with
  | [] => True
  | e :: rest =>
    (∀ x ∈ rest, isRemoveAll x.act = false) ∧
    (isRemoveAll e.act = true → tokRawFor e.name tok)

def BalInv (s : RS) : Prop :=
  (∀ t0 : String, startCount t0 s.out ≤ endCount t0 s.out + s.slab.countName t0) ∧
  SlabWF s.slab ∧ StkWF s.slab s.stk ∧ RemInv s.stk s.tok

theorem count_set_none (l : List (Option String)) : ∀ (k : Nat) (nm : String),
    l.get? k = some (some nm) → ∀ t,
    l.count (some t) =
      (l.set k none).count (some t) + (if nm = t then 1 else 0) := by
  induction l with
  | nil => intro k nm h t; simp at h
  | cons hd tl ih =>
    intro k nm h t
    cases k with
    | zero =>
      simp only [List.get?] at h
      injection h with h2
      subst h2
      show List.count (some t) (some nm :: tl) =
        List.count (some t) (none :: tl) + _
      rw [List.count_cons, List.count_cons]
      by_cases he : nm = t <;> simp [he]
    | succ j =>
      simp only [List.get?] at h
      have hrec := ih j nm h t
      show List.count (some t) (hd :: tl) =
        List.count (some t) (hd :: tl.set j none) + _
      rw [List.count_cons, List.count_cons, hrec]
      omega

theorem count_set_some (l : List (Option String)) : ∀ (k : Nat) (v : String),
    l.get? k = some none → ∀ t,
    (l.set k (some v)).count (some t) =
      l.count (some t) + (if v = t then 1 else 0) := by
  induction l with
  | nil => intro k v h t; simp at h
  | cons hd tl ih =>
    intro k v h t
    cases k with
    | zero =>
      simp only [List.get?] at h
      injection h with h2
      subst h2
      show List.count (some t) (some v :: tl) =
        List.count (some t) (none :: tl) + _
      rw [List.count_cons, List.count_cons]
      by_cases he : v = t <;> simp [he]
    | succ j =>
      simp only [List.get?] at h
      have hrec := ih j v h t
      show List.count (some t) (hd :: tl.set j (some v)) =
        List.count (some t) (hd :: tl) + _
      rw [List.count_cons, List.count_cons, hrec]
      omega

theorem count_append_some (l : List (Option String)) (v : String) (t : String) :
    (l ++ [some v]).count (some t) =
      l.count (some t) + (if v = t then 1 else 0) := by
  rw [List.count_append, List.count_cons, List.count_nil]
  by_cases he : v = t <;> simp [he]

theorem get?_some_lt {α : Type} (l : List α) : ∀ (k : Nat) (x : α),
    l.get? k = some x → k < l.length := by
  induction l with
  | nil => intro k x h; simp at h
  | cons hd tl ih =>
    intro k x h
    cases k with
    | zero => simp
    | succ j =>
      simp only [List.get?] at h
      show j + 1 < tl.length + 1
      exact Nat.succ_lt_succ (ih j x h)

theorem countP_snoc {α : Type} (p : α → Bool) (ps : List α) (x : α) :
    (ps ++ [x]).countP p = ps.countP p + (if p x then 1 else 0) := by
  rw [List.countP_append]
  by_cases hx : p x <;> simp [List.countP_cons, hx]

theorem startCount_snoc_txt (t0 : String) (ps : List Piece) (cs : List Char) :
    startCount t0 (ps ++ [Piece.txt cs]) = startCount t0 ps := by
  simp only [startCount, countP_snoc]
  simp [isStartNonSC]

theorem endCount_snoc_txt (t0 : String) (ps : List Piece) (cs : List Char) :
    endCount t0 (ps ++ [Piece.txt cs]) = endCount t0 ps := by
  simp only [endCount, countP_snoc]
  simp [isEndFor]

theorem startCount_snoc_tagC (t0 : String) (ps : List Piece) (nm : String) :
    startCount t0 (ps ++ [Piece.tagC nm]) = startCount t0 ps := by
  simp only [startCount, countP_snoc]
  simp [isStartNonSC]

theorem endCount_snoc_tagC (t0 : String) (ps : List Piece) (nm : String) :
    endCount t0 (ps ++ [Piece.tagC nm]) =
      endCount t0 ps + (if nm = t0 then 1 else 0) := by
  simp only [endCount, countP_snoc]
  by_cases h : nm = t0 <;> simp [isEndFor, h]

theorem startCount_snoc_tagO (t0 : String) (ps : List Piece) (t : Tag) :
    startCount t0 (ps ++ [Piece.tagO t]) =
      startCount t0 ps +
        (if t.name = t0 ∧ t.selfClosing = false then 1 else 0) := by
  simp only [startCount, countP_snoc]
  by_cases h1 : t.name = t0
  · by_cases h2 : t.selfClosing = false <;>
      simp [isStartNonSC, h1, h2]
  · simp [isStartNonSC, h1]

theorem endCount_snoc_tagO (t0 : String) (ps : List Piece) (t : Tag) :
    endCount t0 (ps ++ [Piece.tagO t]) = endCount t0 ps := by
  simp only [endCount, countP_snoc]
  simp [isEndFor]

/-- Name and self-closing flag survive the attribute pipeline. -/
theorem setAttribute_meta (t : Tag) (an av : String) :
    (setAttribute t an av).name = t.name ∧
      (setAttribute t an av).selfClosing = t.selfClosing := by
  unfold setAttribute
  split <;> exact ⟨rfl, rfl⟩

theorem applySets_meta : ∀ (sets : List (String × String)) (t : Tag),
    (applySets t sets).1.name = t.name ∧
      (applySets t sets).1.selfClosing = t.selfClosing := by
  intro sets
  induction sets with
  | nil => intro t; exact ⟨rfl, rfl⟩
  | cons hd tl ih =>
    intro t
    unfold applySets
    split
    · refine ⟨?_, ?_⟩
      · rw [(ih (setAttribute t hd.1 hd.2)).1, (setAttribute_meta t hd.1 hd.2).1]
      · rw [(ih (setAttribute t hd.1 hd.2)).2, (setAttribute_meta t hd.1 hd.2).2]
    · exact ⟨rfl, rfl⟩

theorem cleanLink_cases (bb : BubbleBath) (t : Tag) (an : String) :
    cleanLink bb t an = t ∨ cleanLink bb t an = removeAttribute t an := by
  cases hga : getAttribute t an with
  | none => exact Or.inl (by simp [cleanLink, hga])
  | some v =>
    cases hsp : splitOnce v.data "://".data with
    | none => exact Or.inr (by simp [cleanLink, hga, hsp])
    | some p =>
      obtain ⟨scheme, rest⟩ := p
      by_cases hc : String.mk scheme ∈ bb.allowedUrlSchemes
      · exact Or.inl (by simp [cleanLink, hga, hsp, hc])
      · exact Or.inr (by simp [cleanLink, hga, hsp, hc])

theorem cleanLink_meta (bb : BubbleBath) (t : Tag) (an : String) :
    (cleanLink bb t an).name = t.name ∧
      (cleanLink bb t an).selfClosing = t.selfClosing := by
  rcases cleanLink_cases bb t an with h | h <;> rw [h] <;> exact ⟨rfl, rfl⟩

theorem foldl_cleanLink_meta (bb : BubbleBath) :
    ∀ (names : List String) (t : Tag),
      ((names.foldl (fun acc n => cleanLink bb acc n) t).name = t.name ∧
        (names.foldl (fun acc n => cleanLink bb acc n) t).selfClosing =
          t.selfClosing) := by
  intro names
  induction names with
  | nil => intro t; exact ⟨rfl, rfl⟩
  | cons hd tl ih =>
    intro t
    rw [List.foldl_cons]
    refine ⟨?_, ?_⟩
    · rw [(ih (cleanLink bb t hd)).1, (cleanLink_meta bb t hd).1]
    · rw [(ih (cleanLink bb t hd)).2, (cleanLink_meta bb t hd).2]

theorem sourceOrder_meta (bb : BubbleBath) (t : Tag) :
    (sourceOrderSteps bb t).1.name = t.name ∧
      (sourceOrderSteps bb t).1.selfClosing = t.selfClosing := by
  unfold sourceOrderSteps urlStep injectStep
  cases lookupMap bb.setTagAttributes t.name with
  | none =>
    cases lookupList bb.cleanUrlAttributes t.name with
    | none => exact ⟨rfl, rfl⟩
    | some names =>
      exact ⟨(foldl_cleanLink_meta bb names _).1, (foldl_cleanLink_meta bb names _).2⟩
  | some sets =>
    cases lookupList bb.cleanUrlAttributes t.name with
    | none =>
      constructor
      · rw [(applySets_meta sets _).1]
        rfl
      · rw [(applySets_meta sets _).2]
        rfl
    | some names =>
      constructor
      · rw [(foldl_cleanLink_meta bb names _).1, (applySets_meta sets _).1]
        rfl
      · rw [(foldl_cleanLink_meta bb names _).2, (applySets_meta sets _).2]
        rfl


/-- Helper shared by the order and balance arguments: the accepted-tag
branch of the element handler factors through the attribute pipeline. -/
theorem onStartTag_factor (bb : BubbleBath) (s : RS) (t : Tag)
    (h1 : ¬ bb.removeContentTags.contains t.name = true)
    (h2 : bb.allowedTags.contains t.name = true) :
    onStartTag bb s t =
      balanceStep bb s t (sourceOrderSteps bb t).1 (sourceOrderSteps bb t).2 := by
  unfold onStartTag
  rw [if_neg h1, if_neg (not_not_intro h2)]
  rfl

theorem slabWF_empty : SlabWF Slab.empty := by
  constructor
  · exact List.nodup_nil
  · intro k hk
    simp [Slab.empty] at hk

theorem get?_append_left {α : Type} (l1 l2 : List α) : ∀ j : Nat,
    j < l1.length → (l1 ++ l2).get? j = l1.get? j := by
  induction l1 with
  | nil => intro j h; simp at h
  | cons hd tl ih =>
    intro j h
    cases j with
    | zero => rfl
    | succ i =>
      show (tl ++ l2).get? i = tl.get? i
      exact ih i (by simpa using Nat.lt_of_succ_lt_succ h)

theorem get?_append_length {α : Type} (l : List α) (x : α) :
    (l ++ [x]).get? l.length = some x := by
  induction l with
  | nil => rfl
  | cons hd tl ih => exact ih

/-- Everything the balance invariant needs to know about `Slab::insert`. -/
theorem slab_insert_spec (sl : Slab) (v : String) (hwf : SlabWF sl) :
    (sl.insert v).1.slots.get? (sl.insert v).2 = some (some v) ∧
    (∀ t, (sl.insert v).1.countName t =
      sl.countName t + (if v = t then 1 else 0)) ∧
    (∀ j x, sl.slots.get? j = some x → j ≠ (sl.insert v).2 →
      (sl.insert v).1.slots.get? j = some x) ∧
    (∀ nm j, sl.slots.get? j = some (some nm) → j ≠ (sl.insert v).2) ∧
    SlabWF (sl.insert v).1 := by
  obtain ⟨hnd, hvac⟩ := hwf
  cases hfree : sl.free with
  | cons k rest =>
    have hkv : sl.slots.get? k = some none := hvac k (by rw [hfree]; simp)
    have hklt : k < sl.slots.length := get?_some_lt _ k none hkv
    rw [hfree] at hnd
    have hknotin : k ∉ rest := (List.nodup_cons.mp hnd).1
    have hndrest : rest.Nodup := (List.nodup_cons.mp hnd).2
    rw [Slab.insert, hfree]
    refine ⟨List.get?_set_eq_of_lt (some v) hklt,
      fun t => count_set_some sl.slots k v hkv t, ?_, ?_, ?_, ?_⟩
    · intro j x hj hne
      rw [List.get?_set_ne (some v) sl.slots (Ne.symm hne)]
      exact hj
    · intro nm j hj hne
      rw [hne] at hj
      rw [hkv] at hj
      exact Option.noConfusion (Option.some.injEq .. ▸ hj)
    · exact hndrest
    · intro j hj
      have hjk : j ≠ k := fun he => hknotin (he ▸ hj)
      rw [List.get?_set_ne (some v) sl.slots (Ne.symm hjk)]
      exact hvac j (by rw [hfree]; exact List.mem_cons_of_mem k hj)
  | nil =>
    rw [Slab.insert, hfree]
    refine ⟨get?_append_length sl.slots (some v),
      fun t => count_append_some sl.slots v t, ?_, ?_, ?_, ?_⟩
    · intro j x hj hne
      rw [get?_append_left sl.slots [some v] j (get?_some_lt _ j x hj)]
      exact hj
    · intro nm j hj
      exact Nat.ne_of_lt (get?_some_lt _ j (some nm) hj)
    · exact List.nodup_nil
    · intro j hj
      exact absurd hj (List.not_mem_nil j)

/-- Everything the balance invariant needs about `Slab::remove`. -/
theorem slab_remove_spec (sl : Slab) (k : Nat) (nm : String)
    (hwf : SlabWF sl) (hk : sl.slots.get? k = some (some nm)) :
    (∀ t, sl.countName t =
      (sl.removeKey k).countName t + (if nm = t then 1 else 0)) ∧
    (∀ j x, sl.slots.get? j = some x → j ≠ k →
      (sl.removeKey k).slots.get? j = some x) ∧
    SlabWF (sl.removeKey k) := by
  obtain ⟨hnd, hvac⟩ := hwf
  have hklt : k < sl.slots.length := get?_some_lt _ k (some nm) hk
  refine ⟨fun t => count_set_none sl.slots k nm hk t, ?_, ?_, ?_⟩
  · intro j x hj hne
    rw [Slab.removeKey]
    show (sl.slots.set k none).get? j = some x
    rw [List.get?_set_ne none sl.slots (Ne.symm hne)]
    exact hj
  · rw [Slab.removeKey]
    show (k :: sl.free).Nodup
    refine List.nodup_cons.mpr ⟨?_, hnd⟩
    intro hkin
    have := hvac k hkin
    rw [hk] at this
    exact Option.noConfusion (Option.some.injEq .. ▸ this)
  · intro j hj
    rw [Slab.removeKey] at hj ⊢
    rcases List.mem_cons.mp hj with he | hjin
    · subst he
      show (sl.slots.set j none).get? j = some none
      exact List.get?_set_eq_of_lt none hklt
    · have hjk : j ≠ k := by
        intro he
        have := hvac j hjin
        rw [he, hk] at this
        exact Option.noConfusion (Option.some.injEq .. ▸ this)
      show (sl.slots.set k none).get? j = some none
      rw [List.get?_set_ne none sl.slots (Ne.symm hjk)]
      exact hvac j hjin

/-- Quiet event lists: only text and comment events. -/
def quietEvs (evs : List Event) : Prop :=
  ∀ ev ∈ evs, (∃ cs, ev = Event.text cs) ∨ (∃ cs, ev = Event.comment cs)

theorem quiet_nil : quietEvs [] := by intro ev hev; simp at hev

theorem quiet_single_text (cs : List Char) : quietEvs [Event.text cs] := by
  intro ev hev
  rw [List.mem_singleton] at hev
  exact Or.inl ⟨cs, hev⟩

theorem quiet_single_comment (cs : List Char) : quietEvs [Event.comment cs] := by
  intro ev hev
  rw [List.mem_singleton] at hev
  exact Or.inr ⟨cs, hev⟩

theorem quiet_textEvent (acc : List Char) : quietEvs (textEvent acc) := by
  rw [textEvent]
  split
  · exact quiet_nil
  · exact quiet_single_text acc

/-- Classification of one tokenizer step: it is quiet (text/comment
events only, staying inside the same raw-text element if it was in one),
or it emits one start tag from a non-raw state and moves to that tag's
post-start state, or it emits one end tag (possibly preceded by a text
flush), returning to the data state, and any raw-text element it was in
is the one being closed. -/
def StepOK (tok : Tok) (r : Tok × List Event) : Prop :=
  (quietEvs r.2 ∧ (∀ el, tokRawFor el tok → tokRawFor el r.1))
  ∨ (∃ t : Tag, r.2 = [Event.startTag t] ∧ r.1 = postStart t.name ∧
      (∀ el, ¬ tokRawFor el tok))
  ∨ (∃ pre nm, (r.2 = [Event.endTag nm] ∨ r.2 = [Event.text pre, Event.endTag nm]) ∧
      r.1 = Tok.data [] ∧ (∀ el, tokRawFor el tok → el = nm))

theorem tokStep_sound (tok : Tok) (c : Char) : StepOK tok (tokStep tok c) := by
  cases tok with
  | data acc =>
    by_cases hc : c = '<'
    · rw [show tokStep (.data acc) c = (.tagOpen, textEvent acc) from by
        simp [tokStep, hc]]
      exact Or.inl ⟨quiet_textEvent acc, fun _ h => h.elim⟩
    · rw [show tokStep (.data acc) c = (.data (acc ++ [c]), []) from by
        simp [tokStep, hc]]
      exact Or.inl ⟨quiet_nil, fun _ h => h.elim⟩
  | tagOpen =>
    by_cases h1 : c.isAlpha = true
    · rw [show tokStep .tagOpen c = (.tagName (mkTag [c.toLower]), []) from by
        simp [tokStep, h1]]
      exact Or.inl ⟨quiet_nil, fun _ h => h.elim⟩
    · by_cases h2 : c = '/'
      · rw [show tokStep .tagOpen c = (.endTagOpen, []) from by subst h2; rfl]
        exact Or.inl ⟨quiet_nil, fun _ h => h.elim⟩
      · by_cases h3 : c = '!'
        · rw [show tokStep .tagOpen c = (.markupDeclOpen, []) from by subst h3; rfl]
          exact Or.inl ⟨quiet_nil, fun _ h => h.elim⟩
        · by_cases h4 : c = '?'
          · rw [show tokStep .tagOpen c = (.bogusComment ['?'], []) from by subst h4; rfl]
            exact Or.inl ⟨quiet_nil, fun _ h => h.elim⟩
          · by_cases h5 : c = '<'
            · rw [show tokStep .tagOpen c = (.tagOpen, [Event.text ['<']]) from by subst h5; rfl]
              exact Or.inl ⟨quiet_single_text ['<'], fun _ h => h.elim⟩
            · rw [show tokStep .tagOpen c = (.data ['<', c], []) from by
                simp [tokStep, h1, h2, h3, h4, h5]]
              exact Or.inl ⟨quiet_nil, fun _ h => h.elim⟩
  | endTagOpen =>
    by_cases h1 : c.isAlpha = true
    · rw [show tokStep .endTagOpen c = (.endTagName [c.toLower], []) from by
        simp [tokStep, h1]]
      exact Or.inl ⟨quiet_nil, fun _ h => h.elim⟩
    · by_cases h2 : c = '>'
      · rw [show tokStep .endTagOpen c = (.data [], []) from by subst h2; rfl]
        exact Or.inl ⟨quiet_nil, fun _ h => h.elim⟩
      · rw [show tokStep .endTagOpen c = (.bogusComment [c], []) from by
          simp [tokStep, h1, h2]]
        exact Or.inl ⟨quiet_nil, fun _ h => h.elim⟩
  | tagName t =>
    by_cases h1 : isWs c = true
    · rw [show tokStep (.tagName t) c = (.beforeAttrName t, []) from by
        simp [tokStep, h1]]
      exact Or.inl ⟨quiet_nil, fun _ h => h.elim⟩
    · by_cases h2 : c = '/'
      · rw [show tokStep (.tagName t) c = (.selfClosingStart t, []) from by subst h2; rfl]
        exact Or.inl ⟨quiet_nil, fun _ h => h.elim⟩
      · by_cases h3 : c = '>'
        · rw [show tokStep (.tagName t) c = finishTag t from by subst h3; rfl]
          exact Or.inr (Or.inl ⟨t, rfl, rfl, fun _ h => h.elim⟩)
        · rw [show tokStep (.tagName t) c =
              (.tagName { t with name := String.mk (t.name.data ++ [c.toLower]) },
                []) from by simp [tokStep, h1, h2, h3]]
          exact Or.inl ⟨quiet_nil, fun _ h => h.elim⟩
  | beforeAttrName t =>
    by_cases h1 : isWs c = true
    · rw [show tokStep (.beforeAttrName t) c = (.beforeAttrName t, []) from by
        simp [tokStep, h1]]
      exact Or.inl ⟨quiet_nil, fun _ h => h.elim⟩
    · by_cases h2 : c = '/'
      · rw [show tokStep (.beforeAttrName t) c = (.selfClosingStart t, []) from by subst h2; rfl]
        exact Or.inl ⟨quiet_nil, fun _ h => h.elim⟩
      · by_cases h3 : c = '>'
        · rw [show tokStep (.beforeAttrName t) c = finishTag t from by subst h3; rfl]
          exact Or.inr (Or.inl ⟨t, rfl, rfl, fun _ h => h.elim⟩)
        · rw [show tokStep (.beforeAttrName t) c = (.attrName t [c.toLower], []) from by
            simp [tokStep, h1, h2, h3]]
          exact Or.inl ⟨quiet_nil, fun _ h => h.elim⟩
  | attrName t an =>
    by_cases h1 : isWs c = true
    · rw [show tokStep (.attrName t an) c = (.afterAttrName t an, []) from by
        simp [tokStep, h1]]
      exact Or.inl ⟨quiet_nil, fun _ h => h.elim⟩
    · by_cases h2 : c = '='
      · rw [show tokStep (.attrName t an) c = (.beforeAttrVal t an, []) from by subst h2; rfl]
        exact Or.inl ⟨quiet_nil, fun _ h => h.elim⟩
      · by_cases h3 : c = '/'
        · rw [show tokStep (.attrName t an) c =
              (.selfClosingStart (pushAttr t an []), []) from by subst h3; rfl]
          exact Or.inl ⟨quiet_nil, fun _ h => h.elim⟩
        · by_cases h4 : c = '>'
          · rw [show tokStep (.attrName t an) c = finishTag (pushAttr t an []) from by subst h4; rfl]
            exact Or.inr (Or.inl ⟨pushAttr t an [], rfl, rfl, fun _ h => h.elim⟩)
          · rw [show tokStep (.attrName t an) c =
                (.attrName t (an ++ [c.toLower]), []) from by
              simp [tokStep, h1, h2, h3, h4]]
            exact Or.inl ⟨quiet_nil, fun _ h => h.elim⟩
  | afterAttrName t an =>
    by_cases h1 : isWs c = true
    · rw [show tokStep (.afterAttrName t an) c = (.afterAttrName t an, []) from by
        simp [tokStep, h1]]
      exact Or.inl ⟨quiet_nil, fun _ h => h.elim⟩
    · by_cases h2 : c = '='
      · rw [show tokStep (.afterAttrName t an) c = (.beforeAttrVal t an, []) from by subst h2; rfl]
        exact Or.inl ⟨quiet_nil, fun _ h => h.elim⟩
      · by_cases h3 : c = '/'
        · rw [show tokStep (.afterAttrName t an) c =
              (.selfClosingStart (pushAttr t an []), []) from by subst h3; rfl]
          exact Or.inl ⟨quiet_nil, fun _ h => h.elim⟩
        · by_cases h4 : c = '>'
          · rw [show tokStep (.afterAttrName t an) c =
                finishTag (pushAttr t an []) from by subst h4; rfl]
            exact Or.inr (Or.inl ⟨pushAttr t an [], rfl, rfl, fun _ h => h.elim⟩)
          · rw [show tokStep (.afterAttrName t an) c =
                (.attrName (pushAttr t an []) [c.toLower], []) from by
              simp [tokStep, h1, h2, h3, h4]]
            exact Or.inl ⟨quiet_nil, fun _ h => h.elim⟩
  | beforeAttrVal t an =>
    by_cases h1 : isWs c = true
    · rw [show tokStep (.beforeAttrVal t an) c = (.beforeAttrVal t an, []) from by
        simp [tokStep, h1]]
      exact Or.inl ⟨quiet_nil, fun _ h => h.elim⟩
    · by_cases h2 : c = quoteCh
      · rw [show tokStep (.beforeAttrVal t an) c = (.attrValDq t an [], []) from by subst h2; rfl]
        exact Or.inl ⟨quiet_nil, fun _ h => h.elim⟩
      · by_cases h3 : c = aposCh
        · rw [show tokStep (.beforeAttrVal t an) c = (.attrValSq t an [], []) from by subst h3; rfl]
          exact Or.inl ⟨quiet_nil, fun _ h => h.elim⟩
        · by_cases h4 : c = '>'
          · rw [show tokStep (.beforeAttrVal t an) c =
                finishTag (pushAttr t an []) from by subst h4; rfl]
            exact Or.inr (Or.inl ⟨pushAttr t an [], rfl, rfl, fun _ h => h.elim⟩)
          · rw [show tokStep (.beforeAttrVal t an) c =
                (.attrValUnq t an [c], []) from by
              simp [tokStep, h1, h2, h3, h4]]
            exact Or.inl ⟨quiet_nil, fun _ h => h.elim⟩
  | attrValDq t an av =>
    by_cases h1 : c = quoteCh
    · rw [show tokStep (.attrValDq t an av) c =
          (.afterAttrValQ (pushAttr t an av), []) from by subst h1; rfl]
      exact Or.inl ⟨quiet_nil, fun _ h => h.elim⟩
    · rw [show tokStep (.attrValDq t an av) c =
          (.attrValDq t an (av ++ [c]), []) from by simp [tokStep, h1]]
      exact Or.inl ⟨quiet_nil, fun _ h => h.elim⟩
  | attrValSq t an av =>
    by_cases h1 : c = aposCh
    · rw [show tokStep (.attrValSq t an av) c =
          (.afterAttrValQ (pushAttr t an av), []) from by subst h1; rfl]
      exact Or.inl ⟨quiet_nil, fun _ h => h.elim⟩
    · rw [show tokStep (.attrValSq t an av) c =
          (.attrValSq t an (av ++ [c]), []) from by simp [tokStep, h1]]
      exact Or.inl ⟨quiet_nil, fun _ h => h.elim⟩
  | attrValUnq t an av =>
    by_cases h1 : isWs c = true
    · rw [show tokStep (.attrValUnq t an av) c =
          (.beforeAttrName (pushAttr t an av), []) from by simp [tokStep, h1]]
      exact Or.inl ⟨quiet_nil, fun _ h => h.elim⟩
    · by_cases h2 : c = '>'
      · rw [show tokStep (.attrValUnq t an av) c =
            finishTag (pushAttr t an av) from by subst h2; rfl]
        exact Or.inr (Or.inl ⟨pushAttr t an av, rfl, rfl, fun _ h => h.elim⟩)
      · rw [show tokStep (.attrValUnq t an av) c =
            (.attrValUnq t an (av ++ [c]), []) from by simp [tokStep, h1, h2]]
        exact Or.inl ⟨quiet_nil, fun _ h => h.elim⟩
  | afterAttrValQ t =>
    by_cases h1 : isWs c = true
    · rw [show tokStep (.afterAttrValQ t) c = (.beforeAttrName t, []) from by
        simp [tokStep, h1]]
      exact Or.inl ⟨quiet_nil, fun _ h => h.elim⟩
    · by_cases h2 : c = '/'
      · rw [show tokStep (.afterAttrValQ t) c = (.selfClosingStart t, []) from by subst h2; rfl]
        exact Or.inl ⟨quiet_nil, fun _ h => h.elim⟩
      · by_cases h3 : c = '>'
        · rw [show tokStep (.afterAttrValQ t) c = finishTag t from by subst h3; rfl]
          exact Or.inr (Or.inl ⟨t, rfl, rfl, fun _ h => h.elim⟩)
        · rw [show tokStep (.afterAttrValQ t) c = (.attrName t [c.toLower], []) from by
            simp [tokStep, h1, h2, h3]]
          exact Or.inl ⟨quiet_nil, fun _ h => h.elim⟩
  | selfClosingStart t =>
    by_cases h1 : c = '>'
    · rw [show tokStep (.selfClosingStart t) c =
          finishTag { t with selfClosing := true } from by subst h1; rfl]
      exact Or.inr (Or.inl ⟨{ t with selfClosing := true }, rfl, rfl,
        fun _ h => h.elim⟩)
    · by_cases h2 : isWs c = true
      · rw [show tokStep (.selfClosingStart t) c = (.beforeAttrName t, []) from by
          simp [tokStep, h1, h2]]
        exact Or.inl ⟨quiet_nil, fun _ h => h.elim⟩
      · by_cases h3 : c = '/'
        · rw [show tokStep (.selfClosingStart t) c = (.selfClosingStart t, []) from by subst h3; rfl]
          exact Or.inl ⟨quiet_nil, fun _ h => h.elim⟩
        · rw [show tokStep (.selfClosingStart t) c = (.attrName t [c.toLower], []) from by
            simp [tokStep, h1, h2, h3]]
          exact Or.inl ⟨quiet_nil, fun _ h => h.elim⟩
  | endTagName nm =>
    by_cases h1 : isWs c = true
    · rw [show tokStep (.endTagName nm) c = (.endTagRest nm, []) from by
        simp [tokStep, h1]]
      exact Or.inl ⟨quiet_nil, fun _ h => h.elim⟩
    · by_cases h2 : c = '>'
      · rw [show tokStep (.endTagName nm) c =
            (.data [], [Event.endTag (String.mk nm)]) from by subst h2; rfl]
        exact Or.inr (Or.inr ⟨[], String.mk nm, Or.inl rfl, rfl, fun _ h => h.elim⟩)
      · rw [show tokStep (.endTagName nm) c =
            (.endTagName (nm ++ [c.toLower]), []) from by simp [tokStep, h1, h2]]
        exact Or.inl ⟨quiet_nil, fun _ h => h.elim⟩
  | endTagRest nm =>
    by_cases h1 : c = '>'
    · rw [show tokStep (.endTagRest nm) c =
          (.data [], [Event.endTag (String.mk nm)]) from by subst h1; rfl]
      exact Or.inr (Or.inr ⟨[], String.mk nm, Or.inl rfl, rfl,
        fun _ h => Eq.symm (h : String.mk nm = _)⟩)
    · rw [show tokStep (.endTagRest nm) c = (.endTagRest nm, []) from by
        simp [tokStep, h1]]
      exact Or.inl ⟨quiet_nil, fun _ h => h⟩
  | markupDeclOpen =>
    by_cases h1 : c = '-'
    · rw [show tokStep .markupDeclOpen c = (.markupDeclDash, []) from by subst h1; rfl]
      exact Or.inl ⟨quiet_nil, fun _ h => h.elim⟩
    · rw [show tokStep .markupDeclOpen c = (.bogusComment [c], []) from by
        simp [tokStep, h1]]
      exact Or.inl ⟨quiet_nil, fun _ h => h.elim⟩
  | markupDeclDash =>
    by_cases h1 : c = '-'
    · rw [show tokStep .markupDeclDash c = (.commentBody [], []) from by subst h1; rfl]
      exact Or.inl ⟨quiet_nil, fun _ h => h.elim⟩
    · rw [show tokStep .markupDeclDash c = (.bogusComment ['-', c], []) from by
        simp [tokStep, h1]]
      exact Or.inl ⟨quiet_nil, fun _ h => h.elim⟩
  | commentBody acc =>
    by_cases h1 : c = '-'
    · rw [show tokStep (.commentBody acc) c = (.commentDash acc, []) from by subst h1; rfl]
      exact Or.inl ⟨quiet_nil, fun _ h => h.elim⟩
    · rw [show tokStep (.commentBody acc) c = (.commentBody (acc ++ [c]), []) from by
        simp [tokStep, h1]]
      exact Or.inl ⟨quiet_nil, fun _ h => h.elim⟩
  | commentDash acc =>
    by_cases h1 : c = '-'
    · rw [show tokStep (.commentDash acc) c = (.commentDashDash acc, []) from by subst h1; rfl]
      exact Or.inl ⟨quiet_nil, fun _ h => h.elim⟩
    · rw [show tokStep (.commentDash acc) c =
          (.commentBody (acc ++ '-' :: [c]), []) from by simp [tokStep, h1]]
      exact Or.inl ⟨quiet_nil, fun _ h => h.elim⟩
  | commentDashDash acc =>
    by_cases h1 : c = '>'
    · rw [show tokStep (.commentDashDash acc) c =
          (.data [], [Event.comment acc]) from by subst h1; rfl]
      exact Or.inl ⟨quiet_single_comment acc, fun _ h => h.elim⟩
    · by_cases h2 : c = '-'
      · rw [show tokStep (.commentDashDash acc) c =
            (.commentDashDash (acc ++ ['-']), []) from by subst h2; rfl]
        exact Or.inl ⟨quiet_nil, fun _ h => h.elim⟩
      · rw [show tokStep (.commentDashDash acc) c =
            (.commentBody (acc ++ '-' :: '-' :: [c]), []) from by
          simp [tokStep, h1, h2]]
        exact Or.inl ⟨quiet_nil, fun _ h => h.elim⟩
  | bogusComment acc =>
    by_cases h1 : c = '>'
    · rw [show tokStep (.bogusComment acc) c =
          (.data [], [Event.comment acc]) from by subst h1; rfl]
      exact Or.inl ⟨quiet_single_comment acc, fun _ h => h.elim⟩
    · rw [show tokStep (.bogusComment acc) c =
          (.bogusComment (acc ++ [c]), []) from by simp [tokStep, h1]]
      exact Or.inl ⟨quiet_nil, fun _ h => h.elim⟩
  | rawData el acc =>
    by_cases h1 : c = '<'
    · rw [show tokStep (.rawData el acc) c = (.rawLt el acc, []) from by subst h1; rfl]
      exact Or.inl ⟨quiet_nil, fun _ h => h⟩
    · rw [show tokStep (.rawData el acc) c = (.rawData el (acc ++ [c]), []) from by
        simp [tokStep, h1]]
      exact Or.inl ⟨quiet_nil, fun _ h => h⟩
  | rawLt el acc =>
    by_cases h1 : c = '/'
    · rw [show tokStep (.rawLt el acc) c = (.rawEndOpen el acc, []) from by subst h1; rfl]
      exact Or.inl ⟨quiet_nil, fun _ h => h⟩
    · by_cases h2 : c = '<'
      · rw [show tokStep (.rawLt el acc) c = (.rawLt el (acc ++ ['<']), []) from by subst h2; rfl]
        exact Or.inl ⟨quiet_nil, fun _ h => h⟩
      · rw [show tokStep (.rawLt el acc) c =
            (.rawData el (acc ++ '<' :: [c]), []) from by simp [tokStep, h1, h2]]
        exact Or.inl ⟨quiet_nil, fun _ h => h⟩
  | rawEndOpen el acc =>
    by_cases h1 : c.isAlpha = true
    · rw [show tokStep (.rawEndOpen el acc) c =
          (.rawEndName el acc [c.toLower], []) from by simp [tokStep, h1]]
      exact Or.inl ⟨quiet_nil, fun _ h => h⟩
    · by_cases h2 : c = '<'
      · rw [show tokStep (.rawEndOpen el acc) c =
            (.rawLt el (acc ++ ['<', '/']), []) from by subst h2; rfl]
        exact Or.inl ⟨quiet_nil, fun _ h => h⟩
      · rw [show tokStep (.rawEndOpen el acc) c =
            (.rawData el (acc ++ '<' :: '/' :: [c]), []) from by
          simp [tokStep, h1, h2]]
        exact Or.inl ⟨quiet_nil, fun _ h => h⟩
  | rawEndName el acc nm =>
    by_cases h1 : c.isAlpha = true
    · rw [show tokStep (.rawEndName el acc nm) c =
          (.rawEndName el acc (nm ++ [c.toLower]), []) from by simp [tokStep, h1]]
      exact Or.inl ⟨quiet_nil, fun _ h => h⟩
    · by_cases h2 : (String.mk nm == el && c == '>') = true
      · rw [show tokStep (.rawEndName el acc nm) c =
            (.data [], textEvent acc ++ [Event.endTag el]) from by
          simp only [tokStep, if_neg h1, if_pos h2]]
        refine Or.inr (Or.inr ⟨acc, el, ?_, rfl,
          fun _ h => Eq.symm (h : el = _)⟩)
        rw [textEvent]
        split
        · exact Or.inl rfl
        · exact Or.inr rfl
      · by_cases h3 : (String.mk nm == el && isWs c) = true
        · rw [show tokStep (.rawEndName el acc nm) c =
              (.endTagRest nm, textEvent acc) from by
            simp only [tokStep, if_neg h1, if_neg h2, if_pos h3]]
          refine Or.inl ⟨quiet_textEvent acc, ?_⟩
          intro el2 h
          have h3x : (String.mk nm == el) = true ∧ isWs c = true := by
            rw [← Bool.and_eq_true]
            exact h3
          have hmk : String.mk nm = el := eq_of_beq h3x.1
          have hel : el = el2 := h
          show String.mk nm = el2
          rw [hmk, hel]
        · by_cases h4 : c = '<'
          · rw [show tokStep (.rawEndName el acc nm) c =
                (.rawLt el (acc ++ '<' :: '/' :: nm), []) from by
              simp only [tokStep, if_neg h1, if_neg h2, if_neg h3, if_pos h4]]
            exact Or.inl ⟨quiet_nil, fun _ h => h⟩
          · rw [show tokStep (.rawEndName el acc nm) c =
                (.rawData el (acc ++ '<' :: '/' :: nm ++ [c]), []) from by
              simp [tokStep, h1, h2, h3, h4]]
            exact Or.inl ⟨quiet_nil, fun _ h => h⟩

theorem tokChunkFlush_sound (tok : Tok) :
    quietEvs (tokChunkFlush tok).2 ∧
      ∀ el, tokRawFor el tok → tokRawFor el (tokChunkFlush tok).1 := by
  cases tok <;>
    exact ⟨by first | exact quiet_nil | exact quiet_textEvent _,
      fun _ h => h⟩

theorem tokFlush_quiet (tok : Tok) : quietEvs (tokFlush tok) := by
  cases tok <;>
    first
    | exact quiet_nil
    | exact quiet_textEvent _
    | exact quiet_single_text _
    | exact quiet_single_comment _

theorem applyEvent_tok (bb : BubbleBath) (s : RS) (ev : Event) :
    (applyEvent bb s ev).tok = s.tok := by
  cases ev with
  | startTag t =>
    show (onStartTag bb s t).tok = s.tok
    unfold onStartTag
    repeat' split
    all_goals rfl
  | endTag nm =>
    show (onEndTag s nm).tok = s.tok
    unfold onEndTag
    cases hm : findPopMatch s.stk nm with
    | none => rfl
    | some p =>
      obtain ⟨⟨enm, act⟩, rest⟩ := p
      cases act <;> rfl
  | text cs => rfl
  | comment cs => rfl

theorem applyEvents_tok (bb : BubbleBath) (s : RS) (evs : List Event) :
    (applyEvents bb s evs).tok = s.tok := by
  induction evs generalizing s with
  | nil => rfl
  | cons e rest ih =>
    show (applyEvents bb (applyEvent bb s e) rest).tok = s.tok
    rw [ih, applyEvent_tok]

theorem remInv_of_noRem {stk : List OpenE}
    (h : ∀ x ∈ stk, isRemoveAll x.act = false) (tok : Tok) : RemInv stk tok := by
  cases stk with
  | nil => trivial
  | cons e rest =>
    refine ⟨fun x hx => h x (List.mem_cons_of_mem e hx), fun hr => ?_⟩
    rw [h e (List.mem_cons_self e rest)] at hr
    exact Bool.noConfusion hr

theorem suppressed_false_of_noRem {stk : List OpenE}
    (h : ∀ x ∈ stk, isRemoveAll x.act = false) : suppressed stk = false := by
  rw [suppressed, List.any_eq_false]
  intro x hx
  rw [h x hx]
  exact Bool.noConfusion

theorem tokRawFor_unique {a b : String} {tok : Tok}
    (ha : tokRawFor a tok) (hb : tokRawFor b tok) : a = b := by
  cases tok <;> simp [tokRawFor] at ha hb <;> rw [← ha, ← hb]

theorem remInv_noRem_of_nonraw {stk : List OpenE} {tok : Tok}
    (h : RemInv stk tok) (htok : ∀ el, ¬ tokRawFor el tok) :
    ∀ x ∈ stk, isRemoveAll x.act = false := by
  cases stk with
  | nil => intro x hx; simp at hx
  | cons e rest =>
    intro x hx
    obtain ⟨h1, h2⟩ := h
    rcases List.mem_cons.mp hx with he | hx2
    · subst he
      by_cases hr : isRemoveAll x.act = true
      · exact absurd (h2 hr) (htok x.name)
      · simpa using hr
    · exact h1 x hx2

theorem remInv_raw_step {stk : List OpenE} {tok tok2 : Tok} {el : String}
    (h : RemInv stk tok) (hraw : tokRawFor el tok)
    (hraw2 : tokRawFor el tok2) : RemInv stk tok2 := by
  cases stk with
  | nil => trivial
  | cons e rest =>
    obtain ⟨h1, h2⟩ := h
    refine ⟨h1, fun hr => ?_⟩
    have : e.name = el := tokRawFor_unique (h2 hr) hraw
    rw [this]
    exact hraw2

theorem balInv_onText (s : RS) (cs : List Char) (h : BalInv s) :
    BalInv (onText s cs) := by
  obtain ⟨h1, h2, h3, h4⟩ := h
  refine ⟨?_, h2, h3, h4⟩
  intro t0
  show startCount t0 (onText s cs).out ≤
    endCount t0 (onText s cs).out + s.slab.countName t0
  rw [show (onText s cs).out =
      (if suppressed s.stk = true then s.out
       else s.out ++ [Piece.txt (cleanText cs)]) from rfl]
  split
  · exact h1 t0
  · rw [startCount_snoc_txt, endCount_snoc_txt]
    exact h1 t0

theorem balInv_onComment (s : RS) (cs : List Char) (h : BalInv s) :
    BalInv (onComment s cs) := h

theorem balInv_applyQuiet (bb : BubbleBath) (evs : List Event) :
    ∀ s : RS, quietEvs evs → BalInv s → BalInv (applyEvents bb s evs) := by
  induction evs with
  | nil => intro s _ h; exact h
  | cons e rest ih =>
    intro s hq h
    show BalInv (applyEvents bb (applyEvent bb s e) rest)
    have he := hq e (List.mem_cons_self e rest)
    have hrest : quietEvs rest := fun ev hev => hq ev (List.mem_cons_of_mem e hev)
    rcases he with ⟨cs, rfl⟩ | ⟨cs, rfl⟩
    · exact ih (onText s cs) hrest (balInv_onText s cs h)
    · exact ih (onComment s cs) hrest (balInv_onComment s cs h)

theorem balance_keys_distinct {sl : Slab} {stk : List OpenE}
    (h3 : StkWF sl stk) {l1 l2 : List OpenE} {e : OpenE}
    (hdec : stk = l1 ++ e :: l2) {k : Nat} (hek : e.act = .balance k) :
    ∀ x ∈ l1 ++ l2, ∀ j, x.act = .balance j → j ≠ k := by
  intro x hx j hxj he
  subst he
  have hnd := h3.2
  rw [hdec, List.filterMap_append, List.filterMap_cons] at hnd
  rw [show balKey e = some j from by
    obtain ⟨enm, eact⟩ := e
    simp only at hek
    rw [hek]
    rfl] at hnd
  have hjmem : j ∈ l1.filterMap balKey ++ l2.filterMap balKey := by
    rcases List.mem_append.mp hx with hx1 | hx1
    · exact List.mem_append.mpr (Or.inl (List.mem_filterMap.mpr ⟨x, hx1, by
        obtain ⟨xnm, xact⟩ := x
        simp only at hxj
        rw [hxj]
        rfl⟩))
    · exact List.mem_append.mpr (Or.inr (List.mem_filterMap.mpr ⟨x, hx1, by
        obtain ⟨xnm, xact⟩ := x
        simp only at hxj
        rw [hxj]
        rfl⟩))
  rw [List.nodup_append] at hnd
  obtain ⟨hnd1, hnd2, hdisj⟩ := hnd
  rcases List.mem_append.mp hjmem with hj1 | hj1
  · exact hdisj hj1 (List.mem_cons_self j _)
  · exact (List.nodup_cons.mp hnd2).1 hj1

theorem stkWF_drop {sl : Slab} {stk l1 l2 : List OpenE} {e : OpenE}
    (h3 : StkWF sl stk) (hdec : stk = l1 ++ e :: l2) :
    StkWF sl (l1 ++ l2) := by
  constructor
  · intro x hx k hk
    refine h3.1 x ?_ k hk
    rw [hdec]
    rcases List.mem_append.mp hx with h | h
    · exact List.mem_append.mpr (Or.inl h)
    · exact List.mem_append.mpr (Or.inr (List.mem_cons_of_mem e h))
  · refine List.Nodup.sublist (List.Sublist.filterMap balKey ?_) h3.2
    rw [hdec]
    exact List.Sublist.append (List.Sublist.refl l1) (List.sublist_cons_self e l2)

theorem balInv_onEndTag (s : RS) (nm : String)
    (h1 : ∀ t0, startCount t0 s.out ≤ endCount t0 s.out + s.slab.countName t0)
    (h2 : SlabWF s.slab) (h3 : StkWF s.slab s.stk)
    (hrem : (∀ x ∈ s.stk, isRemoveAll x.act = false) ∨
      (∃ rest, s.stk = ⟨nm, .removeAll⟩ :: rest ∧
        ∀ x ∈ rest, isRemoveAll x.act = false)) :
    (∀ t0, startCount t0 (onEndTag s nm).out ≤
      endCount t0 (onEndTag s nm).out + (onEndTag s nm).slab.countName t0) ∧
    SlabWF (onEndTag s nm).slab ∧
    StkWF (onEndTag s nm).slab (onEndTag s nm).stk ∧
    (∀ x ∈ (onEndTag s nm).stk, isRemoveAll x.act = false) := by
  rcases hrem with hA | ⟨rest, hstk, hnr⟩
  · have hsup := suppressed_false_of_noRem hA
    cases hm : findPopMatch s.stk nm with
    | none =>
      have heq : onEndTag s nm = { s with out := s.out ++ [Piece.tagC nm] } := by
        unfold onEndTag
        rw [hm, hsup]
        rfl
      rw [heq]
      refine ⟨?_, h2, h3, hA⟩
      intro t0
      show startCount t0 (s.out ++ [Piece.tagC nm]) ≤
        endCount t0 (s.out ++ [Piece.tagC nm]) + s.slab.countName t0
      rw [startCount_snoc_tagC, endCount_snoc_tagC]
      have := h1 t0
      omega
    | some p =>
      obtain ⟨e, rest⟩ := p
      obtain ⟨l1, l2, hdec, hrest, hename, hl1⟩ :=
        findPopMatch_decomp s.stk nm e rest hm
      have hmemE : e ∈ s.stk := by
        rw [hdec]
        exact List.mem_append.mpr (Or.inr (List.mem_cons_self e l2))
      have hmemrest : ∀ x ∈ rest, x ∈ s.stk := by
        intro x hx
        rw [hrest] at hx
        rw [hdec]
        rcases List.mem_append.mp hx with h | h
        · exact List.mem_append.mpr (Or.inl h)
        · exact List.mem_append.mpr (Or.inr (List.mem_cons_of_mem e h))
      have hnrrest : ∀ x ∈ rest, isRemoveAll x.act = false :=
        fun x hx => hA x (hmemrest x hx)
      have hsuprest : suppressed rest = false := suppressed_false_of_noRem hnrrest
      have hwfrest : StkWF s.slab rest := by
        rw [hrest]
        exact stkWF_drop h3 hdec
      cases heact : e.act with
      | balance k =>
        have hkslot : s.slab.slots.get? k = some (some nm) := by
          rw [← hename]
          exact h3.1 e hmemE k heact
        obtain ⟨hcnt, hpres, hwfnew⟩ := slab_remove_spec s.slab k nm h2 hkslot
        have heq : onEndTag s nm =
            { s with stk := rest, slab := s.slab.removeKey k,
                     regLog := s.regLog ++ [RegEv.rem k],
                     out := s.out ++ [Piece.tagC nm] } := by
          unfold onEndTag
          rw [hm]
          simp only [heact, hsuprest]
          rfl
        rw [heq]
        refine ⟨?_, hwfnew, ⟨?_, ?_⟩, hnrrest⟩
        · intro t0
          show startCount t0 (s.out ++ [Piece.tagC nm]) ≤
            endCount t0 (s.out ++ [Piece.tagC nm]) +
              (s.slab.removeKey k).countName t0
          rw [startCount_snoc_tagC, endCount_snoc_tagC]
          have ha := h1 t0
          have hb := hcnt t0
          omega
        · intro x hx j hxj
          show (s.slab.removeKey k).slots.get? j = some (some x.name)
          have horig := h3.1 x (hmemrest x hx) j hxj
          have hjk : j ≠ k := by
            refine balance_keys_distinct h3 hdec heact x ?_ j hxj
            rw [← hrest]
            exact hx
          exact hpres j (some x.name) horig hjk
        · exact hwfrest.2
      | keepContent =>
        have heq : onEndTag s nm = { s with stk := rest } := by
          unfold onEndTag
          rw [hm]
          simp only [heact]
        rw [heq]
        exact ⟨h1, h2, hwfrest, hnrrest⟩
      | escape =>
        have heq : onEndTag s nm =
            { s with stk := rest,
                     out := s.out ++
                       [Piece.txt (lolEscape ('<' :: '/' :: nm.data ++ ['>']))] } := by
          unfold onEndTag
          rw [hm]
          simp only [heact, hsuprest]
          rfl
        rw [heq]
        refine ⟨?_, h2, hwfrest, hnrrest⟩
        intro t0
        show startCount t0 (s.out ++ [Piece.txt _]) ≤
          endCount t0 (s.out ++ [Piece.txt _]) + s.slab.countName t0
        rw [startCount_snoc_txt, endCount_snoc_txt]
        exact h1 t0
      | removeAll =>
        have := hA e hmemE
        rw [heact] at this
        exact Bool.noConfusion this
  · have hm : findPopMatch s.stk nm = some (⟨nm, .removeAll⟩, rest) := by
      rw [hstk, findPopMatch]
      simp
    have heq : onEndTag s nm = { s with stk := rest } := by
      unfold onEndTag
      rw [hm]
    rw [heq]
    refine ⟨h1, h2, ?_, hnr⟩
    constructor
    · intro x hx k hk
      exact h3.1 x (by rw [hstk]; exact List.mem_cons_of_mem _ hx) k hk
    · refine List.Nodup.sublist (List.Sublist.filterMap balKey ?_) h3.2
      rw [hstk]
      exact List.sublist_cons_self _ rest

theorem balKey_eq_some {x : OpenE} {j : Nat} (h : balKey x = some j) :
    x.act = .balance j := by
  obtain ⟨nm, act⟩ := x
  cases act with
  | balance k =>
    simp only [balKey, Option.some.injEq] at h
    rw [h]
  | keepContent => exact Option.noConfusion h
  | escape => exact Option.noConfusion h
  | removeAll => exact Option.noConfusion h

theorem stkWF_push_nonbal {sl : Slab} {stk : List OpenE} (h3 : StkWF sl stk)
    (e : OpenE) (he : balKey e = none) : StkWF sl (e :: stk) := by
  constructor
  · intro x hx k hk
    rcases List.mem_cons.mp hx with h | h
    · subst h
      rw [show balKey x = some k from by
        obtain ⟨nm, act⟩ := x
        dsimp only at hk
        rw [hk]
        rfl] at he
      exact Option.noConfusion he
    · exact h3.1 x h k hk
  · rw [List.filterMap_cons, he]
    exact h3.2

theorem balInv_onStartTag (bb : BubbleBath) (s : RS) (t : Tag)
    (hsubRaw : ∀ nm, bb.removeContentTags.contains nm = true →
      rawTextTags.contains nm = true)
    (h1 : ∀ t0, startCount t0 s.out ≤ endCount t0 s.out + s.slab.countName t0)
    (h2 : SlabWF s.slab) (h3 : StkWF s.slab s.stk)
    (hnoRem : ∀ x ∈ s.stk, isRemoveAll x.act = false)
    (htok : s.tok = postStart t.name) :
    BalInv (onStartTag bb s t) := by
  have hsup := suppressed_false_of_noRem hnoRem
  have htokres : (onStartTag bb s t).tok = s.tok :=
    applyEvent_tok bb s (Event.startTag t)
  by_cases hrc : bb.removeContentTags.contains t.name = true
  · have heq : onStartTag bb s t =
        { s with stk := if t.selfClosing then s.stk
                        else ⟨t.name, .removeAll⟩ :: s.stk } := by
      unfold onStartTag
      rw [if_pos hrc]
    rw [heq]
    refine ⟨h1, h2, ?_, ?_⟩
    · by_cases hsc : t.selfClosing = true
      · rw [if_pos hsc]
        exact h3
      · rw [if_neg hsc]
        exact stkWF_push_nonbal h3 _ rfl
    · by_cases hsc : t.selfClosing = true
      · rw [if_pos hsc]
        exact remInv_of_noRem hnoRem _
      · rw [if_neg hsc]
        refine ⟨hnoRem, fun _ => ?_⟩
        show tokRawFor t.name s.tok
        rw [htok, postStart, if_pos (hsubRaw t.name hrc)]
        show t.name = t.name
        rfl
  · by_cases hal : bb.allowedTags.contains t.name = true
    · rw [onStartTag_factor bb s t hrc hal]
      obtain ⟨hname, hscm⟩ := sourceOrder_meta bb t
      by_cases hscT : t.selfClosing = true
      · have heq : balanceStep bb s t (sourceOrderSteps bb t).1
            (sourceOrderSteps bb t).2 =
            { s with out := s.out ++ [Piece.tagO (sourceOrderSteps bb t).1],
                     err := s.err || (sourceOrderSteps bb t).2 } := by
          unfold balanceStep
          rw [hsup, if_pos hscT]
          rfl
        rw [heq]
        refine ⟨?_, h2, h3, remInv_of_noRem hnoRem _⟩
        intro t0
        show startCount t0 (s.out ++ [Piece.tagO _]) ≤
          endCount t0 (s.out ++ [Piece.tagO _]) + s.slab.countName t0
        rw [startCount_snoc_tagO, endCount_snoc_tagO, hname, hscm, hscT]
        have := h1 t0
        simp only [if_neg (by simp : ¬ ((_ : Prop) ∧ true = false))]
        omega
      · obtain ⟨hget, hcnt, hpres, hfresh, hwfnew⟩ :=
          slab_insert_spec s.slab t.name h2
        have heq : balanceStep bb s t (sourceOrderSteps bb t).1
            (sourceOrderSteps bb t).2 =
            { s with out := s.out ++ [Piece.tagO (sourceOrderSteps bb t).1],
                     err := s.err || (sourceOrderSteps bb t).2,
                     slab := (s.slab.insert t.name).1,
                     regLog := s.regLog ++
                       [RegEv.ins (s.slab.insert t.name).2 t.name],
                     stk := if ¬ voidTags.contains t.name then
                              ⟨t.name, .balance (s.slab.insert t.name).2⟩ :: s.stk
                            else s.stk } := by
          unfold balanceStep
          rw [hsup, if_neg hscT]
          rfl
        rw [heq]
        have hcounts : ∀ t0,
            startCount t0 (s.out ++ [Piece.tagO (sourceOrderSteps bb t).1]) ≤
              endCount t0 (s.out ++ [Piece.tagO (sourceOrderSteps bb t).1]) +
                (s.slab.insert t.name).1.countName t0 := by
          intro t0
          rw [startCount_snoc_tagO, endCount_snoc_tagO, hname, hscm, hcnt t0]
          have ha := h1 t0
          have hscF : t.selfClosing = false := by
            cases hb : t.selfClosing
            · rfl
            · exact absurd hb hscT
          rw [hscF]
          by_cases hn : t.name = t0
          · rw [if_pos ⟨hn, rfl⟩, if_pos hn]
            omega
          · rw [if_neg (fun hh => hn hh.1), if_neg hn]
            omega
        have hkeepold : ∀ x ∈ s.stk, ∀ k, x.act = .balance k →
            (s.slab.insert t.name).1.slots.get? k = some (some x.name) := by
          intro x hx k hk
          have horig := h3.1 x hx k hk
          exact hpres k (some x.name) horig (hfresh x.name k horig)
        refine ⟨hcounts, hwfnew, ?_, ?_⟩
        · by_cases hvd : voidTags.contains t.name = true
          · rw [if_neg (not_not_intro hvd)]
            exact ⟨hkeepold, h3.2⟩
          · rw [if_pos hvd]
            constructor
            · intro x hx k hk
              rcases List.mem_cons.mp hx with h | h
              · subst h
                have hk2 : EndAct.balance (s.slab.insert t.name).2 =
                    EndAct.balance k := hk
                injection hk2 with hk3
                rw [← hk3]
                exact hget
              · exact hkeepold x h k hk
            · rw [List.filterMap_cons]
              show ((s.slab.insert t.name).2 :: s.stk.filterMap balKey).Nodup
              refine List.nodup_cons.mpr ⟨?_, h3.2⟩
              intro hmem
              obtain ⟨x, hx, hbk⟩ := List.mem_filterMap.mp hmem
              have hxact := balKey_eq_some hbk
              have horig := h3.1 x hx _ hxact
              exact hfresh x.name _ horig rfl
        · by_cases hvd : voidTags.contains t.name = true
          · rw [if_neg (not_not_intro hvd)]
            exact remInv_of_noRem hnoRem _
          · rw [if_pos hvd]
            refine remInv_of_noRem ?_ _
            intro x hx
            rcases List.mem_cons.mp hx with h | h
            · subst h
              rfl
            · exact hnoRem x h
    · by_cases hpe : bb.preserveEscaped = true
      · have heq : onStartTag bb s t =
            { s with out := s.out ++ [Piece.txt (lolEscape (formatTag t))],
                     stk := if ¬ t.selfClosing ∧ ¬ voidTags.contains t.name then
                              ⟨t.name, .escape⟩ :: s.stk
                            else s.stk } := by
          unfold onStartTag
          rw [if_neg hrc, if_pos hal, if_pos hpe, hsup]
          rfl
        rw [heq]
        refine ⟨?_, h2, ?_, ?_⟩
        · intro t0
          show startCount t0 (s.out ++ [Piece.txt _]) ≤
            endCount t0 (s.out ++ [Piece.txt _]) + s.slab.countName t0
          rw [startCount_snoc_txt, endCount_snoc_txt]
          exact h1 t0
        · show StkWF s.slab
            (if ¬ t.selfClosing ∧ ¬ voidTags.contains t.name then
              ⟨t.name, .escape⟩ :: s.stk else s.stk)
          split
          · exact stkWF_push_nonbal h3 _ rfl
          · exact h3
        · show RemInv
            (if ¬ t.selfClosing ∧ ¬ voidTags.contains t.name then
              ⟨t.name, .escape⟩ :: s.stk else s.stk) s.tok
          split
          · refine remInv_of_noRem ?_ _
            intro x hx
            rcases List.mem_cons.mp hx with h | h
            · subst h
              rfl
            · exact hnoRem x h
          · exact remInv_of_noRem hnoRem _
      · have heq : onStartTag bb s t =
            { s with stk := if ¬ t.selfClosing ∧ ¬ voidTags.contains t.name then
                              ⟨t.name, .keepContent⟩ :: s.stk
                            else s.stk } := by
          unfold onStartTag
          rw [if_neg hrc, if_pos hal, if_neg hpe]
        rw [heq]
        refine ⟨h1, h2, ?_, ?_⟩
        · show StkWF s.slab
            (if ¬ t.selfClosing ∧ ¬ voidTags.contains t.name then
              ⟨t.name, .keepContent⟩ :: s.stk else s.stk)
          split
          · exact stkWF_push_nonbal h3 _ rfl
          · exact h3
        · show RemInv
            (if ¬ t.selfClosing ∧ ¬ voidTags.contains t.name then
              ⟨t.name, .keepContent⟩ :: s.stk else s.stk) s.tok
          split
          · refine remInv_of_noRem ?_ _
            intro x hx
            rcases List.mem_cons.mp hx with h | h
            · subst h
              rfl
            · exact hnoRem x h
          · exact remInv_of_noRem hnoRem _

theorem counts_onText (s : RS) (cs : List Char)
    (h1 : ∀ t0, startCount t0 s.out ≤ endCount t0 s.out + s.slab.countName t0) :
    ∀ t0, startCount t0 (onText s cs).out ≤
      endCount t0 (onText s cs).out + (onText s cs).slab.countName t0 := by
  intro t0
  show startCount t0
      (if suppressed s.stk = true then s.out
       else s.out ++ [Piece.txt (cleanText cs)]) ≤
    endCount t0
      (if suppressed s.stk = true then s.out
       else s.out ++ [Piece.txt (cleanText cs)]) + s.slab.countName t0
  split
  · exact h1 t0
  · rw [startCount_snoc_txt, endCount_snoc_txt]
    exact h1 t0

/-- One character through the whole machine preserves the balance
invariant, provided every remove-content tag is a raw-text element (as
in the default policy). -/
theorem stepChar_balInv (bb : BubbleBath)
    (hsubRaw : ∀ nm, bb.removeContentTags.contains nm = true →
      rawTextTags.contains nm = true)
    (s : RS) (c : Char) (h : BalInv s) : BalInv (stepChar bb s c) := by
  obtain ⟨h1, h2, h3, h4⟩ := h
  rcases tokStep_sound s.tok c with ⟨hq, hstable⟩ | ⟨t, hevs, htok2, hnonraw⟩ |
    ⟨pre, nm, hevs, htok2, hrawnm⟩
  · show BalInv (applyEvents bb
      { s with tok := (tokStep s.tok c).1, fed := s.fed ++ [c] }
      (tokStep s.tok c).2)
    refine balInv_applyQuiet bb _ _ hq ⟨h1, h2, h3, ?_⟩
    show RemInv s.stk (tokStep s.tok c).1
    cases hstk : s.stk with
    | nil => trivial
    | cons e rest =>
      rw [hstk] at h4
      exact ⟨h4.1, fun hr => hstable e.name (h4.2 hr)⟩
  · have hnoRem := remInv_noRem_of_nonraw h4 hnonraw
    show BalInv (applyEvents bb
      { s with tok := (tokStep s.tok c).1, fed := s.fed ++ [c] }
      (tokStep s.tok c).2)
    rw [hevs]
    show BalInv (onStartTag bb
      { s with tok := (tokStep s.tok c).1, fed := s.fed ++ [c] } t)
    exact balInv_onStartTag bb _ t hsubRaw h1 h2 h3 hnoRem htok2
  · have hrem : (∀ x ∈ s.stk, isRemoveAll x.act = false) ∨
        (∃ rest, s.stk = ⟨nm, .removeAll⟩ :: rest ∧
          ∀ x ∈ rest, isRemoveAll x.act = false) := by
      cases hstk : s.stk with
      | nil =>
        left
        intro x hx
        simp at hx
      | cons e rest =>
        rw [hstk] at h4
        by_cases hr : isRemoveAll e.act = true
        · right
          refine ⟨rest, ?_, h4.1⟩
          have hname : e.name = nm := hrawnm e.name (h4.2 hr)
          have hact : e.act = .removeAll := by
            obtain ⟨enm, eact⟩ := e
            cases eact <;> first | rfl | exact Bool.noConfusion hr
          obtain ⟨enm, eact⟩ := e
          dsimp only at hname hact
          rw [hname, hact]
        · left
          intro x hx
          rcases List.mem_cons.mp hx with hh | hh
          · subst hh
            cases hb : isRemoveAll x.act
            · rfl
            · exact absurd hb hr
          · exact h4.1 x hh
    have hfin : ∀ s2 : RS,
        (∀ t0, startCount t0 s2.out ≤ endCount t0 s2.out + s2.slab.countName t0) →
        s2.slab = s.slab → s2.stk = s.stk →
        (∀ t0, startCount t0 (onEndTag s2 nm).out ≤
          endCount t0 (onEndTag s2 nm).out + (onEndTag s2 nm).slab.countName t0) ∧
        SlabWF (onEndTag s2 nm).slab ∧
        StkWF (onEndTag s2 nm).slab (onEndTag s2 nm).stk ∧
        (∀ x ∈ (onEndTag s2 nm).stk, isRemoveAll x.act = false) := by
      intro s2 h1s hsl hsk
      exact balInv_onEndTag s2 nm h1s (by rw [hsl]; exact h2)
        (by rw [hsl, hsk]; exact h3) (by rw [hsk]; exact hrem)
    rcases hevs with he | he
    · show BalInv (applyEvents bb
        { s with tok := (tokStep s.tok c).1, fed := s.fed ++ [c] }
        (tokStep s.tok c).2)
      rw [he]
      show BalInv (onEndTag
        { s with tok := (tokStep s.tok c).1, fed := s.fed ++ [c] } nm)
      obtain ⟨c1, c2, c3, c4⟩ := hfin
        { s with tok := (tokStep s.tok c).1, fed := s.fed ++ [c] } h1 rfl rfl
      exact ⟨c1, c2, c3, remInv_of_noRem c4 _⟩
    · show BalInv (applyEvents bb
        { s with tok := (tokStep s.tok c).1, fed := s.fed ++ [c] }
        (tokStep s.tok c).2)
      rw [he]
      show BalInv (onEndTag (onText
        { s with tok := (tokStep s.tok c).1, fed := s.fed ++ [c] } pre) nm)
      obtain ⟨c1, c2, c3, c4⟩ := hfin
        (onText { s with tok := (tokStep s.tok c).1, fed := s.fed ++ [c] } pre)
        (counts_onText _ pre h1) rfl rfl
      exact ⟨c1, c2, c3, remInv_of_noRem c4 _⟩

theorem counts_applyQuiet (bb : BubbleBath) (evs : List Event) :
    ∀ s : RS, quietEvs evs →
      (applyEvents bb s evs).slab = s.slab ∧
      ((∀ t0, startCount t0 s.out ≤ endCount t0 s.out + s.slab.countName t0) →
        ∀ t0, startCount t0 (applyEvents bb s evs).out ≤
          endCount t0 (applyEvents bb s evs).out +
            (applyEvents bb s evs).slab.countName t0) := by
  induction evs with
  | nil => intro s _; exact ⟨rfl, fun h => h⟩
  | cons e rest ih =>
    intro s hq
    have hrest : quietEvs rest := fun ev hev => hq ev (List.mem_cons_of_mem e hev)
    rcases hq e (List.mem_cons_self e rest) with ⟨cs, he⟩ | ⟨cs, he⟩
    · subst he
      have hstep := ih (onText s cs) hrest
      exact ⟨hstep.1, fun h => hstep.2 (counts_onText s cs h)⟩
    · subst he
      have hstep := ih (onComment s cs) hrest
      exact ⟨hstep.1, fun h => hstep.2 h⟩

theorem feedChars_balInv (bb : BubbleBath)
    (hsubRaw : ∀ nm, bb.removeContentTags.contains nm = true →
      rawTextTags.contains nm = true) :
    ∀ (cs : List Char) (s : RS), BalInv s → BalInv (feedChars bb s cs) := by
  intro cs
  induction cs with
  | nil => intro s h; exact h
  | cons c rest ih =>
    intro s h
    exact ih (stepChar bb s c) (stepChar_balInv bb hsubRaw s c h)

theorem writeChunk_balInv (bb : BubbleBath)
    (hsubRaw : ∀ nm, bb.removeContentTags.contains nm = true →
      rawTextTags.contains nm = true)
    (s : RS) (chunk : List Char) (h : BalInv s) :
    BalInv (writeChunk bb s chunk) := by
  obtain ⟨a1, a2, a3, a4⟩ := feedChars_balInv bb hsubRaw chunk s h
  show BalInv (applyEvents bb
    { feedChars bb s chunk with
      tok := (tokChunkFlush (feedChars bb s chunk).tok).1 }
    (tokChunkFlush (feedChars bb s chunk).tok).2)
  refine balInv_applyQuiet bb _ _ (tokChunkFlush_sound _).1 ⟨a1, a2, a3, ?_⟩
  show RemInv (feedChars bb s chunk).stk
    (tokChunkFlush (feedChars bb s chunk).tok).1
  cases hstk : (feedChars bb s chunk).stk with
  | nil => trivial
  | cons e rest0 =>
    rw [hstk] at a4
    exact ⟨a4.1, fun hr => (tokChunkFlush_sound _).2 e.name (a4.2 hr)⟩

theorem chunkStep_balInv (bb : BubbleBath)
    (hsubRaw : ∀ nm, bb.removeContentTags.contains nm = true →
      rawTextTags.contains nm = true)
    (s : RS) (chunk : List Char) (h : BalInv s) :
    BalInv (chunkStep bb s chunk) :=
  writeChunk_balInv bb hsubRaw _ chunk h

theorem balInv_initRS : BalInv initRS := by
  refine ⟨?_, slabWF_empty, ⟨?_, List.nodup_nil⟩, trivial⟩
  · intro t0
    show (0 : Nat) ≤ 0 + 0
    omega
  · intro e he
    exact absurd he (List.not_mem_nil e)

theorem chunkPhase_balInv (bb : BubbleBath)
    (hsubRaw : ∀ nm, bb.removeContentTags.contains nm = true →
      rawTextTags.contains nm = true)
    (chunks : List (List Char)) : BalInv (chunkPhase bb chunks) := by
  have hgen : ∀ (l : List (List Char)) (s : RS), BalInv s →
      BalInv (l.foldl (chunkStep bb) s) := by
    intro l
    induction l with
    | nil => intro s h; exact h
    | cons ck rest ih =>
      intro s h
      exact ih (chunkStep bb s ck) (chunkStep_balInv bb hsubRaw s ck h)
  exact hgen chunks initRS balInv_initRS

theorem padFold_balInv (bb : BubbleBath)
    (hsubRaw : ∀ nm, bb.removeContentTags.contains nm = true →
      rawTextTags.contains nm = true) :
    ∀ (l : List Char) (s : RS), BalInv s →
      BalInv (l.foldl (fun s c => writeChunk bb s [c]) s) := by
  intro l
  induction l with
  | nil => intro s h; exact h
  | cons c rest ih =>
    intro s h
    exact ih (writeChunk bb s [c]) (writeChunk_balInv bb hsubRaw s [c] h)

theorem startCount_append_closers (t0 : String) (ps : List Piece)
    (l : List (Nat × String)) :
    startCount t0 (ps ++ l.map fun e => Piece.closer e.2) = startCount t0 ps := by
  rw [startCount, List.countP_append, List.countP_map]
  have : List.countP (fun e => isStartNonSC t0 (Piece.closer e.2)) l = 0 := by
    rw [List.countP_eq_zero]
    intro e _
    exact fun hh => Bool.noConfusion hh
  rw [show ((isStartNonSC t0) ∘ fun e : Nat × String => Piece.closer e.2) =
      (fun e : Nat × String => isStartNonSC t0 (Piece.closer e.2)) from rfl, this]
  rfl

theorem endCount_append_closers (t0 : String) (ps : List Piece)
    (l : List (Nat × String)) :
    endCount t0 (ps ++ l.map fun e => Piece.closer e.2) =
      endCount t0 ps + (l.map Prod.snd).count t0 := by
  rw [endCount, List.countP_append, List.countP_map, List.count, List.countP_map]
  rfl

/-- After `rewriter.end()` the rendered output is balanced: for every
name, the closers appended from the slab make up exactly the missing end
tags. -/
theorem docEnd_counts (bb : BubbleBath) (s : RS) (h : BalInv s) :
    ∀ t0, startCount t0 (docEnd bb s).out ≤ endCount t0 (docEnd bb s).out := by
  obtain ⟨h1, _, _, _⟩ := h
  have hc := counts_applyQuiet bb (tokFlush s.tok) { s with tok := .data [] }
    (tokFlush_quiet s.tok)
  intro t0
  show startCount t0
      ((applyEvents bb { s with tok := Tok.data [] } (tokFlush s.tok)).out ++
        ((applyEvents bb { s with tok := Tok.data [] }
          (tokFlush s.tok)).slab.entries.map fun e => Piece.closer e.2)) ≤
    endCount t0
      ((applyEvents bb { s with tok := Tok.data [] } (tokFlush s.tok)).out ++
        ((applyEvents bb { s with tok := Tok.data [] }
          (tokFlush s.tok)).slab.entries.map fun e => Piece.closer e.2))
  rw [startCount_append_closers, endCount_append_closers, entries_count]
  exact hc.2 h1 t0

/-- C2: tag balance.  Whenever every remove-content tag is a raw-text
element (true of the default policy, whose remove-content tags are
script and style), every accepted non-self-closing start tag emitted to
the output has, by document end, a matching end tag in the output —
counted per name, end tags (observed or synthesized by the document-end
handler from the unclosed-tag registry) are at least as numerous as
start tags; and in particular the default policy maps
the string with-b-AWESOME-unclosed to the same text with the b element
closed at the end. -/
theorem c2_tag_balance :
    (∀ (bb : BubbleBath),
      (∀ nm, bb.removeContentTags.contains nm = true →
        rawTextTags.contains nm = true) →
      ∀ (chunks : List (List Char)) (t0 : String),
        startCount t0 (cleanStreamingRun bb chunks).out ≤
          endCount t0 (cleanStreamingRun bb chunks).out) ∧
    cleanDefault "<b>AWESOME!" = some "<b>AWESOME!</b>" := by
  constructor
  · intro bb hsubRaw chunks t0
    exact docEnd_counts bb _
      (padFold_balInv bb hsubRaw _ _ (chunkPhase_balInv bb hsubRaw chunks)) t0
  · rfl

theorem c2_tag_balance_witness :
    startCount "b" (cleanStreamingRun bbDefault ["<b>AWESOME!".data]).out ≤
      endCount "b" (cleanStreamingRun bbDefault ["<b>AWESOME!".data]).out :=
  c2_tag_balance.1 bbDefault
    (by
      intro nm h
      have hm : nm = "script" ∨ nm = "style" := by
        have h2 : nm ∈ ["script", "style"] := by
          obtain ⟨a, ha, hb⟩ := List.contains_iff_exists_mem_beq.mp h
          rw [show nm = a from beq_iff_eq.mp hb]
          exact ha
        simpa using h2
      rcases hm with hm | hm <;> rw [hm] <;> rfl)
    ["<b>AWESOME!".data] "b"

/-! ## C1: chunking and the streamed output

The handlers never read the accumulated output: they only append to it,
and the appended pieces are a function of the policy, the event, the
slab, the open-element stack and the error flag.  We factor each handler
into that core evolution plus an output delta. -/

structure Core where
  slab : Slab
  stk : List OpenE
  err : Bool
  deriving Repr, DecidableEq

def coreOf (s : RS) : Core := ⟨s.slab, s.stk, s.err⟩

/-- Core evolution of the element handler: mirrors `onStartTag` on the
slab, stack and error flag. -/
def onStartTagC (bb : BubbleBath) (k : Core) (t : Tag) : Core :=
  if bb.removeContentTags.contains t.name then
    { k with stk := if t.selfClosing then k.stk
                    else ⟨t.name, .removeAll⟩ :: k.stk }
  else if ¬ bb.allowedTags.contains t.name then
    if bb.preserveEscaped then
      { k with stk := if ¬ t.selfClosing ∧ ¬ voidTags.contains t.name then
                        ⟨t.name, .escape⟩ :: k.stk
                      else k.stk }
    else
      { k with stk := if ¬ t.selfClosing ∧ ¬ voidTags.contains t.name then
                        ⟨t.name, .keepContent⟩ :: k.stk
                      else k.stk }
  else
    let t1 := cleanAttributes bb t
    let r :=
      match lookupMap bb.setTagAttributes t.name with
      | some sets => applySets t1 sets
      | none => (t1, false)
    let bad := r.2
    if t.selfClosing then { k with err := k.err || bad }
    else
      let ins := k.slab.insert t.name
      { k with
        err := k.err || bad
        slab := ins.1
        stk := if ¬ voidTags.contains t.name then
                 ⟨t.name, .balance ins.2⟩ :: k.stk
               else k.stk }

/-- Output pieces the element handler appends. -/
def startDelta (bb : BubbleBath) (k : Core) (t : Tag) : List Piece :=
  if bb.removeContentTags.contains t.name then []
  else if ¬ bb.allowedTags.contains t.name then
    if bb.preserveEscaped then
      if suppressed k.stk then [] else [Piece.txt (lolEscape (formatTag t))]
    else []
  else
    let t1 := cleanAttributes bb t
    let r :=
      match lookupMap bb.setTagAttributes t.name with
      | some sets => applySets t1 sets
      | none => (t1, false)
    let t2 := r.1
    let t3 :=
      match lookupList bb.cleanUrlAttributes t.name with
      | some names => names.foldl (fun acc n => cleanLink bb acc n) t2
      | none => t2
    if suppressed k.stk then [] else [Piece.tagO t3]

/-- Core evolution of the end-tag dispatch. -/
def onEndTagC (k : Core) (nm : String) : Core :=
  match findPopMatch k.stk nm with
  | none => k
  | some (e, stkRest) =>
    match e.act with
    | .balance kk => { k with stk := stkRest, slab := k.slab.removeKey kk }
    | .keepContent => { k with stk := stkRest }
    | .escape => { k with stk := stkRest }
    | .removeAll => { k with stk := stkRest }

/-- Output pieces the end-tag dispatch appends. -/
def endDelta (k : Core) (nm : String) : List Piece :=
  match findPopMatch k.stk nm with
  | none => if suppressed k.stk then [] else [Piece.tagC nm]
  | some (e, stkRest) =>
    match e.act with
    | .balance _ => if suppressed stkRest then [] else [Piece.tagC nm]
    | .keepContent => []
    | .escape =>
      if suppressed stkRest then []
      else [Piece.txt (lolEscape ('<' :: '/' :: nm.data ++ ['>']))]
    | .removeAll => []

def evCore (bb : BubbleBath) (k : Core) : Event → Core
  | .startTag t => onStartTagC bb k t
  | .endTag nm => onEndTagC k nm
  | .text _ => k
  | .comment _ => k

def evDelta (bb : BubbleBath) (k : Core) : Event → List Piece
  | .startTag t => startDelta bb k t
  | .endTag nm => endDelta k nm
  | .text cs => if suppressed k.stk then [] else [Piece.txt (cleanText cs)]
  | .comment _ => []

def evsCore (bb : BubbleBath) (k : Core) (evs : List Event) : Core :=
  evs.foldl (evCore bb) k

def evsDelta (bb : BubbleBath) (k : Core) : List Event → List Piece
  | [] => []
  | ev :: rest => evDelta bb k ev ++ evsDelta bb (evCore bb k ev) rest

/-- Character data still buffered inside the tokenizer state. -/
def pendingOf : Tok → List Char
  | .data acc => acc
  | .rawData _ acc => acc
  | .rawLt _ acc => acc
  | .rawEndOpen _ acc => acc
  | .rawEndName _ acc _ => acc
  | _ => []

/-- The tokenizer state with its buffered character data cleared. -/
def normTok : Tok → Tok
  | .data _ => .data []
  | .rawData el _ => .rawData el []
  | .rawLt el _ => .rawLt el []
  | .rawEndOpen el _ => .rawEndOpen el []
  | .rawEndName el _ nm => .rawEndName el [] nm
  | t => t

/-- What a chunking cannot change: the normalized tokenizer state, the
bytes rendered so far (counting buffered text as already rendered,
dropped if currently suppressed), and the handler core. -/
structure Obs where
  tk : Tok
  bytes : List Char
  core : Core

def obsBytes (s : RS) : List Char :=
  renderOut s.out ++
    (if suppressed s.stk then [] else cleanText (pendingOf s.tok))

def obsOf (s : RS) : Obs := ⟨normTok s.tok, obsBytes s, coreOf s⟩

/-- The observation-level step: the normalized tokenizer consumes the
character and the handlers run on the core. -/
def obsStep (bb : BubbleBath) (o : Obs) (c : Char) : Obs :=
  let r := tokStep o.tk c
  let k2 := evsCore bb o.core r.2
  ⟨normTok r.1,
   o.bytes ++ renderOut (evsDelta bb o.core r.2) ++
     (if suppressed k2.stk then [] else cleanText (pendingOf r.1)),
   k2⟩

/-- Bytes `rewriter.end()` appends beyond the observation bytes. -/
def docExtra (bb : BubbleBath) (o : Obs) : List Char :=
  renderOut (evsDelta bb o.core (tokFlush o.tk)) ++
    renderOut (o.core.slab.entries.map fun e => Piece.closer e.2)

theorem renderOut_append (a b : List Piece) :
    renderOut (a ++ b) = renderOut a ++ renderOut b := by
  simp [renderOut]

theorem onStartTag_core (bb : BubbleBath) (s : RS) (t : Tag) :
    coreOf (onStartTag bb s t) = onStartTagC bb (coreOf s) t := by
  by_cases hrc : bb.removeContentTags.contains t.name = true
  · have hA : onStartTag bb s t =
        { s with stk := if t.selfClosing then s.stk
                        else ⟨t.name, .removeAll⟩ :: s.stk } := by
      unfold onStartTag
      rw [if_pos hrc]
    have hB : onStartTagC bb (coreOf s) t =
        ⟨s.slab,
         if t.selfClosing then s.stk else ⟨t.name, .removeAll⟩ :: s.stk,
         s.err⟩ := by
      unfold onStartTagC
      rw [if_pos hrc]
      rfl
    rw [hA, hB]
    rfl
  · by_cases hal : bb.allowedTags.contains t.name = true
    · rw [onStartTag_factor bb s t hrc hal]
      have hB : onStartTagC bb (coreOf s) t =
          (if t.selfClosing then
             (⟨s.slab, s.stk, s.err || (sourceOrderSteps bb t).2⟩ : Core)
           else
             ⟨(s.slab.insert t.name).1,
              (if ¬ voidTags.contains t.name then
                 ⟨t.name, .balance (s.slab.insert t.name).2⟩ :: s.stk
               else s.stk),
              s.err || (sourceOrderSteps bb t).2⟩) := by
        unfold onStartTagC
        rw [if_neg hrc, if_neg (not_not_intro hal)]
        rfl
      rw [hB]
      unfold balanceStep
      by_cases hsc : t.selfClosing = true
      · rw [if_pos hsc, if_pos hsc]
        rfl
      · rw [if_neg hsc, if_neg hsc]
        rfl
    · by_cases hpe : bb.preserveEscaped = true
      · have hA : onStartTag bb s t =
            { s with
              out := if suppressed s.stk then s.out
                     else s.out ++ [Piece.txt (lolEscape (formatTag t))]
              stk := if ¬ t.selfClosing ∧ ¬ voidTags.contains t.name then
                       ⟨t.name, .escape⟩ :: s.stk
                     else s.stk } := by
          unfold onStartTag
          rw [if_neg hrc, if_pos hal, if_pos hpe]
        have hB : onStartTagC bb (coreOf s) t =
            ⟨s.slab,
             (if ¬ t.selfClosing ∧ ¬ voidTags.contains t.name then
                ⟨t.name, .escape⟩ :: s.stk
              else s.stk),
             s.err⟩ := by
          unfold onStartTagC
          rw [if_neg hrc, if_pos hal, if_pos hpe]
          rfl
        rw [hA, hB]
        rfl
      · have hA : onStartTag bb s t =
            { s with
              stk := if ¬ t.selfClosing ∧ ¬ voidTags.contains t.name then
                       ⟨t.name, .keepContent⟩ :: s.stk
                     else s.stk } := by
          unfold onStartTag
          rw [if_neg hrc, if_pos hal, if_neg hpe]
        have hB : onStartTagC bb (coreOf s) t =
            ⟨s.slab,
             (if ¬ t.selfClosing ∧ ¬ voidTags.contains t.name then
                ⟨t.name, .keepContent⟩ :: s.stk
              else s.stk),
             s.err⟩ := by
          unfold onStartTagC
          rw [if_neg hrc, if_pos hal, if_neg hpe]
          rfl
        rw [hA, hB]
        rfl

theorem onStartTag_out (bb : BubbleBath) (s : RS) (t : Tag) :
    (onStartTag bb s t).out = s.out ++ startDelta bb (coreOf s) t := by
  by_cases hrc : bb.removeContentTags.contains t.name = true
  · have hA : onStartTag bb s t =
        { s with stk := if t.selfClosing then s.stk
                        else ⟨t.name, .removeAll⟩ :: s.stk } := by
      unfold onStartTag
      rw [if_pos hrc]
    have hB : startDelta bb (coreOf s) t = [] := by
      unfold startDelta
      rw [if_pos hrc]
    rw [hA, hB, List.append_nil]
  · by_cases hal : bb.allowedTags.contains t.name = true
    · rw [onStartTag_factor bb s t hrc hal]
      have hB : startDelta bb (coreOf s) t =
          (if suppressed s.stk then []
           else [Piece.tagO (sourceOrderSteps bb t).1]) := by
        unfold startDelta
        rw [if_neg hrc, if_neg (not_not_intro hal)]
        rfl
      rw [hB]
      unfold balanceStep
      by_cases hsc : t.selfClosing = true
      · rw [if_pos hsc]
        show (if suppressed s.stk then s.out
              else s.out ++ [Piece.tagO (sourceOrderSteps bb t).1]) =
          s.out ++ (if suppressed s.stk then []
                    else [Piece.tagO (sourceOrderSteps bb t).1])
        by_cases hsup : suppressed s.stk = true
        · rw [if_pos hsup, if_pos hsup, List.append_nil]
        · rw [if_neg hsup, if_neg hsup]
      · rw [if_neg hsc]
        show (if suppressed s.stk then s.out
              else s.out ++ [Piece.tagO (sourceOrderSteps bb t).1]) =
          s.out ++ (if suppressed s.stk then []
                    else [Piece.tagO (sourceOrderSteps bb t).1])
        by_cases hsup : suppressed s.stk = true
        · rw [if_pos hsup, if_pos hsup, List.append_nil]
        · rw [if_neg hsup, if_neg hsup]
    · by_cases hpe : bb.preserveEscaped = true
      · have hA : onStartTag bb s t =
            { s with
              out := if suppressed s.stk then s.out
                     else s.out ++ [Piece.txt (lolEscape (formatTag t))]
              stk := if ¬ t.selfClosing ∧ ¬ voidTags.contains t.name then
                       ⟨t.name, .escape⟩ :: s.stk
                     else s.stk } := by
          unfold onStartTag
          rw [if_neg hrc, if_pos hal, if_pos hpe]
        have hB : startDelta bb (coreOf s) t =
            (if suppressed s.stk then []
             else [Piece.txt (lolEscape (formatTag t))]) := by
          unfold startDelta
          rw [if_neg hrc, if_pos hal, if_pos hpe]
          rfl
        rw [hA, hB]
        show (if suppressed s.stk then s.out
              else s.out ++ [Piece.txt (lolEscape (formatTag t))]) =
          s.out ++ (if suppressed s.stk then []
                    else [Piece.txt (lolEscape (formatTag t))])
        by_cases hsup : suppressed s.stk = true
        · rw [if_pos hsup, if_pos hsup, List.append_nil]
        · rw [if_neg hsup, if_neg hsup]
      · have hA : onStartTag bb s t =
            { s with
              stk := if ¬ t.selfClosing ∧ ¬ voidTags.contains t.name then
                       ⟨t.name, .keepContent⟩ :: s.stk
                     else s.stk } := by
          unfold onStartTag
          rw [if_neg hrc, if_pos hal, if_neg hpe]
        have hB : startDelta bb (coreOf s) t = [] := by
          unfold startDelta
          rw [if_neg hrc, if_pos hal, if_neg hpe]
        rw [hA, hB, List.append_nil]

theorem onEndTag_core (s : RS) (nm : String) :
    coreOf (onEndTag s nm) = onEndTagC (coreOf s) nm := by
  rcases hm : findPopMatch s.stk nm with _ | ⟨e, stkRest⟩
  · have hm2 : findPopMatch (coreOf s).stk nm = none := hm
    have hA : onEndTag s nm =
        { s with out := if suppressed s.stk then s.out
                        else s.out ++ [Piece.tagC nm] } := by
      unfold onEndTag
      rw [hm]
    have hB : onEndTagC (coreOf s) nm = coreOf s := by
      unfold onEndTagC
      rw [hm2]
    rw [hA, hB]
    rfl
  · have hm2 : findPopMatch (coreOf s).stk nm = some (e, stkRest) := hm
    obtain ⟨enm, eact⟩ := e
    cases eact with
    | balance kk =>
      have hA : onEndTag s nm =
          { s with stk := stkRest, slab := s.slab.removeKey kk,
                   regLog := s.regLog ++ [RegEv.rem kk],
                   out := if suppressed stkRest then s.out
                          else s.out ++ [Piece.tagC nm] } := by
        unfold onEndTag
        rw [hm]
      have hB : onEndTagC (coreOf s) nm =
          ⟨s.slab.removeKey kk, stkRest, s.err⟩ := by
        unfold onEndTagC
        rw [hm2]
        rfl
      rw [hA, hB]
      rfl
    | keepContent =>
      have hA : onEndTag s nm = { s with stk := stkRest } := by
        unfold onEndTag
        rw [hm]
      have hB : onEndTagC (coreOf s) nm = ⟨s.slab, stkRest, s.err⟩ := by
        unfold onEndTagC
        rw [hm2]
        rfl
      rw [hA, hB]
      rfl
    | escape =>
      have hA : onEndTag s nm =
          { s with stk := stkRest,
                   out := if suppressed stkRest then s.out
                          else s.out ++
                            [Piece.txt (lolEscape
                              ('<' :: '/' :: nm.data ++ ['>']))] } := by
        unfold onEndTag
        rw [hm]
      have hB : onEndTagC (coreOf s) nm = ⟨s.slab, stkRest, s.err⟩ := by
        unfold onEndTagC
        rw [hm2]
        rfl
      rw [hA, hB]
      rfl
    | removeAll =>
      have hA : onEndTag s nm = { s with stk := stkRest } := by
        unfold onEndTag
        rw [hm]
      have hB : onEndTagC (coreOf s) nm = ⟨s.slab, stkRest, s.err⟩ := by
        unfold onEndTagC
        rw [hm2]
        rfl
      rw [hA, hB]
      rfl

theorem onEndTag_out (s : RS) (nm : String) :
    (onEndTag s nm).out = s.out ++ endDelta (coreOf s) nm := by
  rcases hm : findPopMatch s.stk nm with _ | ⟨e, stkRest⟩
  · have hm2 : findPopMatch (coreOf s).stk nm = none := hm
    have hA : onEndTag s nm =
        { s with out := if suppressed s.stk then s.out
                        else s.out ++ [Piece.tagC nm] } := by
      unfold onEndTag
      rw [hm]
    have hB : endDelta (coreOf s) nm =
        (if suppressed s.stk then [] else [Piece.tagC nm]) := by
      unfold endDelta
      rw [hm2]
      rfl
    rw [hA, hB]
    show (if suppressed s.stk then s.out else s.out ++ [Piece.tagC nm]) =
      s.out ++ (if suppressed s.stk then [] else [Piece.tagC nm])
    by_cases hsup : suppressed s.stk = true
    · rw [if_pos hsup, if_pos hsup, List.append_nil]
    · rw [if_neg hsup, if_neg hsup]
  · have hm2 : findPopMatch (coreOf s).stk nm = some (e, stkRest) := hm
    obtain ⟨enm, eact⟩ := e
    cases eact with
    | balance kk =>
      have hA : onEndTag s nm =
          { s with stk := stkRest, slab := s.slab.removeKey kk,
                   regLog := s.regLog ++ [RegEv.rem kk],
                   out := if suppressed stkRest then s.out
                          else s.out ++ [Piece.tagC nm] } := by
        unfold onEndTag
        rw [hm]
      have hB : endDelta (coreOf s) nm =
          (if suppressed stkRest then [] else [Piece.tagC nm]) := by
        unfold endDelta
        rw [hm2]
      rw [hA, hB]
      show (if suppressed stkRest then s.out else s.out ++ [Piece.tagC nm]) =
        s.out ++ (if suppressed stkRest then [] else [Piece.tagC nm])
      by_cases hsup : suppressed stkRest = true
      · rw [if_pos hsup, if_pos hsup, List.append_nil]
      · rw [if_neg hsup, if_neg hsup]
    | keepContent =>
      have hA : onEndTag s nm = { s with stk := stkRest } := by
        unfold onEndTag
        rw [hm]
      have hB : endDelta (coreOf s) nm = [] := by
        unfold endDelta
        rw [hm2]
      rw [hA, hB, List.append_nil]
    | escape =>
      have hA : onEndTag s nm =
          { s with stk := stkRest,
                   out := if suppressed stkRest then s.out
                          else s.out ++
                            [Piece.txt (lolEscape
                              ('<' :: '/' :: nm.data ++ ['>']))] } := by
        unfold onEndTag
        rw [hm]
      have hB : endDelta (coreOf s) nm =
          (if suppressed stkRest then []
           else [Piece.txt (lolEscape ('<' :: '/' :: nm.data ++ ['>']))]) := by
        unfold endDelta
        rw [hm2]
      rw [hA, hB]
      show (if suppressed stkRest then s.out
            else s.out ++
              [Piece.txt (lolEscape ('<' :: '/' :: nm.data ++ ['>']))]) =
        s.out ++ (if suppressed stkRest then []
                  else [Piece.txt (lolEscape ('<' :: '/' :: nm.data ++ ['>']))])
      by_cases hsup : suppressed stkRest = true
      · rw [if_pos hsup, if_pos hsup, List.append_nil]
      · rw [if_neg hsup, if_neg hsup]
    | removeAll =>
      have hA : onEndTag s nm = { s with stk := stkRest } := by
        unfold onEndTag
        rw [hm]
      have hB : endDelta (coreOf s) nm = [] := by
        unfold endDelta
        rw [hm2]
      rw [hA, hB, List.append_nil]

theorem applyEvent_core (bb : BubbleBath) (s : RS) (ev : Event) :
    coreOf (applyEvent bb s ev) = evCore bb (coreOf s) ev := by
  cases ev with
  | startTag t => exact onStartTag_core bb s t
  | endTag nm => exact onEndTag_core s nm
  | text cs => rfl
  | comment cs => rfl

theorem applyEvent_out (bb : BubbleBath) (s : RS) (ev : Event) :
    (applyEvent bb s ev).out = s.out ++ evDelta bb (coreOf s) ev := by
  cases ev with
  | startTag t => exact onStartTag_out bb s t
  | endTag nm => exact onEndTag_out s nm
  | text cs =>
    show (if suppressed s.stk then s.out
          else s.out ++ [Piece.txt (cleanText cs)]) =
      s.out ++ (if suppressed (coreOf s).stk then []
                else [Piece.txt (cleanText cs)])
    by_cases hsup : suppressed s.stk = true
    · have hsup2 : suppressed (coreOf s).stk = true := hsup
      rw [if_pos hsup, if_pos hsup2, List.append_nil]
    · have hsup2 : ¬ suppressed (coreOf s).stk = true := hsup
      rw [if_neg hsup, if_neg hsup2]
  | comment cs => exact (List.append_nil _).symm

theorem applyEvents_spec (bb : BubbleBath) (evs : List Event) : ∀ s : RS,
    coreOf (applyEvents bb s evs) = evsCore bb (coreOf s) evs ∧
    (applyEvents bb s evs).out = s.out ++ evsDelta bb (coreOf s) evs := by
  induction evs with
  | nil => intro s; exact ⟨rfl, (List.append_nil _).symm⟩
  | cons e rest ih =>
    intro s
    have h1 := applyEvent_core bb s e
    have h2 := applyEvent_out bb s e
    have hr := ih (applyEvent bb s e)
    constructor
    · show coreOf (applyEvents bb (applyEvent bb s e) rest) =
        evsCore bb (evCore bb (coreOf s) e) rest
      rw [hr.1, h1]
    · show (applyEvents bb (applyEvent bb s e) rest).out =
        s.out ++ (evDelta bb (coreOf s) e ++
          evsDelta bb (evCore bb (coreOf s) e) rest)
      rw [hr.2, h2, h1, List.append_assoc]

/-- One tokenizer step commutes with clearing the buffered text: the
buffered text either stays in front of the new buffer (no events), or is
flushed as the text event prefix of the step's events. -/
theorem tokStep_norm (tok : Tok) (c : Char) :
    normTok (tokStep tok c).1 = normTok (tokStep (normTok tok) c).1 ∧
    (((tokStep tok c).2 = [] ∧ (tokStep (normTok tok) c).2 = [] ∧
      pendingOf (tokStep tok c).1 =
        pendingOf tok ++ pendingOf (tokStep (normTok tok) c).1) ∨
     ((tokStep tok c).2 =
        textEvent (pendingOf tok) ++ (tokStep (normTok tok) c).2 ∧
      pendingOf (tokStep tok c).1 = pendingOf (tokStep (normTok tok) c).1)) := by
  cases tok with
  | data acc =>
    simp only [normTok, pendingOf]
    by_cases h : c = '<'
    · have e1 : tokStep (Tok.data acc) c = (.tagOpen, textEvent acc) := by
        simp only [tokStep]
        rw [if_pos h]
      have e2 : tokStep (Tok.data []) c = (.tagOpen, []) := by
        simp only [tokStep]
        rw [if_pos h]
        rfl
      rw [e1, e2]
      exact ⟨rfl, Or.inr ⟨by rw [List.append_nil], rfl⟩⟩
    · have e1 : tokStep (Tok.data acc) c = (.data (acc ++ [c]), []) := by
        simp only [tokStep]
        rw [if_neg h]
      have e2 : tokStep (Tok.data []) c = (.data ([] ++ [c]), []) := by
        simp only [tokStep]
        rw [if_neg h]
      rw [e1, e2]
      exact ⟨rfl, Or.inl ⟨rfl, rfl, rfl⟩⟩
  | rawData el acc =>
    simp only [normTok, pendingOf]
    by_cases h : c = '<'
    · have e1 : tokStep (Tok.rawData el acc) c = (.rawLt el acc, []) := by
        simp only [tokStep]
        rw [if_pos h]
      have e2 : tokStep (Tok.rawData el []) c = (.rawLt el [], []) := by
        simp only [tokStep]
        rw [if_pos h]
      rw [e1, e2]
      exact ⟨rfl, Or.inl ⟨rfl, rfl, by rw [List.append_nil]⟩⟩
    · have e1 : tokStep (Tok.rawData el acc) c =
          (.rawData el (acc ++ [c]), []) := by
        simp only [tokStep]
        rw [if_neg h]
      have e2 : tokStep (Tok.rawData el []) c =
          (.rawData el ([] ++ [c]), []) := by
        simp only [tokStep]
        rw [if_neg h]
      rw [e1, e2]
      exact ⟨rfl, Or.inl ⟨rfl, rfl, rfl⟩⟩
  | rawLt el acc =>
    simp only [normTok, pendingOf]
    by_cases h1 : c = '/'
    · have e1 : tokStep (Tok.rawLt el acc) c = (.rawEndOpen el acc, []) := by
        simp only [tokStep]
        rw [if_pos h1]
      have e2 : tokStep (Tok.rawLt el []) c = (.rawEndOpen el [], []) := by
        simp only [tokStep]
        rw [if_pos h1]
      rw [e1, e2]
      exact ⟨rfl, Or.inl ⟨rfl, rfl, by rw [List.append_nil]⟩⟩
    · by_cases h2 : c = '<'
      · have e1 : tokStep (Tok.rawLt el acc) c =
            (.rawLt el (acc ++ ['<']), []) := by
          simp only [tokStep]
          rw [if_neg h1, if_pos h2]
        have e2 : tokStep (Tok.rawLt el []) c =
            (.rawLt el ([] ++ ['<']), []) := by
          simp only [tokStep]
          rw [if_neg h1, if_pos h2]
        rw [e1, e2]
        exact ⟨rfl, Or.inl ⟨rfl, rfl, rfl⟩⟩
      · have e1 : tokStep (Tok.rawLt el acc) c =
            (.rawData el (acc ++ '<' :: [c]), []) := by
          simp only [tokStep]
          rw [if_neg h1, if_neg h2]
        have e2 : tokStep (Tok.rawLt el []) c =
            (.rawData el ([] ++ '<' :: [c]), []) := by
          simp only [tokStep]
          rw [if_neg h1, if_neg h2]
        rw [e1, e2]
        exact ⟨rfl, Or.inl ⟨rfl, rfl, rfl⟩⟩
  | rawEndOpen el acc =>
    simp only [normTok, pendingOf]
    by_cases h1 : c.isAlpha = true
    · have e1 : tokStep (Tok.rawEndOpen el acc) c =
          (.rawEndName el acc [c.toLower], []) := by
        simp only [tokStep]
        rw [if_pos h1]
      have e2 : tokStep (Tok.rawEndOpen el []) c =
          (.rawEndName el [] [c.toLower], []) := by
        simp only [tokStep]
        rw [if_pos h1]
      rw [e1, e2]
      exact ⟨rfl, Or.inl ⟨rfl, rfl, by rw [List.append_nil]⟩⟩
    · by_cases h2 : c = '<'
      · have e1 : tokStep (Tok.rawEndOpen el acc) c =
            (.rawLt el (acc ++ ['<', '/']), []) := by
          simp only [tokStep]
          rw [if_neg h1, if_pos h2]
        have e2 : tokStep (Tok.rawEndOpen el []) c =
            (.rawLt el ([] ++ ['<', '/']), []) := by
          simp only [tokStep]
          rw [if_neg h1, if_pos h2]
        rw [e1, e2]
        exact ⟨rfl, Or.inl ⟨rfl, rfl, rfl⟩⟩
      · have e1 : tokStep (Tok.rawEndOpen el acc) c =
            (.rawData el (acc ++ '<' :: '/' :: [c]), []) := by
          simp only [tokStep]
          rw [if_neg h1, if_neg h2]
        have e2 : tokStep (Tok.rawEndOpen el []) c =
            (.rawData el ([] ++ '<' :: '/' :: [c]), []) := by
          simp only [tokStep]
          rw [if_neg h1, if_neg h2]
        rw [e1, e2]
        exact ⟨rfl, Or.inl ⟨rfl, rfl, rfl⟩⟩
  | rawEndName el acc nm =>
    simp only [normTok, pendingOf]
    by_cases h1 : c.isAlpha = true
    · have e1 : tokStep (Tok.rawEndName el acc nm) c =
          (.rawEndName el acc (nm ++ [c.toLower]), []) := by
        simp only [tokStep]
        rw [if_pos h1]
      have e2 : tokStep (Tok.rawEndName el [] nm) c =
          (.rawEndName el [] (nm ++ [c.toLower]), []) := by
        simp only [tokStep]
        rw [if_pos h1]
      rw [e1, e2]
      exact ⟨rfl, Or.inl ⟨rfl, rfl, by rw [List.append_nil]⟩⟩
    · by_cases h2 : (String.mk nm == el && c == '>') = true
      · have e1 : tokStep (Tok.rawEndName el acc nm) c =
            (.data [], textEvent acc ++ [Event.endTag el]) := by
          simp only [tokStep]
          rw [if_neg h1, if_pos h2]
        have e2 : tokStep (Tok.rawEndName el [] nm) c =
            (.data [], textEvent [] ++ [Event.endTag el]) := by
          simp only [tokStep]
          rw [if_neg h1, if_pos h2]
        rw [e1, e2]
        exact ⟨rfl, Or.inr ⟨rfl, rfl⟩⟩
      · by_cases h3 : (String.mk nm == el && isWs c) = true
        · have e1 : tokStep (Tok.rawEndName el acc nm) c =
              (.endTagRest nm, textEvent acc) := by
            simp only [tokStep]
            rw [if_neg h1, if_neg h2, if_pos h3]
          have e2 : tokStep (Tok.rawEndName el [] nm) c =
              (.endTagRest nm, textEvent []) := by
            simp only [tokStep]
            rw [if_neg h1, if_neg h2, if_pos h3]
          rw [e1, e2]
          refine ⟨rfl, Or.inr ⟨?_, rfl⟩⟩
          show textEvent acc = textEvent acc ++ ([] : List Event)
          rw [List.append_nil]
        · by_cases h4 : c = '<'
          · have e1 : tokStep (Tok.rawEndName el acc nm) c =
                (.rawLt el (acc ++ '<' :: '/' :: nm), []) := by
              simp only [tokStep]
              rw [if_neg h1, if_neg h2, if_neg h3, if_pos h4]
            have e2 : tokStep (Tok.rawEndName el [] nm) c =
                (.rawLt el ([] ++ '<' :: '/' :: nm), []) := by
              simp only [tokStep]
              rw [if_neg h1, if_neg h2, if_neg h3, if_pos h4]
            rw [e1, e2]
            exact ⟨rfl, Or.inl ⟨rfl, rfl, rfl⟩⟩
          · have e1 : tokStep (Tok.rawEndName el acc nm) c =
                (.rawData el (acc ++ '<' :: '/' :: nm ++ [c]), []) := by
              simp only [tokStep]
              rw [if_neg h1, if_neg h2, if_neg h3, if_neg h4]
            have e2 : tokStep (Tok.rawEndName el [] nm) c =
                (.rawData el ([] ++ '<' :: '/' :: nm ++ [c]), []) := by
              simp only [tokStep]
              rw [if_neg h1, if_neg h2, if_neg h3, if_neg h4]
            rw [e1, e2]
            refine ⟨rfl, Or.inl ⟨rfl, rfl, ?_⟩⟩
            simp only [pendingOf, List.nil_append, List.cons_append,
              List.append_assoc]
  | tagOpen => exact ⟨rfl, Or.inr ⟨rfl, rfl⟩⟩
  | endTagOpen => exact ⟨rfl, Or.inr ⟨rfl, rfl⟩⟩
  | tagName t => exact ⟨rfl, Or.inr ⟨rfl, rfl⟩⟩
  | beforeAttrName t => exact ⟨rfl, Or.inr ⟨rfl, rfl⟩⟩
  | attrName t an => exact ⟨rfl, Or.inr ⟨rfl, rfl⟩⟩
  | afterAttrName t an => exact ⟨rfl, Or.inr ⟨rfl, rfl⟩⟩
  | beforeAttrVal t an => exact ⟨rfl, Or.inr ⟨rfl, rfl⟩⟩
  | attrValDq t an av => exact ⟨rfl, Or.inr ⟨rfl, rfl⟩⟩
  | attrValSq t an av => exact ⟨rfl, Or.inr ⟨rfl, rfl⟩⟩
  | attrValUnq t an av => exact ⟨rfl, Or.inr ⟨rfl, rfl⟩⟩
  | afterAttrValQ t => exact ⟨rfl, Or.inr ⟨rfl, rfl⟩⟩
  | selfClosingStart t => exact ⟨rfl, Or.inr ⟨rfl, rfl⟩⟩
  | endTagName nm => exact ⟨rfl, Or.inr ⟨rfl, rfl⟩⟩
  | endTagRest nm => exact ⟨rfl, Or.inr ⟨rfl, rfl⟩⟩
  | markupDeclOpen => exact ⟨rfl, Or.inr ⟨rfl, rfl⟩⟩
  | markupDeclDash => exact ⟨rfl, Or.inr ⟨rfl, rfl⟩⟩
  | commentBody acc => exact ⟨rfl, Or.inr ⟨rfl, rfl⟩⟩
  | commentDash acc => exact ⟨rfl, Or.inr ⟨rfl, rfl⟩⟩
  | commentDashDash acc => exact ⟨rfl, Or.inr ⟨rfl, rfl⟩⟩
  | bogusComment acc => exact ⟨rfl, Or.inr ⟨rfl, rfl⟩⟩

theorem evsCore_append (bb : BubbleBath) (k : Core) (a b : List Event) :
    evsCore bb k (a ++ b) = evsCore bb (evsCore bb k a) b :=
  List.foldl_append _ _ _ _

theorem evsCore_textEvent (bb : BubbleBath) (k : Core) (p : List Char) :
    evsCore bb k (textEvent p) = k := by
  cases p <;> rfl

theorem evsDelta_append (bb : BubbleBath) (a b : List Event) : ∀ k : Core,
    evsDelta bb k (a ++ b) =
      evsDelta bb k a ++ evsDelta bb (evsCore bb k a) b := by
  induction a with
  | nil => intro k; rfl
  | cons e rest ih =>
    intro k
    show evDelta bb k e ++ evsDelta bb (evCore bb k e) (rest ++ b) =
      (evDelta bb k e ++ evsDelta bb (evCore bb k e) rest) ++
        evsDelta bb (evsCore bb (evCore bb k e) rest) b
    rw [ih (evCore bb k e), List.append_assoc]

theorem renderOut_textEvent (bb : BubbleBath) (k : Core) (p : List Char) :
    renderOut (evsDelta bb k (textEvent p)) =
      (if suppressed k.stk then [] else cleanText p) := by
  cases p with
  | nil =>
    show ([] : List Char) =
      if suppressed k.stk then [] else cleanText []
    rw [cleanText_nil]
    exact (ite_self _).symm
  | cons c cs =>
    show renderOut ((if suppressed k.stk then []
        else [Piece.txt (cleanText (c :: cs))]) ++ []) =
      if suppressed k.stk then [] else cleanText (c :: cs)
    rw [List.append_nil]
    by_cases hsup : suppressed k.stk = true
    · rw [if_pos hsup, if_pos hsup]
      rfl
    · rw [if_neg hsup, if_neg hsup]
      show cleanText (c :: cs) ++ [] = cleanText (c :: cs)
      rw [List.append_nil]

theorem filt_append (b : Bool) (p q : List Char) :
    (if b = true then [] else cleanText (p ++ q)) =
      (if b = true then ([] : List Char) else cleanText p) ++
        (if b = true then [] else cleanText q) := by
  cases b
  · rw [if_neg (by simp), if_neg (by simp), if_neg (by simp), cleanText_append]
  · rfl

/-- One character of input moves the observation by `obsStep`: chunking
(which only resets the buffered text at write boundaries) cannot change
the observation of the run. -/
theorem stepChar_obs (bb : BubbleBath) (s : RS) (c : Char) :
    obsOf (stepChar bb s c) = obsStep bb (obsOf s) c := by
  obtain ⟨hnorm, hcase⟩ := tokStep_norm s.tok c
  have hspec := applyEvents_spec bb (tokStep s.tok c).2
    { s with tok := (tokStep s.tok c).1, fed := s.fed ++ [c] }
  have htokeq : (stepChar bb s c).tok = (tokStep s.tok c).1 := by
    show (applyEvents bb
      { s with tok := (tokStep s.tok c).1, fed := s.fed ++ [c] }
      (tokStep s.tok c).2).tok = (tokStep s.tok c).1
    rw [applyEvents_tok]
  have hcore : coreOf (stepChar bb s c) =
      evsCore bb (coreOf s) (tokStep s.tok c).2 := by
    show coreOf (applyEvents bb
      { s with tok := (tokStep s.tok c).1, fed := s.fed ++ [c] }
      (tokStep s.tok c).2) = _
    rw [hspec.1]
    rfl
  have hout : (stepChar bb s c).out =
      s.out ++ evsDelta bb (coreOf s) (tokStep s.tok c).2 := by
    show (applyEvents bb
      { s with tok := (tokStep s.tok c).1, fed := s.fed ++ [c] }
      (tokStep s.tok c).2).out = _
    rw [hspec.2]
    rfl
  have hcoreN : evsCore bb (coreOf s) (tokStep s.tok c).2 =
      evsCore bb (coreOf s) (tokStep (normTok s.tok) c).2 := by
    rcases hcase with ⟨hr2, hrN2, _⟩ | ⟨hr2, _⟩
    · rw [hr2, hrN2]
    · rw [hr2, evsCore_append, evsCore_textEvent]
  have hstk : (stepChar bb s c).stk =
      (evsCore bb (coreOf s) (tokStep (normTok s.tok) c).2).stk := by
    have h0 : (stepChar bb s c).stk = (coreOf (stepChar bb s c)).stk := rfl
    rw [h0, hcore, hcoreN]
  have hbytes : obsBytes (stepChar bb s c) =
      obsBytes s ++
        renderOut (evsDelta bb (coreOf s) (tokStep (normTok s.tok) c).2) ++
        (if suppressed
            (evsCore bb (coreOf s) (tokStep (normTok s.tok) c).2).stk then []
         else cleanText (pendingOf (tokStep (normTok s.tok) c).1)) := by
    show renderOut (stepChar bb s c).out ++
        (if suppressed (stepChar bb s c).stk then []
         else cleanText (pendingOf (stepChar bb s c).tok)) = _
    rw [hout, htokeq, hstk, renderOut_append]
    rcases hcase with ⟨hr2, hrN2, hpend⟩ | ⟨hr2, hpend⟩
    · rw [hr2, hrN2, hpend]
      show renderOut s.out ++ ([] : List Char) ++
          (if suppressed s.stk then []
           else cleanText (pendingOf s.tok ++
             pendingOf (tokStep (normTok s.tok) c).1)) =
        (renderOut s.out ++
          (if suppressed s.stk then [] else cleanText (pendingOf s.tok))) ++
          ([] : List Char) ++
          (if suppressed s.stk then []
           else cleanText (pendingOf (tokStep (normTok s.tok) c).1))
      rw [filt_append, List.append_nil, List.append_nil, List.append_assoc]
    · rw [hr2, hpend, evsDelta_append, evsCore_textEvent, renderOut_append,
        renderOut_textEvent]
      show renderOut s.out ++
          ((if suppressed s.stk then [] else cleanText (pendingOf s.tok)) ++
            renderOut (evsDelta bb (coreOf s)
              (tokStep (normTok s.tok) c).2)) ++
          (if suppressed
              (evsCore bb (coreOf s) (tokStep (normTok s.tok) c).2).stk then []
           else cleanText (pendingOf (tokStep (normTok s.tok) c).1)) =
        (renderOut s.out ++
          (if suppressed s.stk then [] else cleanText (pendingOf s.tok))) ++
          renderOut (evsDelta bb (coreOf s) (tokStep (normTok s.tok) c).2) ++
          (if suppressed
              (evsCore bb (coreOf s) (tokStep (normTok s.tok) c).2).stk then []
           else cleanText (pendingOf (tokStep (normTok s.tok) c).1))
      simp only [List.append_assoc]
  show Obs.mk (normTok (stepChar bb s c).tok) (obsBytes (stepChar bb s c))
      (coreOf (stepChar bb s c)) =
    Obs.mk (normTok (tokStep (normTok s.tok) c).1)
      (obsBytes s ++
        renderOut (evsDelta bb (coreOf s) (tokStep (normTok s.tok) c).2) ++
        (if suppressed
            (evsCore bb (coreOf s) (tokStep (normTok s.tok) c).2).stk then []
         else cleanText (pendingOf (tokStep (normTok s.tok) c).1)))
      (evsCore bb (coreOf s) (tokStep (normTok s.tok) c).2)
  rw [htokeq, hnorm, hbytes, hcore, hcoreN]

theorem filt_nil (b : Bool) :
    (if b = true then [] else cleanText []) = ([] : List Char) := by
  rw [cleanText_nil]
  exact ite_self _

theorem evsCore_quiet (bb : BubbleBath) (evs : List Event)
    (hq : quietEvs evs) : ∀ k : Core, evsCore bb k evs = k := by
  induction evs with
  | nil => intro k; rfl
  | cons e rest ih =>
    intro k
    have hrest : quietEvs rest := fun ev hev => hq ev (List.mem_cons_of_mem e hev)
    rcases hq e (List.mem_cons_self e rest) with ⟨cs, he⟩ | ⟨cs, he⟩ <;>
      subst he <;> exact ih hrest k

theorem feedChars_obs (bb : BubbleBath) (cs : List Char) : ∀ s : RS,
    obsOf (feedChars bb s cs) = cs.foldl (obsStep bb) (obsOf s) := by
  induction cs with
  | nil => intro s; rfl
  | cons c rest ih =>
    intro s
    show obsOf (feedChars bb (stepChar bb s c) rest) =
      rest.foldl (obsStep bb) (obsStep bb (obsOf s) c)
    rw [ih (stepChar bb s c), stepChar_obs]

theorem obsOf_tok_eq (s : RS) (T : Tok) (h1 : normTok T = normTok s.tok)
    (h2 : pendingOf T = pendingOf s.tok) :
    obsOf { s with tok := T } = obsOf s := by
  show Obs.mk (normTok T)
      (renderOut s.out ++
        (if suppressed s.stk then [] else cleanText (pendingOf T)))
      (coreOf s) =
    Obs.mk (normTok s.tok)
      (renderOut s.out ++
        (if suppressed s.stk then [] else cleanText (pendingOf s.tok)))
      (coreOf s)
  rw [h1, h2]

theorem chunkFlush_obs (bb : BubbleBath) (s : RS) :
    obsOf (applyEvents bb { s with tok := (tokChunkFlush s.tok).1 }
      (tokChunkFlush s.tok).2) = obsOf s := by
  cases htok : s.tok with
  | data acc =>
    have hspec := applyEvents_spec bb (textEvent acc)
      { s with tok := Tok.data [] }
    have hrhs : obsOf s = Obs.mk (Tok.data [])
        (renderOut s.out ++
          (if suppressed s.stk then [] else cleanText acc))
        (coreOf s) := by
      show Obs.mk (normTok s.tok)
          (renderOut s.out ++
            (if suppressed s.stk then [] else cleanText (pendingOf s.tok)))
          (coreOf s) = _
      rw [htok]
      rfl
    rw [hrhs]
    show Obs.mk
        (normTok (applyEvents bb { s with tok := Tok.data [] }
          (textEvent acc)).tok)
        (obsBytes (applyEvents bb { s with tok := Tok.data [] }
          (textEvent acc)))
        (coreOf (applyEvents bb { s with tok := Tok.data [] }
          (textEvent acc))) = _
    have h1 : normTok (applyEvents bb { s with tok := Tok.data [] }
        (textEvent acc)).tok = Tok.data [] := by
      rw [applyEvents_tok]
      rfl
    have h2 : coreOf (applyEvents bb { s with tok := Tok.data [] }
        (textEvent acc)) = coreOf s := by
      rw [hspec.1, evsCore_textEvent]
      rfl
    have h3 : obsBytes (applyEvents bb { s with tok := Tok.data [] }
        (textEvent acc)) =
        renderOut s.out ++
          (if suppressed s.stk then [] else cleanText acc) := by
      show renderOut (applyEvents bb { s with tok := Tok.data [] }
          (textEvent acc)).out ++
        (if suppressed (applyEvents bb { s with tok := Tok.data [] }
            (textEvent acc)).stk then []
         else cleanText (pendingOf (applyEvents bb
           { s with tok := Tok.data [] } (textEvent acc)).tok)) = _
      have hstk : (applyEvents bb { s with tok := Tok.data [] }
          (textEvent acc)).stk = s.stk := by
        have h0 : (applyEvents bb { s with tok := Tok.data [] }
            (textEvent acc)).stk =
          (coreOf (applyEvents bb { s with tok := Tok.data [] }
            (textEvent acc))).stk := rfl
        rw [h0, h2]
        rfl
      rw [hspec.2, hstk, applyEvents_tok, renderOut_append]
      show renderOut s.out ++
          renderOut (evsDelta bb (coreOf s) (textEvent acc)) ++
          (if suppressed s.stk then [] else cleanText []) = _
      rw [renderOut_textEvent, filt_nil, List.append_nil]
      show renderOut s.out ++
        (if suppressed s.stk then [] else cleanText acc) = _
      rfl
    rw [h1, h2, h3]
  | rawData el acc =>
    have hspec := applyEvents_spec bb (textEvent acc)
      { s with tok := Tok.rawData el [] }
    have hrhs : obsOf s = Obs.mk (Tok.rawData el [])
        (renderOut s.out ++
          (if suppressed s.stk then [] else cleanText acc))
        (coreOf s) := by
      show Obs.mk (normTok s.tok)
          (renderOut s.out ++
            (if suppressed s.stk then [] else cleanText (pendingOf s.tok)))
          (coreOf s) = _
      rw [htok]
      rfl
    rw [hrhs]
    show Obs.mk
        (normTok (applyEvents bb { s with tok := Tok.rawData el [] }
          (textEvent acc)).tok)
        (obsBytes (applyEvents bb { s with tok := Tok.rawData el [] }
          (textEvent acc)))
        (coreOf (applyEvents bb { s with tok := Tok.rawData el [] }
          (textEvent acc))) = _
    have h1 : normTok (applyEvents bb { s with tok := Tok.rawData el [] }
        (textEvent acc)).tok = Tok.rawData el [] := by
      rw [applyEvents_tok]
      rfl
    have h2 : coreOf (applyEvents bb { s with tok := Tok.rawData el [] }
        (textEvent acc)) = coreOf s := by
      rw [hspec.1, evsCore_textEvent]
      rfl
    have h3 : obsBytes (applyEvents bb { s with tok := Tok.rawData el [] }
        (textEvent acc)) =
        renderOut s.out ++
          (if suppressed s.stk then [] else cleanText acc) := by
      show renderOut (applyEvents bb { s with tok := Tok.rawData el [] }
          (textEvent acc)).out ++
        (if suppressed (applyEvents bb { s with tok := Tok.rawData el [] }
            (textEvent acc)).stk then []
         else cleanText (pendingOf (applyEvents bb
           { s with tok := Tok.rawData el [] } (textEvent acc)).tok)) = _
      have hstk : (applyEvents bb { s with tok := Tok.rawData el [] }
          (textEvent acc)).stk = s.stk := by
        have h0 : (applyEvents bb { s with tok := Tok.rawData el [] }
            (textEvent acc)).stk =
          (coreOf (applyEvents bb { s with tok := Tok.rawData el [] }
            (textEvent acc))).stk := rfl
        rw [h0, h2]
        rfl
      rw [hspec.2, hstk, applyEvents_tok, renderOut_append]
      show renderOut s.out ++
          renderOut (evsDelta bb (coreOf s) (textEvent acc)) ++
          (if suppressed s.stk then [] else cleanText []) = _
      rw [renderOut_textEvent, filt_nil, List.append_nil]
      show renderOut s.out ++
        (if suppressed s.stk then [] else cleanText acc) = _
      rfl
    rw [h1, h2, h3]
  | tagOpen => exact obsOf_tok_eq s _ (by rw [htok]; rfl) (by rw [htok]; rfl)
  | endTagOpen => exact obsOf_tok_eq s _ (by rw [htok]; rfl) (by rw [htok]; rfl)
  | tagName t => exact obsOf_tok_eq s _ (by rw [htok]; rfl) (by rw [htok]; rfl)
  | beforeAttrName t => exact obsOf_tok_eq s _ (by rw [htok]; rfl) (by rw [htok]; rfl)
  | attrName t an => exact obsOf_tok_eq s _ (by rw [htok]; rfl) (by rw [htok]; rfl)
  | afterAttrName t an => exact obsOf_tok_eq s _ (by rw [htok]; rfl) (by rw [htok]; rfl)
  | beforeAttrVal t an => exact obsOf_tok_eq s _ (by rw [htok]; rfl) (by rw [htok]; rfl)
  | attrValDq t an av => exact obsOf_tok_eq s _ (by rw [htok]; rfl) (by rw [htok]; rfl)
  | attrValSq t an av => exact obsOf_tok_eq s _ (by rw [htok]; rfl) (by rw [htok]; rfl)
  | attrValUnq t an av => exact obsOf_tok_eq s _ (by rw [htok]; rfl) (by rw [htok]; rfl)
  | afterAttrValQ t => exact obsOf_tok_eq s _ (by rw [htok]; rfl) (by rw [htok]; rfl)
  | selfClosingStart t => exact obsOf_tok_eq s _ (by rw [htok]; rfl) (by rw [htok]; rfl)
  | endTagName nm => exact obsOf_tok_eq s _ (by rw [htok]; rfl) (by rw [htok]; rfl)
  | endTagRest nm => exact obsOf_tok_eq s _ (by rw [htok]; rfl) (by rw [htok]; rfl)
  | markupDeclOpen => exact obsOf_tok_eq s _ (by rw [htok]; rfl) (by rw [htok]; rfl)
  | markupDeclDash => exact obsOf_tok_eq s _ (by rw [htok]; rfl) (by rw [htok]; rfl)
  | commentBody acc => exact obsOf_tok_eq s _ (by rw [htok]; rfl) (by rw [htok]; rfl)
  | commentDash acc => exact obsOf_tok_eq s _ (by rw [htok]; rfl) (by rw [htok]; rfl)
  | commentDashDash acc => exact obsOf_tok_eq s _ (by rw [htok]; rfl) (by rw [htok]; rfl)
  | bogusComment acc => exact obsOf_tok_eq s _ (by rw [htok]; rfl) (by rw [htok]; rfl)
  | rawLt el acc => exact obsOf_tok_eq s _ (by rw [htok]; rfl) (by rw [htok]; rfl)
  | rawEndOpen el acc => exact obsOf_tok_eq s _ (by rw [htok]; rfl) (by rw [htok]; rfl)
  | rawEndName el acc nm => exact obsOf_tok_eq s _ (by rw [htok]; rfl) (by rw [htok]; rfl)

theorem writeChunk_obs (bb : BubbleBath) (s : RS) (chunk : List Char) :
    obsOf (writeChunk bb s chunk) = chunk.foldl (obsStep bb) (obsOf s) := by
  show obsOf (applyEvents bb
    { feedChars bb s chunk with
      tok := (tokChunkFlush (feedChars bb s chunk).tok).1 }
    (tokChunkFlush (feedChars bb s chunk).tok).2) = _
  rw [chunkFlush_obs, feedChars_obs]

theorem chunkStep_obs (bb : BubbleBath) (s : RS) (chunk : List Char) :
    obsOf (chunkStep bb s chunk) = chunk.foldl (obsStep bb) (obsOf s) := by
  show obsOf (writeChunk bb
    { s with counter := countUnclosedOpeningTags s.counter chunk } chunk) = _
  rw [writeChunk_obs]
  rfl

theorem chunkPhase_obs (bb : BubbleBath) (chunks : List (List Char)) :
    obsOf (chunkPhase bb chunks) =
      chunks.flatten.foldl (obsStep bb) (obsOf initRS) := by
  have hgen : ∀ (l : List (List Char)) (s : RS),
      obsOf (l.foldl (chunkStep bb) s) =
        l.flatten.foldl (obsStep bb) (obsOf s) := by
    intro l
    induction l with
    | nil => intro s; rfl
    | cons ck rest ih =>
      intro s
      show obsOf (rest.foldl (chunkStep bb) (chunkStep bb s ck)) =
        (ck ++ rest.flatten).foldl (obsStep bb) (obsOf s)
      rw [ih (chunkStep bb s ck), chunkStep_obs, List.foldl_append]
  exact hgen chunks initRS

theorem padFold_obs (bb : BubbleBath) : ∀ (l : List Char) (s : RS),
    obsOf (l.foldl (fun s c => writeChunk bb s [c]) s) =
      l.foldl (obsStep bb) (obsOf s) := by
  intro l
  induction l with
  | nil => intro s; rfl
  | cons c rest ih =>
    intro s
    show obsOf (rest.foldl (fun s c => writeChunk bb s [c])
        (writeChunk bb s [c])) =
      rest.foldl (obsStep bb) (obsStep bb (obsOf s) c)
    rw [ih (writeChunk bb s [c]), writeChunk_obs]
    rfl

theorem tokFlush_norm_bytes (bb : BubbleBath) (k : Core) (tok : Tok) :
    renderOut (evsDelta bb k (tokFlush tok)) =
      (if suppressed k.stk then [] else cleanText (pendingOf tok)) ++
        renderOut (evsDelta bb k (tokFlush (normTok tok))) := by
  cases tok with
  | data acc =>
    show renderOut (evsDelta bb k (textEvent acc)) =
      (if suppressed k.stk then [] else cleanText acc) ++
        renderOut (evsDelta bb k (textEvent []))
    rw [renderOut_textEvent, renderOut_textEvent, filt_nil, List.append_nil]
  | rawData el acc =>
    show renderOut (evsDelta bb k (textEvent acc)) =
      (if suppressed k.stk then [] else cleanText acc) ++
        renderOut (evsDelta bb k (textEvent []))
    rw [renderOut_textEvent, renderOut_textEvent, filt_nil, List.append_nil]
  | rawLt el acc =>
    show renderOut (evsDelta bb k (textEvent (acc ++ ['<']))) =
      (if suppressed k.stk then [] else cleanText acc) ++
        renderOut (evsDelta bb k (textEvent ([] ++ ['<'])))
    rw [renderOut_textEvent, renderOut_textEvent, List.nil_append,
      filt_append]
  | rawEndOpen el acc =>
    show renderOut (evsDelta bb k (textEvent (acc ++ ['<', '/']))) =
      (if suppressed k.stk then [] else cleanText acc) ++
        renderOut (evsDelta bb k (textEvent ([] ++ ['<', '/'])))
    rw [renderOut_textEvent, renderOut_textEvent, List.nil_append,
      filt_append]
  | rawEndName el acc nm =>
    show renderOut (evsDelta bb k (textEvent (acc ++ '<' :: '/' :: nm))) =
      (if suppressed k.stk then [] else cleanText acc) ++
        renderOut (evsDelta bb k (textEvent ([] ++ '<' :: '/' :: nm)))
    rw [renderOut_textEvent, renderOut_textEvent, List.nil_append,
      filt_append]
  | tagOpen => rw [show normTok Tok.tagOpen = Tok.tagOpen from rfl,
      show pendingOf Tok.tagOpen = [] from rfl, filt_nil, List.nil_append]
  | endTagOpen => rw [show normTok Tok.endTagOpen = Tok.endTagOpen from rfl,
      show pendingOf Tok.endTagOpen = [] from rfl, filt_nil, List.nil_append]
  | tagName t => rw [show normTok (Tok.tagName t) = Tok.tagName t from rfl,
      show pendingOf (Tok.tagName t) = [] from rfl, filt_nil, List.nil_append]
  | beforeAttrName t =>
    rw [show normTok (Tok.beforeAttrName t) = Tok.beforeAttrName t from rfl,
      show pendingOf (Tok.beforeAttrName t) = [] from rfl, filt_nil,
      List.nil_append]
  | attrName t an =>
    rw [show normTok (Tok.attrName t an) = Tok.attrName t an from rfl,
      show pendingOf (Tok.attrName t an) = [] from rfl, filt_nil,
      List.nil_append]
  | afterAttrName t an =>
    rw [show normTok (Tok.afterAttrName t an) = Tok.afterAttrName t an from rfl,
      show pendingOf (Tok.afterAttrName t an) = [] from rfl, filt_nil,
      List.nil_append]
  | beforeAttrVal t an =>
    rw [show normTok (Tok.beforeAttrVal t an) = Tok.beforeAttrVal t an from rfl,
      show pendingOf (Tok.beforeAttrVal t an) = [] from rfl, filt_nil,
      List.nil_append]
  | attrValDq t an av =>
    rw [show normTok (Tok.attrValDq t an av) = Tok.attrValDq t an av from rfl,
      show pendingOf (Tok.attrValDq t an av) = [] from rfl, filt_nil,
      List.nil_append]
  | attrValSq t an av =>
    rw [show normTok (Tok.attrValSq t an av) = Tok.attrValSq t an av from rfl,
      show pendingOf (Tok.attrValSq t an av) = [] from rfl, filt_nil,
      List.nil_append]
  | attrValUnq t an av =>
    rw [show normTok (Tok.attrValUnq t an av) = Tok.attrValUnq t an av from rfl,
      show pendingOf (Tok.attrValUnq t an av) = [] from rfl, filt_nil,
      List.nil_append]
  | afterAttrValQ t =>
    rw [show normTok (Tok.afterAttrValQ t) = Tok.afterAttrValQ t from rfl,
      show pendingOf (Tok.afterAttrValQ t) = [] from rfl, filt_nil,
      List.nil_append]
  | selfClosingStart t =>
    rw [show normTok (Tok.selfClosingStart t) = Tok.selfClosingStart t from rfl,
      show pendingOf (Tok.selfClosingStart t) = [] from rfl, filt_nil,
      List.nil_append]
  | endTagName nm =>
    rw [show normTok (Tok.endTagName nm) = Tok.endTagName nm from rfl,
      show pendingOf (Tok.endTagName nm) = [] from rfl, filt_nil,
      List.nil_append]
  | endTagRest nm =>
    rw [show normTok (Tok.endTagRest nm) = Tok.endTagRest nm from rfl,
      show pendingOf (Tok.endTagRest nm) = [] from rfl, filt_nil,
      List.nil_append]
  | markupDeclOpen =>
    rw [show normTok Tok.markupDeclOpen = Tok.markupDeclOpen from rfl,
      show pendingOf Tok.markupDeclOpen = [] from rfl, filt_nil,
      List.nil_append]
  | markupDeclDash =>
    rw [show normTok Tok.markupDeclDash = Tok.markupDeclDash from rfl,
      show pendingOf Tok.markupDeclDash = [] from rfl, filt_nil,
      List.nil_append]
  | commentBody acc =>
    rw [show normTok (Tok.commentBody acc) = Tok.commentBody acc from rfl,
      show pendingOf (Tok.commentBody acc) = [] from rfl, filt_nil,
      List.nil_append]
  | commentDash acc =>
    rw [show normTok (Tok.commentDash acc) = Tok.commentDash acc from rfl,
      show pendingOf (Tok.commentDash acc) = [] from rfl, filt_nil,
      List.nil_append]
  | commentDashDash acc =>
    rw [show normTok (Tok.commentDashDash acc) = Tok.commentDashDash acc
        from rfl,
      show pendingOf (Tok.commentDashDash acc) = [] from rfl, filt_nil,
      List.nil_append]
  | bogusComment acc =>
    rw [show normTok (Tok.bogusComment acc) = Tok.bogusComment acc from rfl,
      show pendingOf (Tok.bogusComment acc) = [] from rfl, filt_nil,
      List.nil_append]

/-- `rewriter.end()` only appends bytes determined by the observation. -/
theorem docEnd_bytes (bb : BubbleBath) (s : RS) :
    renderOut (docEnd bb s).out = obsBytes s ++ docExtra bb (obsOf s) := by
  have hspec := applyEvents_spec bb (tokFlush s.tok)
    { s with tok := Tok.data [] }
  have hq := tokFlush_quiet s.tok
  have hcore1 : coreOf (applyEvents bb { s with tok := Tok.data [] }
      (tokFlush s.tok)) = coreOf s := by
    rw [hspec.1, evsCore_quiet bb _ hq]
    rfl
  have hslab1 : (applyEvents bb { s with tok := Tok.data [] }
      (tokFlush s.tok)).slab = s.slab := by
    have h0 : (applyEvents bb { s with tok := Tok.data [] }
        (tokFlush s.tok)).slab =
      (coreOf (applyEvents bb { s with tok := Tok.data [] }
        (tokFlush s.tok))).slab := rfl
    rw [h0, hcore1]
    rfl
  show renderOut ((applyEvents bb { s with tok := Tok.data [] }
      (tokFlush s.tok)).out ++
      ((applyEvents bb { s with tok := Tok.data [] }
        (tokFlush s.tok)).slab.entries.map fun e => Piece.closer e.2)) = _
  rw [hslab1, hspec.2, renderOut_append]
  show renderOut (s.out ++ evsDelta bb (coreOf s) (tokFlush s.tok)) ++
      renderOut (s.slab.entries.map fun e => Piece.closer e.2) = _
  rw [renderOut_append, tokFlush_norm_bytes]
  show renderOut s.out ++
      ((if suppressed s.stk then [] else cleanText (pendingOf s.tok)) ++
        renderOut (evsDelta bb (coreOf s) (tokFlush (normTok s.tok)))) ++
      renderOut (s.slab.entries.map fun e => Piece.closer e.2) =
    (renderOut s.out ++
      (if suppressed s.stk then [] else cleanText (pendingOf s.tok))) ++
      (renderOut (evsDelta bb (coreOf s) (tokFlush (normTok s.tok))) ++
        renderOut (s.slab.entries.map fun e => Piece.closer e.2))
  simp only [List.append_assoc]

/-- The observation after all chunks and the synthetic padding. -/
def obsRun (bb : BubbleBath) (chunks : List (List Char)) : Obs :=
  (List.replicate (padCountOf bb chunks) '>').foldl (obsStep bb)
    (chunks.flatten.foldl (obsStep bb) (obsOf initRS))

/-- The streamed output bytes are a function of the flattened input and
the final value of the pending angle-bracket counter. -/
theorem cleanStreamingOut_det (bb : BubbleBath) (chunks : List (List Char)) :
    cleanStreamingOut bb chunks =
      (obsRun bb chunks).bytes ++ docExtra bb (obsRun bb chunks) := by
  show renderOut (docEnd bb
    ((List.replicate (chunkPhase bb chunks).counter '>').foldl
      (fun s c => writeChunk bb s [c]) (chunkPhase bb chunks))).out = _
  rw [docEnd_bytes]
  have ho : obsOf ((List.replicate (chunkPhase bb chunks).counter '>').foldl
      (fun s c => writeChunk bb s [c]) (chunkPhase bb chunks)) =
      obsRun bb chunks := by
    rw [padFold_obs, chunkPhase_obs]
    rfl
  have hb : obsBytes ((List.replicate (chunkPhase bb chunks).counter '>').foldl
      (fun s c => writeChunk bb s [c]) (chunkPhase bb chunks)) =
      (obsRun bb chunks).bytes := by
    rw [← ho]
    rfl
  rw [ho, hb]

/-- C1 counterexample: splitting the input between the two stray `>` and
the two stray `<` leaves the pending angle-bracket counter at 1 instead
of 0, so one synthetic `>` is appended and the outputs differ, although
the concatenated input bytes are identical. -/
theorem c1_streaming_counterexample :
    [">><<".data].flatten = [">>".data, "<<".data].flatten ∧
    cleanStreamingOut bbDefault [">><<".data] ≠
      cleanStreamingOut bbDefault [">>".data, "<<".data] :=
  ⟨by decide, by decide⟩

/-- C1, amended: chunk boundaries influence the output only through the
pending angle-bracket counter.  For any two chunkings of the same byte
sequence whose final counter values (the synthetic `>` pad counts)
agree — in particular for any split inside a tag, such as the spec's
two-chunk split of a script element — the sanitizer produces
byte-identical output. -/
theorem c1_streaming_amended (bb : BubbleBath) (A B : List (List Char))
    (hflat : A.flatten = B.flatten)
    (hpad : padCountOf bb A = padCountOf bb B) :
    cleanStreamingOut bb A = cleanStreamingOut bb B := by
  have hobs : obsRun bb A = obsRun bb B := by
    unfold obsRun
    rw [hflat, hpad]
  rw [cleanStreamingOut_det, cleanStreamingOut_det, hobs]

theorem c1_streaming_amended_witness :
    ["<scri".data, "pt>evil</script>".data].flatten =
      ["<script>evil</script>".data].flatten ∧
    padCountOf bbDefault ["<scri".data, "pt>evil</script>".data] =
      padCountOf bbDefault ["<script>evil</script>".data] ∧
    cleanStreamingOut bbDefault ["<scri".data, "pt>evil</script>".data] =
      cleanStreamingOut bbDefault ["<script>evil</script>".data] :=
  ⟨by decide, by decide,
    c1_streaming_amended bbDefault _ _ (by decide) (by decide)⟩
